import Mathlib

/-!
# pads::splay_tree (src/cpp/splay_tree.hpp): a verification development

The top-down splay tree of `splay_tree.hpp` is embedded as follows.

* A value of type `node K T` is what a `node_type*` link leads to:
  `node.null_node` is a link to the tree's sentinel, `node.mk k t l r` is a link
  to a real node with key `k`, value `t` and child links `l`, `r`.
* The sentinel object itself (`*null_node`: its key, value, two links, and
  whether its storage is still allocated) is the record `sentinel`, kept in the
  tree state, because `splay` writes its key and `remove` may release it.
* `comp` is `std::less<K>`, that is `<` of a linear order, and `==`/`!=` on
  keys is equality.
* The two trees under construction inside `splay` (hanging off `header`) are
  lists of linked nodes whose inner link is still pending, innermost first.
* `remove` on an empty tree releases the sentinel. A public operation called
  after that has no defined behaviour: `exec_op`, `exec`, `exec_call`,
  `exec_calls`, `exec_steps` and `exec_contains` run the operations and give
  `none` there. `apply_op`, `run`, `run_calls` and `run_steps` are the state
  transformers they are built from.

The development also embeds the generator `lcg` of the same header, the
functions of `integer.hpp`, the class `primes` of `primes.hpp`, and the
set-only `dsaa::splay_tree<T>` of `dsaa.hpp` (namespace `dsaa`):

* `int` and `integer` values are integers, wrapped by `int32` and `int64`
  after every arithmetic operation; `/` and `%` are `Int.tdiv` and `Int.tmod`,
  which truncate toward zero.
* A loop that the source does not bound takes a bound on its iterations and
  returns `none` when the bound is used up.
-/

namespace pads

variable {K T : Type}

/-- What a `node_type*` link leads to: the sentinel, or a real node built by
`node(k, t, l, r)`. -/
inductive node (K T : Type) where
  | null_node : node K T
  | mk (key : K) (value : T) (left right : node K T) : node K T
  deriving DecidableEq, Repr

/-- The sentinel object `*null_node`. `allocated` turns false when
`node_alloc.deallocate` is called on it. -/
structure sentinel (K T : Type) where
  key : K
  value : T
  left : node K T
  right : node K T
  allocated : Bool
  deriving DecidableEq, Repr

/-- The data members of `splay_tree`: the sentinel and the root link. -/
structure splay_tree (K T : Type) where
  null : sentinel K T
  root : node K T
  deriving DecidableEq, Repr

/-- The error thrown by `find_min` and `find_max`. -/
inductive underflow_error where
  | empty_tree : underflow_error
  deriving DecidableEq, Repr

/-- Embeds `is_null(n)`: `n == null_node`. -/
def is_null (n : node K T) : Bool :=
  match n with
  | .null_node => true
  | .mk _ _ _ _ => false

/-- Embeds `n->key`. -/
def node.key (n : node K T) (s : sentinel K T) : K :=
  match n with
  | .null_node => s.key
  | .mk k _ _ _ => k

/-- Embeds `n->value`. -/
def node.value (n : node K T) (s : sentinel K T) : T :=
  match n with
  | .null_node => s.value
  | .mk _ t _ _ => t

/-- Embeds `n->left`. -/
def node.left (n : node K T) (s : sentinel K T) : node K T :=
  match n with
  | .null_node => s.left
  | .mk _ _ l _ => l

/-- Embeds `n->right`. -/
def node.right (n : node K T) (s : sentinel K T) : node K T :=
  match n with
  | .null_node => s.right
  | .mk _ _ _ r => r

/-- Embeds `reset_null_node()`: a fresh sentinel `node_type()` with both links set to
itself. -/
def reset_null_node [Inhabited K] [Inhabited T] : sentinel K T :=
  { key := default, value := default, left := .null_node, right := .null_node,
    allocated := true }

/-- Embeds `splay_tree()`. -/
def splay_tree.new [Inhabited K] [Inhabited T] : splay_tree K T :=
  { null := reset_null_node, root := .null_node }

/-- Embeds `get_new_node(k, t, l, r)`. -/
def get_new_node (k : K) (t : T) (l r : node K T) : node K T :=
  .mk k t l r

/-- Embeds `left_rotation(n)`: `k = n->left; n->left = k->right; k->right = n; n = k`.
`splay` calls it only when `n->left` is a real node. -/
def left_rotation (n : node K T) : node K T :=
  match n with
  | .mk x v (.mk y w ll lr) r => .mk y w ll (.mk x v lr r)
  | n => n

/-- Embeds `right_rotation(n)`: `k = n->right; n->right = k->left; k->left = n; n = k`.
`splay` calls it only when `n->right` is a real node. -/
def right_rotation (n : node K T) : node K T :=
  match n with
  | .mk x v l (.mk y w rl rr) => .mk y w (.mk x v l rl) rr
  | n => n

/-- A node linked into one of the two trees under `header`: its key, its value
and the child it keeps; its other link is the pending one. -/
abbrev linked (K T : Type) := K × T × node K T

/-- The value of `header.right` once `leftTreeMax->right = t` has run: the nodes
linked left (innermost first), each with a right link to the next. -/
def attach_right : List (linked K T) → node K T → node K T
  | [], t => t
  | (x, v, l) :: rest, t => attach_right rest (.mk x v l t)

/-- The value of `header.left` once `rightTreeMin->left = t` has run. -/
def attach_left : List (linked K T) → node K T → node K T
  | [], t => t
  | (x, v, r) :: rest, t => attach_left rest (.mk x v t r)

/-- The `for (;;)` loop of `splay`, with the sentinel key already set to `k`.
`lt` and `rt` are the left and right trees under construction. The first
argument bounds the number of iterations. -/
def splay_loop [LinearOrder K] (k : K) (s : sentinel K T) :
    Nat → node K T → List (linked K T) → List (linked K T) →
      node K T × List (linked K T) × List (linked K T)
  | 0, n, lt, rt => (n, lt, rt)
  | fuel + 1, n, lt, rt =>
    if k < n.key s then
      let n := if k < (n.left s).key s then left_rotation n else n
      if is_null (n.left s) then (n, lt, rt)
      else splay_loop k s fuel (n.left s) lt ((n.key s, n.value s, n.right s) :: rt)
    else if n.key s < k then
      let n := if (n.right s).key s < k then right_rotation n else n
      if is_null (n.right s) then (n, lt, rt)
      else splay_loop k s fuel (n.right s) ((n.key s, n.value s, n.left s) :: lt) rt
    else (n, lt, rt)

/-- Number of real nodes under a link. -/
def size : node K T → Nat
  | .null_node => 0
  | .mk _ _ l r => size l + 1 + size r

/-- Embeds `splay(k, n)`: returns the sentinel and the link `n` after the call. -/
def splay [LinearOrder K] (k : K) (s : sentinel K T) (n : node K T) :
    sentinel K T × node K T :=
  let s := { s with key := k }
  match splay_loop k s (size n) n [] [] with
  | (n, lt, rt) =>
    let header_right := attach_right lt (n.left s)
    let header_left := attach_left rt (n.right s)
    match n with
    | .mk x v _ _ => (s, .mk x v header_right header_left)
    | .null_node => ({ s with left := header_right, right := header_left }, .null_node)

/-- Embeds `empty()`. -/
def empty (t : splay_tree K T) : Bool := is_null t.root

/-- Embeds `while (!is_null(n->left)) n = n->left;` -/
def leftmost : node K T → node K T
  | .mk _ _ (.mk y w ll lr) _ => leftmost (.mk y w ll lr)
  | n => n

/-- Embeds `while (!is_null(n->right)) n = n->right;` -/
def rightmost : node K T → node K T
  | .mk _ _ _ (.mk y w rl rr) => rightmost (.mk y w rl rr)
  | n => n

/-- Embeds `splay(k, root)`. -/
def splay_root [LinearOrder K] (k : K) (t : splay_tree K T) : splay_tree K T :=
  let r := splay k t.null t.root
  { null := r.1, root := r.2 }

/-- Embeds `find_min()`: the returned value or the thrown error, and the tree after
the call. -/
def find_min [LinearOrder K] (t : splay_tree K T) :
    Except underflow_error T × splay_tree K T :=
  if empty t then (.error .empty_tree, t)
  else
    let n := leftmost t.root
    let t1 := splay_root (n.key t.null) t
    (.ok (n.value t1.null), t1)

/-- Embeds `find_max()`. -/
def find_max [LinearOrder K] (t : splay_tree K T) :
    Except underflow_error T × splay_tree K T :=
  if empty t then (.error .empty_tree, t)
  else
    let n := rightmost t.root
    let t1 := splay_root (n.key t.null) t
    (.ok (n.value t1.null), t1)

/-- Embeds `contains(k)`. -/
def contains [LinearOrder K] (k : K) (t : splay_tree K T) : Bool × splay_tree K T :=
  if empty t then (false, t)
  else
    let t1 := splay_root k t
    (decide (t1.root.key t1.null = k), t1)

/-- Embeds `insert(k, t)`. In the two split branches the old root, with the link it
hands over reset to `null_node`, is the other child of the new node. -/
def insert [LinearOrder K] (k : K) (v : T) (t : splay_tree K T) : Bool × splay_tree K T :=
  if is_null t.root then
    (true, { t with root := get_new_node k v .null_node .null_node })
  else
    let t1 := splay_root k t
    match t1.root with
    | .null_node => (false, { t1 with null := { t1.null with value := v } })
    | .mk x w l r =>
      if k < x then
        (true, { t1 with root := get_new_node k v l (.mk x w .null_node r) })
      else if x < k then
        (true, { t1 with root := get_new_node k v (.mk x w l .null_node) r })
      else
        (false, { t1 with root := .mk x v l r })

/-- Embeds `new_root->right = r`. -/
def set_right (s : sentinel K T) (n : node K T) (r : node K T) :
    sentinel K T × node K T :=
  match n with
  | .null_node => ({ s with right := r }, .null_node)
  | .mk x v l _ => (s, .mk x v l r)

/-- Embeds `node_alloc.deallocate(n, 1)`: releasing a real node drops it; releasing
the sentinel leaves `null_node` dangling. The record keeps the fields the
sentinel had, but from then on they are not the program's data: on a released
sentinel `exec_op`, `exec_call`, `exec_steps` and `exec_contains` give no
result. -/
def deallocate (s : sentinel K T) (n : node K T) : sentinel K T :=
  match n with
  | .null_node => { s with allocated := false }
  | .mk _ _ _ _ => s

/-- Embeds `remove(k)`. -/
def remove [LinearOrder K] (k : K) (t : splay_tree K T) : splay_tree K T :=
  let t1 := splay_root k t
  if t1.root.key t1.null ≠ k then t1
  else
    let r :=
      if is_null (t1.root.left t1.null) then (t1.null, t1.root.right t1.null)
      else
        let r1 := splay k t1.null (t1.root.left t1.null)
        set_right r1.1 r1.2 (t1.root.right r1.1)
    { null := deallocate r.1 t1.root, root := r.2 }

/-- The `while (!empty())` loop of `clear()`: the tree when the loop has ended
and the number of rounds it ran, or `none` when it has not ended within the
given number of rounds. -/
def clear_loop [LinearOrder K] : Nat → splay_tree K T → Option (splay_tree K T × Nat)
  | 0, t => if empty t then some (t, 0) else none
  | fuel + 1, t =>
    if empty t then some (t, 0)
    else
      let t1 := (find_max t).2
      let t2 := remove (t1.root.key t1.null) t1
      (clear_loop fuel t2).map (fun r => (r.1, r.2 + 1))

/-- Embeds `clear()`. Every round releases at least the root, so `size root` rounds
are enough (`clear_loop_size`). -/
def clear [LinearOrder K] (t : splay_tree K T) : splay_tree K T :=
  match clear_loop (size t.root) t with
  | some r => r.1
  | none => t

/-- In-order traversal of the real nodes under a link. -/
def inorder : node K T → List (K × T)
  | .null_node => []
  | .mk k v l r => inorder l ++ (k, v) :: inorder r

/-- The keys of the real nodes under a link, in in-order. -/
def keys (n : node K T) : List K := (inorder n).map Prod.fst

/-- The public operations. -/
inductive op (K T : Type) where
  | insert (k : K) (v : T) : op K T
  | remove (k : K) : op K T
  | contains (k : K) : op K T
  | find_min : op K T
  | find_max : op K T
  | clear : op K T
  deriving DecidableEq, Repr

/-- The state one public operation computes from a state. It is what the
program does only while the sentinel is allocated: see `exec_op`. -/
def apply_op [LinearOrder K] (t : splay_tree K T) : op K T → splay_tree K T
  | .insert k v => (insert k v t).2
  | .remove k => remove k t
  | .contains k => (contains k t).2
  | .find_min => (find_min t).2
  | .find_max => (find_max t).2
  | .clear => clear t

/-- The state a sequence of public operations computes from a state, one
operation after the other. It is what the program does only while the sentinel
is allocated: see `exec`. -/
def run [LinearOrder K] (t : splay_tree K T) (ops : List (op K T)) : splay_tree K T :=
  ops.foldl apply_op t

/-- In-order traversal of the left tree under construction. -/
def inorder_lt : List (linked K T) → List (K × T)
  | [] => []
  | (x, v, l) :: rest => inorder_lt rest ++ (inorder l ++ [(x, v)])

/-- In-order traversal of the right tree under construction. -/
def inorder_rt : List (linked K T) → List (K × T)
  | [] => []
  | (x, v, r) :: rest => ((x, v) :: inorder r) ++ inorder_rt rest

/-- The ordering invariant: the in-order traversal is strictly increasing in
key. -/
def ordered [LT K] (n : node K T) : Prop :=
  (inorder n).Pairwise (fun p q => p.1 < q.1)

/-- The state invariant between calls: the ordering invariant, and the
sentinel's two links lead to the sentinel itself. -/
def wf [LT K] (t : splay_tree K T) : Prop :=
  ordered t.root ∧ t.null.left = .null_node ∧ t.null.right = .null_node

/-- Whether an operation is `insert(k, _)` or `remove(k)` for the given `k`. -/
def op.names [DecidableEq K] (k : K) : op K T → Bool
  | .insert k1 _ => decide (k1 = k)
  | .remove k1 => decide (k1 = k)
  | _ => false

/-- Whether an operation is an `insert`. -/
def op.is_insert : op K T → Bool
  | .insert _ _ => true
  | _ => false

/-- Whether an operation is an `insert` or a `remove`. -/
def op.is_update : op K T → Bool
  | .insert _ _ => true
  | .remove _ => true
  | _ => false

/-- The claim's "k was inserted and not removed afterwards": the last operation
of the sequence that names `k` exists and is an insert. -/
def inserted_last [DecidableEq K] (k : K) (ops : List (op K T)) : Bool :=
  match (ops.filter (op.names k)).getLast? with
  | some o => o.is_insert
  | none => false

/-- Embeds `clone(n)`, run by the tree being built on a link `n` of the tree
`rhs`, whose sentinel is `rhs_null`. The test `n == n->left` holds only when `n`
is the self-looped sentinel of `rhs`; the result is then the link to the
builder's own sentinel. In the else branch the declaration
`node_type* n = get_new_node(n->key, n->value, clone(n->left), clone(n->right))`
has the new local `n` in scope inside its own initialiser, so the key, the
value and the two links are read through an uninitialised pointer instead of
the parameter: the call has no defined result (`none`). -/
def clone (rhs_null : sentinel K T) (n : node K T) : Option (node K T) :=
  match n with
  | .null_node => if is_null rhs_null.left then some .null_node else none
  | .mk _ _ _ _ => none

/-- Embeds `operator=(rhs)` for two distinct objects (`this != &rhs`):
`clear(); root = clone(rhs.root);`. -/
def operator_assign [LinearOrder K] (t rhs : splay_tree K T) : Option (splay_tree K T) :=
  let t1 := clear t
  match clone rhs.null rhs.root with
  | some r => some { t1 with root := r }
  | none => none

/-- Embeds the copy constructor `splay_tree(const splay_tree& rhs)`:
`reset_null_node(); root = null_node; *this = rhs;`. -/
def splay_tree.copy [LinearOrder K] [Inhabited K] [Inhabited T] (rhs : splay_tree K T) :
    Option (splay_tree K T) :=
  operator_assign splay_tree.new rhs

/-- Embeds `operator[](k)`: `if (!contains(k)) insert(k, T()); return root->value;`.
The value the returned reference leads to, and the tree after the call. -/
def operator_index [LinearOrder K] [Inhabited T] (k : K) (t : splay_tree K T) :
    T × splay_tree K T :=
  let c := contains k t
  let t1 := if !c.1 then (insert k default c.2).2 else c.2
  (t1.root.value t1.null, t1)

/-- The public operations, `operator[]` included. -/
inductive call (K T : Type) where
  | op (o : op K T) : call K T
  | index (k : K) : call K T
  deriving DecidableEq, Repr

/-- The state one public operation, `operator[]` included, computes from a
state. It is what the program does only while the sentinel is allocated: see
`exec_call`. -/
def apply_call [LinearOrder K] [Inhabited T] (t : splay_tree K T) : call K T → splay_tree K T
  | .op o => apply_op t o
  | .index k => (operator_index k t).2

/-- The state a sequence of public operations, `operator[]` included, computes
from a state. It is what the program does only while the sentinel is
allocated: see `exec_calls`. -/
def run_calls [LinearOrder K] [Inhabited T] (t : splay_tree K T) (cs : List (call K T)) :
    splay_tree K T :=
  cs.foldl apply_call t

/-- Embeds one pass through the body of the `for (;;)` loop of `splay`, with
the sentinel key already set to `k`: whether the loop goes on (`true`) or is
left by `break` (`false`), and the working node and the two trees under
construction after the pass. -/
def splay_body [LinearOrder K] (k : K) (s : sentinel K T)
    (st : node K T × List (linked K T) × List (linked K T)) :
    Bool × (node K T × List (linked K T) × List (linked K T)) :=
  if k < st.1.key s then
    let n := if k < (st.1.left s).key s then left_rotation st.1 else st.1
    if is_null (n.left s) then (false, (n, st.2.1, st.2.2))
    else (true, (n.left s, st.2.1, (n.key s, n.value s, n.right s) :: st.2.2))
  else if st.1.key s < k then
    let n := if (st.1.right s).key s < k then right_rotation st.1 else st.1
    if is_null (n.right s) then (false, (n, st.2.1, st.2.2))
    else (true, (n.right s, (n.key s, n.value s, n.left s) :: st.2.1, st.2.2))
  else (false, st)

/-- Number of passes through the body of the `for (;;)` loop of `splay` from
the given state on, the pass that leaves by `break` included. The first
argument bounds the number of passes. -/
def splay_passes [LinearOrder K] (k : K) (s : sentinel K T) :
    Nat → node K T × List (linked K T) × List (linked K T) → Nat
  | 0, _ => 0
  | fuel + 1, st =>
    if (splay_body k s st).1 then splay_passes k s fuel (splay_body k s st).2 + 1 else 1

/-- Number of passes through the loop in one call `splay(k, n)`. -/
def splay_steps [LinearOrder K] (k : K) (s : sentinel K T) (n : node K T) : Nat :=
  splay_passes k { s with key := k } (size n + 1) (n, [], [])

/-- Loop passes of the one `splay` call in `contains(k)`. -/
def contains_steps [LinearOrder K] (k : K) (t : splay_tree K T) : Nat :=
  if empty t then 0 else splay_steps k t.null t.root

/-- Loop passes of the one `splay` call in `find_min()`. -/
def find_min_steps [LinearOrder K] (t : splay_tree K T) : Nat :=
  if empty t then 0 else splay_steps ((leftmost t.root).key t.null) t.null t.root

/-- Loop passes of the one `splay` call in `find_max()`. -/
def find_max_steps [LinearOrder K] (t : splay_tree K T) : Nat :=
  if empty t then 0 else splay_steps ((rightmost t.root).key t.null) t.null t.root

/-- Loop passes of the one `splay` call in `insert(k, t)`. -/
def insert_steps [LinearOrder K] (k : K) (t : splay_tree K T) : Nat :=
  if is_null t.root then 0 else splay_steps k t.null t.root

/-- Loop passes of the one or two `splay` calls in `remove(k)`. -/
def remove_steps [LinearOrder K] (k : K) (t : splay_tree K T) : Nat :=
  let t1 := splay_root k t
  splay_steps k t.null t.root +
    (if t1.root.key t1.null ≠ k then 0
     else if is_null (t1.root.left t1.null) then 0
     else splay_steps k t1.null (t1.root.left t1.null))

/-- Loop passes of all `splay` calls in the rounds of `clear()`. -/
def clear_steps [LinearOrder K] : Nat → splay_tree K T → Nat
  | 0, _ => 0
  | fuel + 1, t =>
    if empty t then 0
    else
      let t1 := (find_max t).2
      find_max_steps t + remove_steps (t1.root.key t1.null) t1 +
        clear_steps fuel (remove (t1.root.key t1.null) t1)

/-- Loop passes of all `splay` calls in one public operation. -/
def op_steps [LinearOrder K] (t : splay_tree K T) : op K T → Nat
  | .insert k _ => insert_steps k t
  | .remove k => remove_steps k t
  | .contains k => contains_steps k t
  | .find_min => find_min_steps t
  | .find_max => find_max_steps t
  | .clear => clear_steps (size t.root) t

/-- Embeds the body of the loop of `clear()`: `find_max(); remove(root->key);`. -/
def clear_round [LinearOrder K] (t : splay_tree K T) : splay_tree K T :=
  let t1 := (find_max t).2
  remove (t1.root.key t1.null) t1

/-- One public operation as the program runs it. Every public operation
compares `root` with `null_node` or reads and writes the sentinel through it;
once `remove` has released the sentinel both pointers dangle, and the call has
no defined behaviour: `none`. -/
def exec_op [LinearOrder K] (t : splay_tree K T) (o : op K T) : Option (splay_tree K T) :=
  if t.null.allocated then some (apply_op t o) else none

/-- A sequence of public operations as the program runs it: the tree after the
last one, or `none` when one of them is called after the sentinel has been
released. -/
def exec [LinearOrder K] : splay_tree K T → List (op K T) → Option (splay_tree K T)
  | t, [] => some t
  | t, o :: ops => (exec_op t o).bind (fun t1 => exec t1 ops)

/-- The value `contains(k)` returns as the program runs it: `none` on a tree
whose sentinel has been released. -/
def exec_contains [LinearOrder K] (k : K) (t : splay_tree K T) : Option Bool :=
  if t.null.allocated then some (contains k t).1 else none

/-- One public operation, `operator[]` included, as the program runs it: `none`
on a tree whose sentinel has been released. -/
def exec_call [LinearOrder K] [Inhabited T] (t : splay_tree K T) (c : call K T) :
    Option (splay_tree K T) :=
  if t.null.allocated then some (apply_call t c) else none

/-- A sequence of public operations, `operator[]` included, as the program runs
it. -/
def exec_calls [LinearOrder K] [Inhabited T] :
    splay_tree K T → List (call K T) → Option (splay_tree K T)
  | t, [] => some t
  | t, c :: cs => (exec_call t c).bind (fun t1 => exec_calls t1 cs)

/-- Loop passes of all `splay` calls in a sequence of public operations as the
program runs it: `none` when one of the operations is called after the
sentinel has been released. -/
def exec_steps [LinearOrder K] : splay_tree K T → List (op K T) → Option Nat
  | _, [] => some 0
  | t, o :: ops =>
    if t.null.allocated then (exec_steps (apply_op t o) ops).map (fun s => op_steps t o + s)
    else none

/-! ## The generator lcg (splay_tree.hpp) -/

/-- Two's-complement wrap of an integer into the range of a 32-bit `int`. -/
def int32 (z : Int) : Int := (z + 2147483648) % 4294967296 - 2147483648

/-- The constant `M` of `enum { M = 2147483647, A = 48271, Q = M / A, R = M % A }`. -/
def lcg.M : Int := 2147483647

/-- The constant `A` of `lcg`. -/
def lcg.A : Int := 48271

/-- The constant `Q = M / A` of `lcg`. -/
def lcg.Q : Int := Int.tdiv lcg.M lcg.A

/-- The constant `R = M % A` of `lcg`. -/
def lcg.R : Int := Int.tmod lcg.M lcg.A

/-- The class `lcg`: its one data member, `int state`. -/
structure lcg where
  state : Int
  deriving DecidableEq, Repr

/-- Embeds the constructor `lcg(int x0)`: `if (x0 < 0) x0 += M; state = (x0 ? x0 : 1);`. -/
def lcg.new (x0 : Int) : lcg :=
  let x1 := if x0 < 0 then int32 (x0 + lcg.M) else x0
  { state := if x1 ≠ 0 then x1 else 1 }

/-- The value of `tmp` in `random_integer()`:
`A * (state % Q) - R * (state / Q)`, every operation in 32-bit `int`. -/
def lcg.tmp (g : lcg) : Int :=
  int32 (int32 (lcg.A * Int.tmod g.state lcg.Q) - int32 (lcg.R * Int.tdiv g.state lcg.Q))

/-- Embeds `random_integer()`: `return (state = (tmp >= 0 ? tmp : tmp + M));`.
The returned value and the generator after the call. -/
def lcg.random_integer (g : lcg) : Int × lcg :=
  let s := if g.tmp ≥ 0 then g.tmp else int32 (g.tmp + lcg.M)
  (s, { state := s })

/-! ## The integer functions (integer.hpp) -/

/-- Two's-complement wrap of an integer into the range of the 64-bit
`typedef long long integer`. -/
def int64 (z : Int) : Int := (z + 9223372036854775808) % 18446744073709551616 - 9223372036854775808

/-- Embeds `odd(n)`: `(n & 0x1) != 0`, the low bit of the two's-complement
value, set exactly when `n` is not a multiple of 2. -/
def math.odd (n : Int) : Bool := decide (n % 2 ≠ 0)

/-- Embeds `even(n)`: `(n & 0x1) == 0`. -/
def math.even (n : Int) : Bool := decide (n % 2 = 0)

/-- Embeds `abs(n)`: `(n < 0 ? -n : n)`. -/
def math.abs (n : Int) : Int := if n < 0 then int64 (-n) else n

/-- Embeds `modexp(a, b, n)`. The first argument bounds the depth of the
recursion; `none` when it is used up. -/
def math.modexp : Nat → Int → Int → Int → Option Int
  | 0, _, _, _ => none
  | fuel + 1, a, b, n =>
    if b = 0 then some 1
    else if b = 1 then some (Int.tmod a n)
    else if math.odd b then
      let x := Int.tmod a n
      (math.modexp fuel a (int64 (b - 1)) n).map (fun r => Int.tmod (int64 (x * r)) n)
    else
      let x := Int.tmod a n
      let x := Int.tmod (int64 (x * x)) n
      (math.modexp fuel x (Int.tdiv b 2) n).map (fun r => Int.tmod r n)

/-- The first loop of `gcd`,
`while (even(x) && even(y)) { x >>= 1; y >>= 1; g <<= 1; }`, from the values
`x`, `y`, `g`; it returns the three values at the exit. The first argument
bounds the number of iterations; `none` when it is used up. -/
def math.gcd_shift : Nat → Int → Int → Int → Option (Int × Int × Int)
  | 0, _, _, _ => none
  | fuel + 1, x, y, g =>
    if math.even x && math.even y then
      math.gcd_shift fuel (x >>> (1 : Nat)) (y >>> (1 : Nat)) (int64 (g * 2))
    else some (x, y, g)

/-- The loops `while (even(x)) x >>= 1;` and `while (even(y)) y >>= 1;` of
`gcd`, from the value `x`; the value at the exit. The first argument bounds the
number of iterations; `none` when it is used up. -/
def math.gcd_halve : Nat → Int → Option Int
  | 0, _ => none
  | fuel + 1, x => if math.even x then math.gcd_halve fuel (x >>> (1 : Nat)) else some x

/-- The loop `while (x) { ... }` of `gcd` from the values `x` and `y`; the value
of `y` at the exit. The first argument bounds the number of iterations of each
inner loop, the second the number of iterations of this loop; `none` when one
of them is used up. -/
def math.gcd_loop (inner : Nat) : Nat → Int → Int → Option Int
  | 0, _, _ => none
  | fuel + 1, x, y =>
    if x ≠ 0 then
      match math.gcd_halve inner x with
      | none => none
      | some x1 =>
        match math.gcd_halve inner y with
        | none => none
        | some y1 =>
          let t := Int.tdiv (math.abs (int64 (x1 - y1))) 2
          if x1 ≥ y1 then math.gcd_loop inner fuel t y1 else math.gcd_loop inner fuel x1 t
    else some y

/-- Embeds `gcd(x, y)`. The first argument bounds the number of iterations of
every loop; `none` when it is used up in one of them. -/
def math.gcd (fuel : Nat) (x y : Int) : Option Int :=
  match math.gcd_shift fuel x y 1 with
  | none => none
  | some (x1, y1, g) => (math.gcd_loop fuel fuel x1 y1).map (fun r => int64 (g * r))

/-! ## The class primes (primes.hpp) -/

/-- The array `p[168]` of the constructor of `primes`. -/
def math.primes.p : List Int :=
  [2,3,5,7,11,13,17,19,23,29,31,37,41,43,47,53,59,61,67,71,73,79,83,89,97,
   101,103,107,109,113,127,131,137,139,149,151,157,163,167,173,179,181,191,193,197,199,
   211,223,227,229,233,239,241,251,257,263,269,271,277,281,283,293,
   307,311,313,317,331,337,347,349,353,359,367,373,379,383,389,397,
   401,409,419,421,431,433,439,443,449,457,461,463,467,479,487,491,499,
   503,509,521,523,541,547,557,563,569,571,577,587,593,599,
   601,607,613,617,619,631,641,643,647,653,659,661,673,677,683,691,
   701,709,719,727,733,739,743,751,757,761,769,773,787,797,
   809,811,821,823,827,829,839,853,857,859,863,877,881,883,887,
   907,911,919,929,937,941,947,953,967,971,977,983,991,997]

/-- The class `primes`: the member `std::set<integer> _primes`, held as the
increasing list of its elements, and the member `lkp`. -/
structure math.primes where
  _primes : List Int
  lkp : Int
  deriving DecidableEq, Repr

/-- Embeds `std::set<integer>::insert` on the increasing list of the elements. -/
def math.set_insert (x : Int) : List Int → List Int
  | [] => [x]
  | y :: ys =>
    if x < y then x :: y :: ys
    else if x = y then y :: ys
    else y :: math.set_insert x ys

/-- Embeds the constructor `primes()`: `lkp(997)` and
`_primes.insert(&p[0], &p[168])`. -/
def math.primes.new : math.primes :=
  { _primes := math.primes.p.foldl (fun s x => math.set_insert x s) [], lkp := 997 }

/-- The type `factors`, a `std::map<integer, size_t>`, held as the list of its
entries in increasing order of the key. -/
abbrev math.primes.factors := List (Int × Nat)

/-- Embeds the assignment `f[k] = c` on a `std::map<integer, size_t>`. -/
def math.map_set (k : Int) (c : Nat) : math.primes.factors → math.primes.factors
  | [] => [(k, c)]
  | (k1, c1) :: f =>
    if k < k1 then (k, c) :: (k1, c1) :: f
    else if k = k1 then (k1, c) :: f
    else (k1, c1) :: math.map_set k c f

/-- The loop `for (integer i = lkp+2; i < max; i += 2)` of `is_prime` from the
value `i`: `some i` when it leaves by `return false` at the divisor `i`, `none`
when it runs to its end. The first argument bounds the number of iterations;
the result is `none` when it is used up. -/
def math.primes.is_prime_for (n max : Int) : Nat → Int → Option (Option Int)
  | 0, _ => none
  | fuel + 1, i =>
    if i < max then
      if Int.tmod n i = 0 then some (some i)
      else math.primes.is_prime_for n max fuel (int64 (i + 2))
    else some none

/-- Embeds `is_prime(n)`, with `(integer) std::sqrt((double)n)` read as the
exact integer square root: the value returned and the object afterwards. The
first argument bounds the number of iterations of the last loop. -/
def math.primes.is_prime (fuel : Nat) (P : math.primes) (n : Int) :
    Option (Bool × math.primes) :=
  if n < 2 then some (false, P)
  else if n = 2 then some (true, P)
  else if math.even n then some (false, P)
  else if n ∈ P._primes then some (true, P)
  else if P._primes.any (fun q => decide (Int.tmod n q = 0)) then some (false, P)
  else
    let max := Int.sqrt n
    match math.primes.is_prime_for n max fuel (int64 (P.lkp + 2)) with
    | none => none
    | some (some i) => some (false, { P with _primes := math.set_insert i P._primes })
    | some none => some (true, { P with _primes := math.set_insert n P._primes })

/-- The loop `while (d % p == 0) { ++count; d /= p; }` of `factorize` from the
values `d` and `count`; the two values at the exit. The first argument bounds
the number of iterations; `none` when it is used up. -/
def math.primes.factorize_while (p : Int) : Nat → Int → Nat → Option (Int × Nat)
  | 0, _, _ => none
  | fuel + 1, d, count =>
    if Int.tmod d p = 0 then math.primes.factorize_while p fuel (Int.tdiv d p) (count + 1)
    else some (d, count)

/-- The first loop of `factorize`, over the elements of `_primes` that are
left to visit, from the values `d` and `f`; the two values at the exit. The
first argument bounds the number of iterations of each inner loop. -/
def math.primes.factorize_table (fuel : Nat) :
    List Int → Int → math.primes.factors → Option (Int × math.primes.factors)
  | [], d, f => some (d, f)
  | p :: ps, d, f =>
    match math.primes.factorize_while p fuel d 0 with
    | none => none
    | some (d1, count) =>
      math.primes.factorize_table fuel ps d1 (if count ≠ 0 then math.map_set p count f else f)

/-- The loop `do { d /= i; ++count; } while (n % i == 0);` of `factorize` from
the values `d` and `count`; the two values at the exit. The first argument
bounds the number of iterations; `none` when it is used up. -/
def math.primes.factorize_do (n i : Int) : Nat → Int → Nat → Option (Int × Nat)
  | 0, _, _ => none
  | fuel + 1, d, count =>
    if Int.tmod n i = 0 then math.primes.factorize_do n i fuel (Int.tdiv d i) (count + 1)
    else some (Int.tdiv d i, count + 1)

/-- The loop `for (integer i = lkp+2; d != 1 && i < max; i += 2)` of
`factorize` from the values `i`, `d`, `f` and the set `_primes`; `d`, `f` and
the set at the exit. The argument `inner` bounds the number of iterations of
each inner loop, the next one the number of iterations of this loop; `none`
when one of them is used up. -/
def math.primes.factorize_for (n max : Int) (inner : Nat) :
    Nat → Int → Int → math.primes.factors → List Int →
      Option (Int × math.primes.factors × List Int)
  | 0, _, _, _, _ => none
  | fuel + 1, i, d, f, ps =>
    if d ≠ 1 ∧ i < max then
      if Int.tmod n i = 0 then
        match math.primes.factorize_do n i inner d 0 with
        | none => none
        | some (d1, count) =>
          math.primes.factorize_for n max inner fuel (int64 (i + 2)) d1
            (if count ≠ 0 then math.map_set i count f else f) (math.set_insert i ps)
      else math.primes.factorize_for n max inner fuel (int64 (i + 2)) d f ps
    else some (d, f, ps)

/-- Embeds `factorize(n, f)`, with `(integer) std::sqrt((double)n)` read as the
exact integer square root: the map `f` and the object afterwards. The first
argument bounds the number of iterations of every loop; `none` when it is used
up in one of them. -/
def math.primes.factorize (fuel : Nat) (P : math.primes) (n : Int) :
    Option (math.primes.factors × math.primes) :=
  if n < 2 then some ([], P)
  else if n ∈ P._primes then some (math.map_set n 1 [], P)
  else
    match math.primes.factorize_table fuel P._primes n [] with
    | none => none
    | some (d, f) =>
      match math.primes.factorize_for n (int64 (Int.sqrt n + 1)) fuel fuel (int64 (P.lkp + 2))
        d f P._primes with
      | none => none
      | some (d1, f1, ps) =>
        if d1 ≠ 1 then some (math.map_set d1 1 f1, { P with _primes := math.set_insert d1 ps })
        else some (f1, { P with _primes := ps })

end pads

/-! ## dsaa::splay_tree (dsaa.hpp) -/

namespace dsaa

variable {T : Type}

/-- What a `node*` link of `dsaa::splay_tree<T>` leads to: the sentinel, or a
real node holding `value` and its two links. -/
inductive node (T : Type) where
  | null_node : node T
  | mk (value : T) (left right : node T) : node T
  deriving DecidableEq, Repr

/-- The sentinel object `*null_node` of `dsaa::splay_tree<T>`. `allocated`
turns false when `node_alloc.deallocate` is called on it. -/
structure sentinel (T : Type) where
  value : T
  left : node T
  right : node T
  allocated : Bool
  deriving DecidableEq, Repr

/-- The data members of `dsaa::splay_tree<T>`: the sentinel and the root link. -/
structure splay_tree (T : Type) where
  null : sentinel T
  root : node T
  deriving DecidableEq, Repr

/-- Embeds `is_null(n)`: `!n || n == null_node`; no link of a tree is the null
pointer. -/
def is_null (n : node T) : Bool :=
  match n with
  | .null_node => true
  | .mk _ _ _ => false

/-- Embeds `n->value`. -/
def node.value (n : node T) (s : sentinel T) : T :=
  match n with
  | .null_node => s.value
  | .mk t _ _ => t

/-- Embeds `n->left`. -/
def node.left (n : node T) (s : sentinel T) : node T :=
  match n with
  | .null_node => s.left
  | .mk _ l _ => l

/-- Embeds `n->right`. -/
def node.right (n : node T) (s : sentinel T) : node T :=
  match n with
  | .null_node => s.right
  | .mk _ _ r => r

/-- Embeds `splay_tree()`: `null_node = node_alloc.allocate(1)` constructs no
object, so the sentinel holds whatever value `garbage` its storage held, and
`null_node->left = null_node->right = null_node; root = null_node;`. -/
def splay_tree.new (garbage : T) : splay_tree T :=
  { null := { value := garbage, left := .null_node, right := .null_node, allocated := true },
    root := .null_node }

/-- Embeds `left_rotation(n)`. -/
def left_rotation (n : node T) : node T :=
  match n with
  | .mk x (.mk y ll lr) r => .mk y ll (.mk x lr r)
  | n => n

/-- Embeds `right_rotation(n)`. -/
def right_rotation (n : node T) : node T :=
  match n with
  | .mk x l (.mk y rl rr) => .mk y (.mk x l rl) rr
  | n => n

/-- A node linked into one of the two trees under `header`: its value and the
child it keeps; its other link is the pending one. -/
abbrev linked (T : Type) := T × node T

/-- The value of `header.right` once `leftTreeMax->right = t` has run. -/
def attach_right : List (linked T) → node T → node T
  | [], t => t
  | (x, l) :: rest, t => attach_right rest (.mk x l t)

/-- The value of `header.left` once `rightTreeMin->left = t` has run. -/
def attach_left : List (linked T) → node T → node T
  | [], t => t
  | (x, r) :: rest, t => attach_left rest (.mk x t r)

/-- The `for (;;)` loop of `dsaa::splay_tree::splay`, with the sentinel value
already set to `t`. The first argument bounds the number of iterations. -/
def splay_loop [LinearOrder T] (t : T) (s : sentinel T) :
    Nat → node T → List (linked T) → List (linked T) →
      node T × List (linked T) × List (linked T)
  | 0, n, lt, rt => (n, lt, rt)
  | fuel + 1, n, lt, rt =>
    if t < n.value s then
      let n := if t < (n.left s).value s then left_rotation n else n
      if is_null (n.left s) then (n, lt, rt)
      else splay_loop t s fuel (n.left s) lt ((n.value s, n.right s) :: rt)
    else if n.value s < t then
      let n := if (n.right s).value s < t then right_rotation n else n
      if is_null (n.right s) then (n, lt, rt)
      else splay_loop t s fuel (n.right s) ((n.value s, n.left s) :: lt) rt
    else (n, lt, rt)

/-- Number of real nodes under a link. -/
def size : node T → Nat
  | .null_node => 0
  | .mk _ l r => size l + 1 + size r

/-- Embeds `splay(t, n)`: returns the sentinel and the link `n` after the call. -/
def splay [LinearOrder T] (t : T) (s : sentinel T) (n : node T) : sentinel T × node T :=
  let s := { s with value := t }
  match splay_loop t s (size n) n [] [] with
  | (n, lt, rt) =>
    let header_right := attach_right lt (n.left s)
    let header_left := attach_left rt (n.right s)
    match n with
    | .mk x _ _ => (s, .mk x header_right header_left)
    | .null_node => ({ s with left := header_right, right := header_left }, .null_node)

/-- Embeds `empty()`. -/
def empty (t : splay_tree T) : Bool := is_null t.root

/-- Embeds `while (!is_null(n->left)) n = n->left;` -/
def leftmost : node T → node T
  | .mk _ (.mk y ll lr) _ => leftmost (.mk y ll lr)
  | n => n

/-- Embeds `while (!is_null(n->right)) n = n->right;` -/
def rightmost : node T → node T
  | .mk _ _ (.mk y rl rr) => rightmost (.mk y rl rr)
  | n => n

/-- Embeds `splay(t, root)`. -/
def splay_root [LinearOrder T] (t : T) (d : splay_tree T) : splay_tree T :=
  let r := splay t d.null d.root
  { null := r.1, root := r.2 }

/-- Embeds `find_min()`: the returned value or the thrown error, and the tree
after the call. -/
def find_min [LinearOrder T] (d : splay_tree T) :
    Except pads.underflow_error T × splay_tree T :=
  if empty d then (.error .empty_tree, d)
  else
    let n := leftmost d.root
    let d1 := splay_root (n.value d.null) d
    (.ok (n.value d1.null), d1)

/-- Embeds `find_max()`. -/
def find_max [LinearOrder T] (d : splay_tree T) :
    Except pads.underflow_error T × splay_tree T :=
  if empty d then (.error .empty_tree, d)
  else
    let n := rightmost d.root
    let d1 := splay_root (n.value d.null) d
    (.ok (n.value d1.null), d1)

/-- Embeds `contains(t)`. -/
def contains [LinearOrder T] (t : T) (d : splay_tree T) : Bool × splay_tree T :=
  if empty d then (false, d)
  else
    let d1 := splay_root t d
    (decide (d1.root.value d1.null = t), d1)

/-- Embeds `insert(t)`. -/
def insert [LinearOrder T] (t : T) (d : splay_tree T) : splay_tree T :=
  if is_null d.root then
    { d with root := .mk t .null_node .null_node }
  else
    let d1 := splay_root t d
    match d1.root with
    | .null_node => { d1 with null := { d1.null with value := t } }
    | .mk x l r =>
      if t < x then
        { d1 with root := .mk t l (.mk x .null_node r) }
      else if x < t then
        { d1 with root := .mk t (.mk x l .null_node) r }
      else
        { d1 with root := .mk t l r }

/-- Embeds `new_root->right = r`. -/
def set_right (s : sentinel T) (n : node T) (r : node T) : sentinel T × node T :=
  match n with
  | .null_node => ({ s with right := r }, .null_node)
  | .mk x l _ => (s, .mk x l r)

/-- Embeds `node_alloc.deallocate(n, 1)`. On a released sentinel `exec_op` and
`exec_contains` give no result. -/
def deallocate (s : sentinel T) (n : node T) : sentinel T :=
  match n with
  | .null_node => { s with allocated := false }
  | .mk _ _ _ => s

/-- Embeds `remove(t)`. -/
def remove [LinearOrder T] (t : T) (d : splay_tree T) : splay_tree T :=
  let d1 := splay_root t d
  if d1.root.value d1.null ≠ t then d1
  else
    let r :=
      if is_null (d1.root.left d1.null) then (d1.null, d1.root.right d1.null)
      else
        let r1 := splay t d1.null (d1.root.left d1.null)
        set_right r1.1 r1.2 (d1.root.right r1.1)
    { null := deallocate r.1 d1.root, root := r.2 }

/-- The public operations the two classes share. -/
inductive op (T : Type) where
  | insert (t : T) : op T
  | remove (t : T) : op T
  | contains (t : T) : op T
  | find_min : op T
  | find_max : op T
  deriving DecidableEq, Repr

/-- The state one public operation computes from a state. It is what the
program does only while the sentinel is allocated: see `exec_op`. -/
def apply_op [LinearOrder T] (d : splay_tree T) : op T → splay_tree T
  | .insert t => insert t d
  | .remove t => remove t d
  | .contains t => (contains t d).2
  | .find_min => (find_min d).2
  | .find_max => (find_max d).2

/-- The state a sequence of public operations computes from a state. It is
what the program does only while the sentinel is allocated: see `exec`. -/
def run [LinearOrder T] (d : splay_tree T) (ops : List (op T)) : splay_tree T :=
  ops.foldl apply_op d

/-- One public operation of `dsaa::splay_tree<T>` as the program runs it:
`none` on a tree whose sentinel has been released, where the call has no
defined behaviour. -/
def exec_op [LinearOrder T] (d : splay_tree T) (o : op T) : Option (splay_tree T) :=
  if d.null.allocated then some (apply_op d o) else none

/-- A sequence of public operations of `dsaa::splay_tree<T>` as the program
runs it: the tree after the last one, or `none` when one of them is called
after the sentinel has been released. -/
def exec [LinearOrder T] : splay_tree T → List (op T) → Option (splay_tree T)
  | d, [] => some d
  | d, o :: ops => (exec_op d o).bind (fun d1 => exec d1 ops)

/-- The value `contains(t)` returns as the program runs it: `none` on a tree
whose sentinel has been released. -/
def exec_contains [LinearOrder T] (t : T) (d : splay_tree T) : Option Bool :=
  if d.null.allocated then some (contains t d).1 else none

end dsaa

/-! ## The keyed tree and the set-only tree side by side -/

namespace pads

variable {K T : Type}

/-- The tree shape on keys under a link of the keyed tree: the same links with
the stored values dropped, as a link of the set-only tree. -/
def node.erase : node K T → dsaa.node K
  | .null_node => .null_node
  | .mk k _ l r => .mk k l.erase r.erase

/-- The key and the kept child of a node linked into a tree under `header`. -/
def linked_erase (p : linked K T) : dsaa.linked K := (p.1, p.2.2.erase)

/-- The sentinels of a keyed tree and of a set-only tree agree up to the
stored values and the sentinel key: same links, both allocated or both
released. -/
def sim_null (s : sentinel K T) (ds : dsaa.sentinel K) : Prop :=
  s.left.erase = ds.left ∧ s.right.erase = ds.right ∧ s.allocated = ds.allocated

/-- A keyed tree and a set-only tree have the same shape on keys. -/
def sim (t : splay_tree K T) (d : dsaa.splay_tree K) : Prop :=
  t.root.erase = d.root ∧ sim_null t.null d.null

/-- A request to both classes: an operation of the set-only tree, with, for an
insert, the value the keyed tree is to store. -/
inductive request (K T : Type) where
  | insert (k : K) (v : T) : request K T
  | remove (k : K) : request K T
  | contains (k : K) : request K T
  | find_min : request K T
  | find_max : request K T
  deriving DecidableEq, Repr

/-- The request as an operation of `pads::splay_tree<K,T>`. -/
def request.keyed : request K T → op K T
  | .insert k v => .insert k v
  | .remove k => .remove k
  | .contains k => .contains k
  | .find_min => .find_min
  | .find_max => .find_max

/-- The request as an operation of `dsaa::splay_tree<K>`. -/
def request.set_only : request K T → dsaa.op K
  | .insert k _ => .insert k
  | .remove k => .remove k
  | .contains k => .contains k
  | .find_min => .find_min
  | .find_max => .find_max

/-! ## The splay loop, one iteration at a time -/

section loop

variable [LinearOrder K]

theorem splay_loop_null (k : K) (s : sentinel K T) (hs : s.key = k) (f : Nat)
    (lt rt : List (linked K T)) :
    splay_loop k s f .null_node lt rt = (.null_node, lt, rt) := by
  cases f <;> simp [splay_loop, node.key, hs]

theorem splay_loop_eq (k : K) (s : sentinel K T) (f : Nat) (v : T) (l r : node K T)
    (lt rt : List (linked K T)) :
    splay_loop k s f (.mk k v l r) lt rt = (.mk k v l r, lt, rt) := by
  cases f <;> simp [splay_loop, node.key]

theorem splay_loop_lt_null (k : K) (s : sentinel K T) (hs : s.key = k) (f : Nat) (x : K)
    (v : T) (r : node K T) (lt rt : List (linked K T)) (h : k < x) :
    splay_loop k s (f + 1) (.mk x v .null_node r) lt rt = (.mk x v .null_node r, lt, rt) := by
  simp [splay_loop, node.key, node.left, hs, h, is_null]

theorem splay_loop_zigzig_l_null (k : K) (s : sentinel K T) (f : Nat) (x y : K)
    (v w : T) (lr r : node K T) (lt rt : List (linked K T)) (h : k < x) (h1 : k < y) :
    splay_loop k s (f + 1) (.mk x v (.mk y w .null_node lr) r) lt rt
      = (.mk y w .null_node (.mk x v lr r), lt, rt) := by
  simp [splay_loop, node.key, node.left, h, h1, is_null, left_rotation]

theorem splay_loop_zigzig_l (k : K) (s : sentinel K T) (f : Nat) (x y z : K)
    (v w u : T) (a b lr r : node K T) (lt rt : List (linked K T)) (h : k < x) (h1 : k < y) :
    splay_loop k s (f + 1) (.mk x v (.mk y w (.mk z u a b) lr) r) lt rt
      = splay_loop k s f (.mk z u a b) lt ((y, w, .mk x v lr r) :: rt) := by
  simp [splay_loop, node.key, node.left, node.right, node.value, h, h1, is_null, left_rotation]

theorem splay_loop_zig_l (k : K) (s : sentinel K T) (f : Nat) (x y : K)
    (v w : T) (ll lr r : node K T) (lt rt : List (linked K T)) (h : k < x) (h1 : ¬ k < y) :
    splay_loop k s (f + 1) (.mk x v (.mk y w ll lr) r) lt rt
      = splay_loop k s f (.mk y w ll lr) lt ((x, v, r) :: rt) := by
  simp [splay_loop, node.key, node.left, node.right, node.value, h, h1, is_null]

theorem splay_loop_gt_null (k : K) (s : sentinel K T) (hs : s.key = k) (f : Nat) (x : K)
    (v : T) (l : node K T) (lt rt : List (linked K T)) (h : x < k) :
    splay_loop k s (f + 1) (.mk x v l .null_node) lt rt = (.mk x v l .null_node, lt, rt) := by
  simp [splay_loop, node.key, node.right, hs, h, is_null, not_lt_of_lt h]

theorem splay_loop_zigzig_r_null (k : K) (s : sentinel K T) (f : Nat) (x y : K)
    (v w : T) (l rl : node K T) (lt rt : List (linked K T)) (h : x < k) (h1 : y < k) :
    splay_loop k s (f + 1) (.mk x v l (.mk y w rl .null_node)) lt rt
      = (.mk y w (.mk x v l rl) .null_node, lt, rt) := by
  simp [splay_loop, node.key, node.right, h, h1, is_null, right_rotation, not_lt_of_lt h,
    not_lt_of_lt h1]

theorem splay_loop_zigzig_r (k : K) (s : sentinel K T) (f : Nat) (x y z : K)
    (v w u : T) (l rl a b : node K T) (lt rt : List (linked K T)) (h : x < k) (h1 : y < k) :
    splay_loop k s (f + 1) (.mk x v l (.mk y w rl (.mk z u a b))) lt rt
      = splay_loop k s f (.mk z u a b) ((y, w, .mk x v l rl) :: lt) rt := by
  simp [splay_loop, node.key, node.left, node.right, node.value, h, h1, is_null,
    right_rotation, not_lt_of_lt h, not_lt_of_lt h1]

theorem splay_loop_zig_r (k : K) (s : sentinel K T) (f : Nat) (x y : K)
    (v w : T) (l rl rr : node K T) (lt rt : List (linked K T)) (h : x < k) (h1 : ¬ y < k) :
    splay_loop k s (f + 1) (.mk x v l (.mk y w rl rr)) lt rt
      = splay_loop k s f (.mk y w rl rr) ((x, v, l) :: lt) rt := by
  simp [splay_loop, node.key, node.left, node.right, node.value, h, h1, is_null,
    not_lt_of_lt h]

/-- Case analysis and induction over the iterations of the splay loop: every
way an iteration can go, by the shape of the working node and the two
comparisons. -/
theorem splay_loop_induct (k : K) (s : sentinel K T) (hs : s.key = k)
    (motive : Nat → node K T → List (linked K T) → List (linked K T) →
      node K T × List (linked K T) × List (linked K T) → Prop)
    (h_fuel : ∀ x v l r lt rt, motive 0 (.mk x v l r) lt rt (.mk x v l r, lt, rt))
    (h_null : ∀ f lt rt, motive f .null_node lt rt (.null_node, lt, rt))
    (h_eq : ∀ f v l r lt rt, motive (f + 1) (.mk k v l r) lt rt (.mk k v l r, lt, rt))
    (h_lt_null : ∀ f x v r lt rt, k < x →
      motive (f + 1) (.mk x v .null_node r) lt rt (.mk x v .null_node r, lt, rt))
    (h_zigzig_l_null : ∀ f x y v w lr r lt rt, k < x → k < y →
      motive (f + 1) (.mk x v (.mk y w .null_node lr) r) lt rt
        (.mk y w .null_node (.mk x v lr r), lt, rt))
    (h_zigzig_l : ∀ f x y z v w u a b lr r lt rt res, k < x → k < y →
      motive f (.mk z u a b) lt ((y, w, .mk x v lr r) :: rt) res →
      motive (f + 1) (.mk x v (.mk y w (.mk z u a b) lr) r) lt rt res)
    (h_zig_l : ∀ f x y v w ll lr r lt rt res, k < x → ¬ k < y →
      motive f (.mk y w ll lr) lt ((x, v, r) :: rt) res →
      motive (f + 1) (.mk x v (.mk y w ll lr) r) lt rt res)
    (h_gt_null : ∀ f x v l lt rt, x < k →
      motive (f + 1) (.mk x v l .null_node) lt rt (.mk x v l .null_node, lt, rt))
    (h_zigzig_r_null : ∀ f x y v w l rl lt rt, x < k → y < k →
      motive (f + 1) (.mk x v l (.mk y w rl .null_node)) lt rt
        (.mk y w (.mk x v l rl) .null_node, lt, rt))
    (h_zigzig_r : ∀ f x y z v w u l rl a b lt rt res, x < k → y < k →
      motive f (.mk z u a b) ((y, w, .mk x v l rl) :: lt) rt res →
      motive (f + 1) (.mk x v l (.mk y w rl (.mk z u a b))) lt rt res)
    (h_zig_r : ∀ f x y v w l rl rr lt rt res, x < k → ¬ y < k →
      motive f (.mk y w rl rr) ((x, v, l) :: lt) rt res →
      motive (f + 1) (.mk x v l (.mk y w rl rr)) lt rt res) :
    ∀ f n lt rt, motive f n lt rt (splay_loop k s f n lt rt) := by
  intro f
  induction f with
  | zero =>
    intro n lt rt
    cases n with
    | null_node => simpa [splay_loop] using h_null 0 lt rt
    | mk x v l r => simpa [splay_loop] using h_fuel x v l r lt rt
  | succ f ih =>
    intro n lt rt
    cases n with
    | null_node => rw [splay_loop_null k s hs]; exact h_null _ lt rt
    | mk x v l r =>
      rcases lt_trichotomy k x with h | h | h
      · cases l with
        | null_node => rw [splay_loop_lt_null k s hs f x v r lt rt h]; exact h_lt_null f x v r lt rt h
        | mk y w ll lr =>
          by_cases h1 : k < y
          · cases ll with
            | null_node =>
              rw [splay_loop_zigzig_l_null k s f x y v w lr r lt rt h h1]
              exact h_zigzig_l_null f x y v w lr r lt rt h h1
            | mk z u a b =>
              rw [splay_loop_zigzig_l k s f x y z v w u a b lr r lt rt h h1]
              exact h_zigzig_l f x y z v w u a b lr r lt rt _ h h1 (ih _ _ _)
          · rw [splay_loop_zig_l k s f x y v w ll lr r lt rt h h1]
            exact h_zig_l f x y v w ll lr r lt rt _ h h1 (ih _ _ _)
      · subst h
        rw [splay_loop_eq]; exact h_eq f v l r lt rt
      · cases r with
        | null_node => rw [splay_loop_gt_null k s hs f x v l lt rt h]; exact h_gt_null f x v l lt rt h
        | mk y w rl rr =>
          by_cases h1 : y < k
          · cases rr with
            | null_node =>
              rw [splay_loop_zigzig_r_null k s f x y v w l rl lt rt h h1]
              exact h_zigzig_r_null f x y v w l rl lt rt h h1
            | mk z u a b =>
              rw [splay_loop_zigzig_r k s f x y z v w u l rl a b lt rt h h1]
              exact h_zigzig_r f x y z v w u l rl a b lt rt _ h h1 (ih _ _ _)
          · rw [splay_loop_zig_r k s f x y v w l rl rr lt rt h h1]
            exact h_zig_r f x y v w l rl rr lt rt _ h h1 (ih _ _ _)

/-- The loop only restructures: the in-order traversal of the left tree, the
working node and the right tree together never changes. -/
theorem splay_loop_inorder (k : K) (s : sentinel K T) (hs : s.key = k) (f : Nat)
    (n : node K T) (lt rt : List (linked K T)) :
    inorder_lt (splay_loop k s f n lt rt).2.1 ++ inorder (splay_loop k s f n lt rt).1
        ++ inorder_rt (splay_loop k s f n lt rt).2.2
      = inorder_lt lt ++ inorder n ++ inorder_rt rt := by
  refine splay_loop_induct k s hs
    (fun _ n lt rt res => inorder_lt res.2.1 ++ inorder res.1 ++ inorder_rt res.2.2
      = inorder_lt lt ++ inorder n ++ inorder_rt rt)
    ?_ ?_ ?_ ?_ ?_ ?_ ?_ ?_ ?_ ?_ ?_ f n lt rt
  all_goals intros
  all_goals first
    | rfl
    | (simp only [inorder, inorder_lt, inorder_rt, List.append_assoc, List.cons_append,
        List.nil_append, List.append_nil] at *; done)
    | (simp only [inorder, inorder_lt, inorder_rt, List.append_assoc, List.cons_append,
        List.nil_append, List.append_nil] at *; assumption)

/-- The working node of the loop is the sentinel only if it started there. -/
theorem splay_loop_is_null (k : K) (s : sentinel K T) (hs : s.key = k) (f : Nat)
    (n : node K T) (lt rt : List (linked K T)) :
    is_null (splay_loop k s f n lt rt).1 = is_null n := by
  refine splay_loop_induct k s hs (fun _ n _ _ res => is_null res.1 = is_null n)
    ?_ ?_ ?_ ?_ ?_ ?_ ?_ ?_ ?_ ?_ ?_ f n lt rt
  all_goals intros
  all_goals first
    | rfl
    | (simp only [is_null] at *; done)
    | (simp only [is_null] at *; assumption)

/-- With `size n` iterations allowed the loop has ended by a `break`: allowing
one more iteration changes nothing. -/
theorem splay_loop_fuel_succ (k : K) (s : sentinel K T) (hs : s.key = k) (f : Nat)
    (n : node K T) (lt rt : List (linked K T)) (hf : size n ≤ f) :
    splay_loop k s (f + 1) n lt rt = splay_loop k s f n lt rt := by
  have key := splay_loop_induct k s hs
    (fun f n lt rt res => size n ≤ f → splay_loop k s (f + 1) n lt rt = res)
    ?_ ?_ ?_ ?_ ?_ ?_ ?_ ?_ ?_ ?_ ?_ f n lt rt
  · exact key hf
  · intro x v l r lt rt h; simp [size] at h
  · intro f lt rt _; exact splay_loop_null k s hs _ lt rt
  · intro f v l r lt rt _; exact splay_loop_eq k s _ v l r lt rt
  · intro f x v r lt rt h _; exact splay_loop_lt_null k s hs _ x v r lt rt h
  · intro f x y v w lr r lt rt h h1 _; exact splay_loop_zigzig_l_null k s _ x y v w lr r lt rt h h1
  · intro f x y z v w u a b lr r lt rt res h h1 ih hsz
    rw [splay_loop_zigzig_l k s _ x y z v w u a b lr r lt rt h h1]
    apply ih; simp only [size] at hsz ⊢; omega
  · intro f x y v w ll lr r lt rt res h h1 ih hsz
    rw [splay_loop_zig_l k s _ x y v w ll lr r lt rt h h1]
    apply ih; simp only [size] at hsz ⊢; omega
  · intro f x v l lt rt h _; exact splay_loop_gt_null k s hs _ x v l lt rt h
  · intro f x y v w l rl lt rt h h1 _; exact splay_loop_zigzig_r_null k s _ x y v w l rl lt rt h h1
  · intro f x y z v w u l rl a b lt rt res h h1 ih hsz
    rw [splay_loop_zigzig_r k s _ x y z v w u l rl a b lt rt h h1]
    apply ih; simp only [size] at hsz ⊢; omega
  · intro f x y v w l rl rr lt rt res h h1 ih hsz
    rw [splay_loop_zig_r k s _ x y v w l rl rr lt rt h h1]
    apply ih; simp only [size] at hsz ⊢; omega

/-- Any number of iterations from `size n` on gives the same result. -/
theorem splay_loop_fuel (k : K) (s : sentinel K T) (hs : s.key = k) (f : Nat)
    (n : node K T) (lt rt : List (linked K T)) (hf : size n ≤ f) :
    splay_loop k s f n lt rt = splay_loop k s (size n) n lt rt := by
  induction f with
  | zero =>
    have : size n = 0 := by omega
    rw [this]
  | succ f ih =>
    rcases Nat.lt_or_ge (size n) (f + 1) with h | h
    · rw [splay_loop_fuel_succ k s hs f n lt rt (by omega)]
      exact ih (by omega)
    · have : size n = f + 1 := by omega
      rw [this]

theorem pairwise_above {L : List (K × T)} (P : List (K × T)) (y : K) (w : T)
    (Q : List (K × T)) (h : L.Pairwise (fun p q => p.1 < q.1)) (e : L = P ++ (y, w) :: Q) :
    ∀ p ∈ Q, y < p.1 := by
  subst e
  rw [List.pairwise_append, List.pairwise_cons] at h
  intro p hp
  exact h.2.1.1 p hp

theorem pairwise_below {L : List (K × T)} (P : List (K × T)) (y : K) (w : T)
    (Q : List (K × T)) (h : L.Pairwise (fun p q => p.1 < q.1)) (e : L = P ++ (y, w) :: Q) :
    ∀ p ∈ P, p.1 < y := by
  subst e
  rw [List.pairwise_append] at h
  intro p hp
  exact h.2.2 p hp (y, w) (List.mem_cons_self _ _)

theorem pairwise_above_cons {L : List (K × T)} {k : K} (P : List (K × T)) (y : K) (w : T)
    (Q : List (K × T)) (h : L.Pairwise (fun p q => p.1 < q.1)) (e : L = P ++ (y, w) :: Q)
    (hk : k < y) : ∀ p ∈ (y, w) :: Q, k < p.1 := by
  intro p hp
  rcases List.mem_cons.1 hp with rfl | hp
  · exact hk
  · exact lt_trans hk (pairwise_above P y w Q h e p hp)

theorem pairwise_below_concat {L : List (K × T)} {k : K} (P : List (K × T)) (y : K) (w : T)
    (Q : List (K × T)) (h : L.Pairwise (fun p q => p.1 < q.1)) (e : L = P ++ (y, w) :: Q)
    (hk : y < k) : ∀ p ∈ P ++ [(y, w)], p.1 < k := by
  intro p hp
  rcases List.mem_append.1 hp with hp | hp
  · exact lt_trans (pairwise_below P y w Q h e p hp) hk
  · rw [List.mem_singleton] at hp; subst hp; exact hk

/-- With the ordering invariant, when the loop ends every key of the left tree
and of the final node's left subtree is below `k`, and every key of the final
node's right subtree and of the right tree is above `k`. -/
theorem splay_loop_bounds (k : K) (s : sentinel K T) (hs : s.key = k) (f : Nat)
    (n : node K T) (lt rt : List (linked K T)) (hf : size n ≤ f)
    (hord : (inorder_lt lt ++ inorder n ++ inorder_rt rt).Pairwise (fun p q => p.1 < q.1))
    (hlt : ∀ p ∈ inorder_lt lt, p.1 < k) (hrt : ∀ p ∈ inorder_rt rt, k < p.1)
    (x : K) (v : T) (l r : node K T) (hres : (splay_loop k s f n lt rt).1 = .mk x v l r) :
    (∀ p ∈ inorder_lt (splay_loop k s f n lt rt).2.1 ++ inorder l, p.1 < k) ∧
    (∀ p ∈ inorder r ++ inorder_rt (splay_loop k s f n lt rt).2.2, k < p.1) := by
  have key := splay_loop_induct k s hs
    (fun f n lt rt res => size n ≤ f →
      (inorder_lt lt ++ inorder n ++ inorder_rt rt).Pairwise (fun p q => p.1 < q.1) →
      (∀ p ∈ inorder_lt lt, p.1 < k) → (∀ p ∈ inorder_rt rt, k < p.1) →
      ∀ x v l r, res.1 = .mk x v l r →
        (∀ p ∈ inorder_lt res.2.1 ++ inorder l, p.1 < k) ∧
        (∀ p ∈ inorder r ++ inorder_rt res.2.2, k < p.1))
    ?_ ?_ ?_ ?_ ?_ ?_ ?_ ?_ ?_ ?_ ?_ f n lt rt
  · exact key hf hord hlt hrt x v l r hres
  · intro x v l r lt rt h; simp [size] at h
  · intro f lt rt _ _ _ _ x v l r h; simp at h
  · intro f v l r lt rt _ hord hlt hrt x' v' l' r' h
    simp only [node.mk.injEq] at h
    obtain ⟨rfl, rfl, rfl, rfl⟩ := h
    exact ⟨pairwise_below (inorder_lt lt ++ inorder l) k v (inorder r ++ inorder_rt rt) hord
        (by simp [inorder]),
      pairwise_above (inorder_lt lt ++ inorder l) k v (inorder r ++ inorder_rt rt) hord
        (by simp [inorder])⟩
  · intro f x v r lt rt hk _ hord hlt hrt x' v' l' r' h
    simp only [node.mk.injEq] at h
    obtain ⟨rfl, rfl, rfl, rfl⟩ := h
    refine ⟨by simpa [inorder] using hlt, fun p hp => ?_⟩
    exact lt_trans hk (pairwise_above (inorder_lt lt) x v (inorder r ++ inorder_rt rt) hord
      (by simp [inorder]) p hp)
  · intro f x y v w lr r lt rt hk hk1 _ hord hlt hrt x' v' l' r' h
    simp only [node.mk.injEq] at h
    obtain ⟨rfl, rfl, rfl, rfl⟩ := h
    refine ⟨by simpa [inorder] using hlt, fun p hp => ?_⟩
    exact lt_trans hk1 (pairwise_above (inorder_lt lt) y w
      (inorder (.mk x v lr r) ++ inorder_rt rt) hord (by simp [inorder]) p hp)
  · intro f x y z v w u a b lr r lt rt res hk hk1 ih hsz hord hlt hrt
    refine ih (by simp only [size] at hsz ⊢; omega) (by simpa [inorder, inorder_rt] using hord)
      hlt ?_
    exact pairwise_above_cons (inorder_lt lt ++ inorder (.mk z u a b)) y w
      (inorder (.mk x v lr r) ++ inorder_rt rt) hord (by simp [inorder]) hk1
  · intro f x y v w ll lr r lt rt res hk hk1 ih hsz hord hlt hrt
    refine ih (by simp only [size] at hsz ⊢; omega) (by simpa [inorder, inorder_rt] using hord)
      hlt ?_
    exact pairwise_above_cons (inorder_lt lt ++ inorder (.mk y w ll lr)) x v
      (inorder r ++ inorder_rt rt) hord (by simp [inorder]) hk
  · intro f x v l lt rt hk _ hord hlt hrt x' v' l' r' h
    simp only [node.mk.injEq] at h
    obtain ⟨rfl, rfl, rfl, rfl⟩ := h
    refine ⟨fun p hp => ?_, by simpa [inorder] using hrt⟩
    exact lt_trans (pairwise_below (inorder_lt lt ++ inorder l) x v (inorder_rt rt) hord
      (by simp [inorder]) p hp) hk
  · intro f x y v w l rl lt rt hk hk1 _ hord hlt hrt x' v' l' r' h
    simp only [node.mk.injEq] at h
    obtain ⟨rfl, rfl, rfl, rfl⟩ := h
    refine ⟨fun p hp => ?_, by simpa [inorder] using hrt⟩
    exact lt_trans (pairwise_below (inorder_lt lt ++ inorder (.mk x v l rl)) y w
      (inorder_rt rt) hord (by simp [inorder]) p hp) hk1
  · intro f x y z v w u l rl a b lt rt res hk hk1 ih hsz hord hlt hrt
    refine ih (by simp only [size] at hsz ⊢; omega) (by simpa [inorder, inorder_lt] using hord)
      ?_ hrt
    have := pairwise_below_concat (inorder_lt lt ++ inorder (.mk x v l rl)) y w
      (inorder (.mk z u a b) ++ inorder_rt rt) hord (by simp [inorder]) hk1
    simpa [inorder_lt] using this
  · intro f x y v w l rl rr lt rt res hk hk1 ih hsz hord hlt hrt
    refine ih (by simp only [size] at hsz ⊢; omega) (by simpa [inorder, inorder_lt] using hord)
      ?_ hrt
    have := pairwise_below_concat (inorder_lt lt ++ inorder l) x v
      (inorder (.mk y w rl rr) ++ inorder_rt rt) hord (by simp [inorder]) hk
    simpa [inorder_lt] using this

end loop

/-! ## splay -/

theorem inorder_attach_right (lt : List (linked K T)) (t : node K T) :
    inorder (attach_right lt t) = inorder_lt lt ++ inorder t := by
  induction lt generalizing t with
  | nil => simp [attach_right, inorder_lt]
  | cons a rest ih =>
    obtain ⟨x, v, l⟩ := a
    simp [attach_right, inorder_lt, ih, inorder]

theorem inorder_attach_left (rt : List (linked K T)) (t : node K T) :
    inorder (attach_left rt t) = inorder t ++ inorder_rt rt := by
  induction rt generalizing t with
  | nil => simp [attach_left, inorder_rt]
  | cons a rest ih =>
    obtain ⟨x, v, r⟩ := a
    simp [attach_left, inorder_rt, ih, inorder]

theorem mem_keys {k : K} {n : node K T} : k ∈ keys n ↔ ∃ v, (k, v) ∈ inorder n := by
  simp [keys]

theorem is_null_eq_false_iff {n : node K T} : is_null n = false ↔ n ≠ .null_node := by
  cases n <;> simp [is_null]

theorem inorder_eq_nil_iff {n : node K T} : inorder n = [] ↔ n = .null_node := by
  cases n <;> simp [inorder]

theorem size_eq_length (n : node K T) : size n = (inorder n).length := by
  induction n with
  | null_node => rfl
  | mk x v l r ihl ihr => simp [size, inorder, ihl, ihr]; omega

section splay_lemmas

variable [LinearOrder K]

/-- Embeds `splay` on the sentinel (an empty tree): each sentinel link is written back
with the value it had, only the sentinel key changes. -/
theorem splay_null (k : K) (s : sentinel K T) :
    splay k s .null_node = ({ s with key := k }, .null_node) := by
  simp [splay, size, splay_loop, attach_right, attach_left, node.left, node.right]

/-- Embeds `splay` on a real node: the result is a real node, the in-order traversal
is the same, and under the ordering invariant the keys of the new root's left
subtree are below `k` and those of its right subtree are above `k`. -/
theorem splay_real (k : K) (s : sentinel K T) (n : node K T) (hn : is_null n = false) :
    ∃ x v l r, splay k s n = ({ s with key := k }, .mk x v l r) ∧
      inorder l ++ (x, v) :: inorder r = inorder n ∧
      (ordered n → (∀ p ∈ inorder l, p.1 < k) ∧ (∀ p ∈ inorder r, k < p.1)) := by
  have hs : ({ s with key := k } : sentinel K T).key = k := rfl
  have h1 := splay_loop_is_null k { s with key := k } hs (size n) n [] []
  have h2 := splay_loop_inorder k { s with key := k } hs (size n) n [] []
  have h3 := splay_loop_bounds k { s with key := k } hs (size n) n [] [] (le_refl _)
  rcases h : splay_loop k { s with key := k } (size n) n [] [] with ⟨n1, lt1, rt1⟩
  rw [h] at h1 h2 h3
  cases n1 with
  | null_node => rw [hn] at h1; simp [is_null] at h1
  | mk x v l r =>
    refine ⟨x, v, attach_right lt1 l, attach_left rt1 r, ?_, ?_, ?_⟩
    · simp [splay, h, node.left, node.right]
    · simpa [inorder_attach_right, inorder_attach_left, inorder, inorder_lt, inorder_rt]
        using h2
    · intro ho
      have := h3 (by simpa [inorder_lt, inorder_rt, ordered] using ho)
        (by simp [inorder_lt]) (by simp [inorder_rt]) x v l r rfl
      simpa [inorder_attach_right, inorder_attach_left] using this

/-- Embeds `splay` only restructures. -/
theorem inorder_splay (k : K) (s : sentinel K T) (n : node K T) :
    inorder (splay k s n).2 = inorder n := by
  cases hn : n with
  | null_node => simp [splay_null]
  | mk a b c d =>
    obtain ⟨x, v, l, r, h, hi, _⟩ := splay_real k s (.mk a b c d) rfl
    rw [h]; simpa [inorder] using hi

/-- Embeds `splay` leaves the sentinel as it was but for its key, now `k`. -/
theorem splay_fst (k : K) (s : sentinel K T) (n : node K T) :
    (splay k s n).1 = { s with key := k } := by
  cases hn : n with
  | null_node => simp [splay_null]
  | mk a b c d =>
    obtain ⟨x, v, l, r, h, _, _⟩ := splay_real k s (.mk a b c d) rfl
    rw [h]

/-- Embeds `splay(k, root)` only restructures. -/
theorem inorder_splay_root (k : K) (t : splay_tree K T) :
    inorder (splay_root k t).root = inorder t.root := by
  simp [splay_root, inorder_splay]

theorem splay_root_null (k : K) (t : splay_tree K T) :
    (splay_root k t).null = { t.null with key := k } := by
  simp [splay_root, splay_fst]

/-- The root after `splay(k, root)` on a non-empty tree with the ordering
invariant. -/
theorem splay_root_real (k : K) (t : splay_tree K T) (hn : is_null t.root = false) :
    ∃ x v l r, splay_root k t = { null := { t.null with key := k }, root := .mk x v l r } ∧
      inorder l ++ (x, v) :: inorder r = inorder t.root ∧
      (ordered t.root → (∀ p ∈ inorder l, p.1 < k) ∧ (∀ p ∈ inorder r, k < p.1)) := by
  obtain ⟨x, v, l, r, h, hi, hb⟩ := splay_real k t.null t.root hn
  exact ⟨x, v, l, r, by simp [splay_root, h], hi, hb⟩

/-- After `splay(k, root)` on a non-empty ordered tree the root's key is `k`
exactly when `k` is a key of the tree. -/
theorem splay_root_key_iff (k : K) (t : splay_tree K T) (ho : ordered t.root)
    (x : K) (v : T) (l r : node K T) (h : (splay_root k t).root = .mk x v l r) :
    x = k ↔ k ∈ keys t.root := by
  have hn : is_null t.root = false := by
    cases hr : t.root with
    | null_node => simp [splay_root, hr, splay_null] at h
    | mk _ _ _ _ => rfl
  obtain ⟨x', v', l', r', h', hi, hb⟩ := splay_root_real k t hn
  rw [h'] at h
  simp only [node.mk.injEq] at h
  obtain ⟨rfl, rfl, rfl, rfl⟩ := h
  obtain ⟨hl, hr⟩ := hb ho
  rw [mem_keys, ← hi]
  constructor
  · rintro rfl
    exact ⟨v', by simp⟩
  · rintro ⟨w, hw⟩
    rcases List.mem_append.1 hw with hw | hw
    · exact absurd (hl _ hw) (lt_irrefl _)
    · rcases List.mem_cons.1 hw with hw | hw
      · simp only [Prod.mk.injEq] at hw; exact hw.1.symm
      · exact absurd (hr _ hw) (lt_irrefl _)

end splay_lemmas

/-! ## insert -/

section insert_lemmas

variable [LinearOrder K]

theorem filter_lt_append (k : K) (A B : List (K × T)) (hA : ∀ p ∈ A, p.1 < k)
    (hB : ∀ p ∈ B, k ≤ p.1) : (A ++ B).filter (fun p => decide (p.1 < k)) = A := by
  rw [List.filter_append, List.filter_eq_self.2 (by simpa using hA),
    List.filter_eq_nil_iff.2 (by simpa using hB), List.append_nil]

theorem filter_gt_append (k : K) (A B : List (K × T)) (hA : ∀ p ∈ A, p.1 ≤ k)
    (hB : ∀ p ∈ B, k < p.1) : (A ++ B).filter (fun p => decide (k < p.1)) = B := by
  rw [List.filter_append, List.filter_eq_nil_iff.2 (by simpa using hA),
    List.filter_eq_self.2 (by simpa using hB), List.nil_append]

theorem filter_ne_append (k : K) (A B : List (K × T)) (hA : ∀ p ∈ A, p.1 < k)
    (hB : ∀ p ∈ B, k < p.1) : (A ++ B).filter (fun p => decide (p.1 ≠ k)) = A ++ B := by
  rw [List.filter_eq_self]
  intro p hp
  rcases List.mem_append.1 hp with h | h
  · simpa using ne_of_lt (hA p h)
  · simpa using ne_of_gt (hB p h)

/-- The contents after `insert(k, v)` on an empty tree. -/
theorem insert_empty (k : K) (v : T) (t : splay_tree K T) (hn : t.root = .null_node) :
    insert k v t = (true, { t with root := .mk k v .null_node .null_node }) := by
  simp [insert, hn, is_null, get_new_node]

/-- What `insert(k, v)` does on a non-empty tree with the ordering invariant:
with `A` the entries below `k` and `B` those above, the new root is `k` with
value `v`, the in-order traversal is `A`, `(k, v)`, `B`, and the call returns
false exactly when the old traversal was `A`, `(k, w)`, `B` for some `w`. -/
theorem insert_real (k : K) (v : T) (t : splay_tree K T) (hn : is_null t.root = false)
    (ho : ordered t.root) :
    ∃ (A B : List (K × T)) (l r : node K T),
      (∀ p ∈ A, p.1 < k) ∧ (∀ p ∈ B, k < p.1) ∧
      (insert k v t).2 = { null := { t.null with key := k }, root := .mk k v l r } ∧
      inorder (.mk k v l r) = A ++ (k, v) :: B ∧
      (((insert k v t).1 = true ∧ inorder t.root = A ++ B) ∨
       ((insert k v t).1 = false ∧ ∃ w, inorder t.root = A ++ (k, w) :: B)) := by
  obtain ⟨x, w, l, r, h, hi, hb⟩ := splay_root_real k t hn
  obtain ⟨hl, hr⟩ := hb ho
  have hn' : is_null t.root = false := hn
  rcases lt_trichotomy k x with hk | hk | hk
  · refine ⟨inorder l, (x, w) :: inorder r, l, .mk x w .null_node r, hl, ?_, ?_, ?_, ?_⟩
    · intro p hp
      rcases List.mem_cons.1 hp with rfl | hp
      · exact hk
      · exact hr p hp
    · simp [insert, hn', h, hk, get_new_node]
    · simp [inorder]
    · left
      exact ⟨by simp [insert, hn', h, hk], hi.symm⟩
  · subst hk
    refine ⟨inorder l, inorder r, l, r, hl, hr, ?_, ?_, ?_⟩
    · simp [insert, hn', h]
    · simp [inorder]
    · right
      exact ⟨by simp [insert, hn', h], w, hi.symm⟩
  · refine ⟨inorder l ++ [(x, w)], inorder r, .mk x w l .null_node, r, ?_, hr, ?_, ?_, ?_⟩
    · intro p hp
      rcases List.mem_append.1 hp with hp | hp
      · exact hl p hp
      · rw [List.mem_singleton] at hp; subst hp; exact hk
    · simp [insert, hn', h, hk, not_lt_of_lt hk, get_new_node]
    · simp [inorder]
    · left
      exact ⟨by simp [insert, hn', h, hk, not_lt_of_lt hk], by simp [← hi]⟩

end insert_lemmas

/-! ## remove -/

section remove_lemmas

variable [LinearOrder K]

/-- Embeds `remove(k)` on an empty tree with a self-looped sentinel: the sentinel is
what `deallocate` is called on. -/
theorem remove_empty (k : K) (t : splay_tree K T) (hn : t.root = .null_node)
    (hl : t.null.left = .null_node) (hr : t.null.right = .null_node) :
    remove k t = { null := { t.null with key := k, allocated := false },
                   root := .null_node } := by
  simp [remove, splay_root, hn, splay_null, node.key, node.left, node.right, hl, hr, is_null,
    deallocate]

/-- What `remove(k)` does on a non-empty tree with the ordering invariant: with
`A` the entries below `k` and `B` those above, the in-order traversal afterwards
is `A`, `B`; before, it was that or `A`, `(k, w)`, `B`. The sentinel keeps its
links and stays allocated. -/
theorem remove_real (k : K) (t : splay_tree K T) (hn : is_null t.root = false)
    (ho : ordered t.root) :
    ∃ (A B : List (K × T)),
      (∀ p ∈ A, p.1 < k) ∧ (∀ p ∈ B, k < p.1) ∧
      (remove k t).null = { t.null with key := k } ∧
      inorder (remove k t).root = A ++ B ∧
      (inorder t.root = A ++ B ∨ ∃ w, inorder t.root = A ++ (k, w) :: B) := by
  obtain ⟨x, w, l, r, h, hi, hb⟩ := splay_root_real k t hn
  obtain ⟨hl, hr⟩ := hb ho
  rcases lt_trichotomy k x with hk | hk | hk
  · refine ⟨inorder l, (x, w) :: inorder r, hl, ?_, ?_, ?_, Or.inl hi.symm⟩
    · intro p hp
      rcases List.mem_cons.1 hp with rfl | hp
      · exact hk
      · exact hr p hp
    · simp [remove, h, node.key, ne_of_gt hk]
    · simp [remove, h, node.key, ne_of_gt hk, inorder]
  · subst hk
    cases hlc : l with
    | null_node =>
      subst hlc
      refine ⟨[], inorder r, by simp, hr, ?_, ?_, Or.inr ⟨w, by simpa [inorder] using hi.symm⟩⟩
      · simp [remove, h, node.key, node.left, node.right, is_null, deallocate]
      · simp [remove, h, node.key, node.left, node.right, is_null]
    | mk a b c d =>
      have hol : ordered l := by
        unfold ordered at ho ⊢
        rw [← hi] at ho
        exact (List.pairwise_append.1 ho).1
      rw [hlc] at hol hl hi
      obtain ⟨x1, w1, l1, r1, h1, hi1, hb1⟩ :=
        splay_real k ({ t.null with key := k }) (.mk a b c d) rfl
      obtain ⟨_, hr1⟩ := hb1 hol
      have hr1nil : inorder r1 = [] := by
        rw [List.eq_nil_iff_forall_not_mem]
        intro p hp
        have h2 : p ∈ inorder (node.mk a b c d) := by rw [← hi1]; simp [hp]
        exact lt_irrefl _ (lt_trans (hr1 p hp) (hl p h2))
      rw [hr1nil] at hi1
      refine ⟨inorder (.mk a b c d), inorder r, hl, hr, ?_, ?_, Or.inr ⟨w, hi.symm⟩⟩
      · simp [remove, h, hlc, node.key, node.left, node.right, is_null, h1, set_right,
          deallocate]
      · simp only [remove, h, hlc, node.key, node.left, node.right, is_null, h1, set_right,
          ne_eq, not_true_eq_false, ite_false, Bool.false_eq_true]
        rw [← hi1]
        simp [inorder]
  · refine ⟨inorder l ++ [(x, w)], inorder r, ?_, hr, ?_, ?_, Or.inl (by simp [← hi])⟩
    · intro p hp
      rcases List.mem_append.1 hp with hp | hp
      · exact hl p hp
      · rw [List.mem_singleton] at hp; subst hp; exact hk
    · simp [remove, h, node.key, ne_of_lt hk]
    · simp [remove, h, node.key, ne_of_lt hk, inorder]

end remove_lemmas

/-! ## find_min, find_max, contains -/

theorem leftmost_inorder (x : K) (v : T) (l r : node K T) :
    ∃ k0 v0 l0 r0 rest, leftmost (.mk x v l r) = .mk k0 v0 l0 r0 ∧
      inorder (.mk x v l r) = (k0, v0) :: rest := by
  induction l generalizing x v r with
  | null_node => exact ⟨x, v, .null_node, r, inorder r, by simp [leftmost], by simp [inorder]⟩
  | mk y w ll lr ihl _ =>
    obtain ⟨k0, v0, l0, r0, rest, h1, h2⟩ := ihl y w lr
    exact ⟨k0, v0, l0, r0, rest ++ (x, v) :: inorder r, by simpa [leftmost] using h1,
      by rw [inorder, h2]; simp⟩

theorem rightmost_inorder (x : K) (v : T) (l r : node K T) :
    ∃ k0 v0 l0 r0 rest, rightmost (.mk x v l r) = .mk k0 v0 l0 r0 ∧
      inorder (.mk x v l r) = rest ++ [(k0, v0)] := by
  induction r generalizing x v l with
  | null_node => exact ⟨x, v, l, .null_node, inorder l, by simp [rightmost], by simp [inorder]⟩
  | mk y w rl rr _ ihr =>
    obtain ⟨k0, v0, l0, r0, rest, h1, h2⟩ := ihr y w rl
    exact ⟨k0, v0, l0, r0, inorder l ++ (x, v) :: rest, by simpa [rightmost] using h1,
      by rw [inorder, h2]; simp⟩

/-- Under the ordering invariant a key has one value. -/
theorem pairwise_value_unique [LinearOrder K] {L : List (K × T)}
    (h : L.Pairwise (fun p q => p.1 < q.1)) {k : K} {v w : T}
    (hv : (k, v) ∈ L) (hw : (k, w) ∈ L) : v = w := by
  induction L with
  | nil => simp at hv
  | cons p L ih =>
    rw [List.pairwise_cons] at h
    rcases List.mem_cons.1 hv with hv | hv <;> rcases List.mem_cons.1 hw with hw | hw
    · rw [← hv] at hw; simp only [Prod.mk.injEq] at hw; exact hw.2.symm
    · exact absurd (h.1 _ hw) (by rw [← hv]; exact lt_irrefl _)
    · exact absurd (h.1 _ hv) (by rw [← hw]; exact lt_irrefl _)
    · exact ih h.2 hv hw

section find_lemmas

variable [LinearOrder K]

/-- After `splay(k, root)` with `(k, v)` an entry of an ordered tree, the root
is the node with key `k` and value `v`. -/
theorem splay_root_present (k : K) (v : T) (t : splay_tree K T) (ho : ordered t.root)
    (hk : (k, v) ∈ inorder t.root) :
    ∃ l r, (splay_root k t).root = .mk k v l r := by
  have hn : is_null t.root = false := by
    cases hr : t.root with
    | null_node => rw [hr] at hk; simp [inorder] at hk
    | mk _ _ _ _ => rfl
  obtain ⟨x, w, l, r, h, hi, _⟩ := splay_root_real k t hn
  have hx : x = k := (splay_root_key_iff k t ho x w l r (by rw [h])).2 (mem_keys.2 ⟨v, hk⟩)
  subst hx
  have hw : w = v := pairwise_value_unique ho (by rw [← hi]; simp) hk
  subst hw
  exact ⟨l, r, by rw [h]⟩

theorem find_min_real (x : K) (v : T) (l r : node K T) (t : splay_tree K T)
    (hr : t.root = .mk x v l r) :
    ∃ k0 v0 rest, inorder t.root = (k0, v0) :: rest ∧
      find_min t = (.ok v0, splay_root k0 t) := by
  obtain ⟨k0, v0, l0, r0, rest, h1, h2⟩ := leftmost_inorder x v l r
  refine ⟨k0, v0, rest, by rw [hr, h2], ?_⟩
  simp [find_min, empty, hr, is_null, h1, node.key, node.value]

theorem find_max_real (x : K) (v : T) (l r : node K T) (t : splay_tree K T)
    (hr : t.root = .mk x v l r) :
    ∃ k0 v0 rest, inorder t.root = rest ++ [(k0, v0)] ∧
      find_max t = (.ok v0, splay_root k0 t) := by
  obtain ⟨k0, v0, l0, r0, rest, h1, h2⟩ := rightmost_inorder x v l r
  refine ⟨k0, v0, rest, by rw [hr, h2], ?_⟩
  simp [find_max, empty, hr, is_null, h1, node.key, node.value]

theorem inorder_find_min (t : splay_tree K T) :
    inorder (find_min t).2.root = inorder t.root := by
  cases hr : t.root with
  | null_node => simp [find_min, empty, hr, is_null]
  | mk x v l r =>
    obtain ⟨k0, v0, rest, _, h⟩ := find_min_real x v l r t hr
    rw [h, ← hr]; exact inorder_splay_root k0 t

theorem inorder_find_max (t : splay_tree K T) :
    inorder (find_max t).2.root = inorder t.root := by
  cases hr : t.root with
  | null_node => simp [find_max, empty, hr, is_null]
  | mk x v l r =>
    obtain ⟨k0, v0, rest, _, h⟩ := find_max_real x v l r t hr
    rw [h, ← hr]; exact inorder_splay_root k0 t

theorem inorder_contains (k : K) (t : splay_tree K T) :
    inorder (contains k t).2.root = inorder t.root := by
  cases hr : t.root with
  | null_node => simp [contains, empty, hr, is_null]
  | mk x v l r =>
    simp only [contains, empty, hr, is_null, Bool.false_eq_true, ite_false]
    rw [← hr]; exact inorder_splay_root k t

/-- Under the ordering invariant `contains(k)` tells whether `k` is a key of
the tree. -/
theorem contains_iff (k : K) (t : splay_tree K T) (ho : ordered t.root) :
    (contains k t).1 = true ↔ k ∈ keys t.root := by
  cases hr : t.root with
  | null_node => simp [contains, empty, hr, is_null, keys, inorder]
  | mk a b c d =>
    have hn : is_null t.root = false := by rw [hr]; rfl
    obtain ⟨x, w, l, r, h, _, _⟩ := splay_root_real k t hn
    have := splay_root_key_iff k t ho x w l r (by rw [h])
    rw [← hr, ← this]
    simp [contains, empty, hn, h, node.key]

end find_lemmas

/-! ## The operations on the in-order traversal -/

section contents

variable [LinearOrder K]

theorem pairwise_insert_mid {A B : List (K × T)} (k : K) (v : T)
    (h : (A ++ B).Pairwise (fun p q => p.1 < q.1)) (hA : ∀ p ∈ A, p.1 < k)
    (hB : ∀ p ∈ B, k < p.1) : (A ++ (k, v) :: B).Pairwise (fun p q => p.1 < q.1) := by
  rw [List.pairwise_append] at h ⊢
  refine ⟨h.1, List.pairwise_cons.2 ⟨hB, h.2.1⟩, ?_⟩
  intro a ha b hb
  rcases List.mem_cons.1 hb with rfl | hb
  · exact hA a ha
  · exact h.2.2 a ha b hb

theorem pairwise_remove_mid {A B : List (K × T)} (k : K) (w : T)
    (h : (A ++ (k, w) :: B).Pairwise (fun p q => p.1 < q.1)) :
    (A ++ B).Pairwise (fun p q => p.1 < q.1) :=
  h.sublist (List.Sublist.append_left (List.sublist_cons_self _ _) _)

theorem filter_ne_mid (k : K) (w : T) (A B : List (K × T)) (hA : ∀ p ∈ A, p.1 < k)
    (hB : ∀ p ∈ B, k < p.1) :
    (A ++ (k, w) :: B).filter (fun p => decide (p.1 ≠ k)) = A ++ B := by
  have := filter_ne_append k A B hA hB
  rw [List.filter_append] at this ⊢
  rw [List.filter_cons]
  simpa using this

/-- The in-order traversal after `insert(k, v)`. -/
theorem insert_inorder (k : K) (v : T) (t : splay_tree K T) (ho : ordered t.root) :
    inorder (insert k v t).2.root
      = (inorder t.root).filter (fun p => decide (p.1 < k)) ++
        (k, v) :: (inorder t.root).filter (fun p => decide (k < p.1)) := by
  cases hr : t.root with
  | null_node => simp [insert_empty k v t hr, inorder]
  | mk a b c d =>
    have hn : is_null t.root = false := by rw [hr]; rfl
    obtain ⟨A, B, l, r, hA, hB, h2, hi, h⟩ := insert_real k v t hn ho
    rw [h2, hi, ← hr]
    rcases h with ⟨_, h⟩ | ⟨_, w, h⟩
    · rw [h, filter_lt_append k A B hA (fun p hp => le_of_lt (hB p hp)),
        filter_gt_append k A B (fun p hp => le_of_lt (hA p hp)) hB]
    · rw [h, filter_lt_append k A ((k, w) :: B) hA]
      · have := filter_gt_append k (A ++ [(k, w)]) B
          (by
            intro p hp
            rcases List.mem_append.1 hp with hp | hp
            · exact le_of_lt (hA p hp)
            · rw [List.mem_singleton] at hp; subst hp; exact le_refl _) hB
        rw [List.append_assoc, List.singleton_append] at this
        rw [this]
      · intro p hp
        rcases List.mem_cons.1 hp with rfl | hp
        · exact le_refl _
        · exact le_of_lt (hB p hp)

/-- Embeds `insert(k, v)` returns true exactly when `k` was not a key. -/
theorem insert_fst_iff (k : K) (v : T) (t : splay_tree K T) (ho : ordered t.root) :
    (insert k v t).1 = true ↔ k ∉ keys t.root := by
  cases hr : t.root with
  | null_node => simp [insert_empty k v t hr, keys, inorder]
  | mk a b c d =>
    have hn : is_null t.root = false := by rw [hr]; rfl
    obtain ⟨A, B, l, r, hA, hB, h2, hi, h⟩ := insert_real k v t hn ho
    rw [← hr, mem_keys]
    rcases h with ⟨h1, h⟩ | ⟨h1, w, h⟩
    · simp only [h1, true_iff, not_exists]
      intro w hw
      rw [h] at hw
      rcases List.mem_append.1 hw with hw | hw
      · exact lt_irrefl _ (hA _ hw)
      · exact lt_irrefl _ (hB _ hw)
    · simp only [h1, Bool.false_eq_true, false_iff, not_not]
      exact ⟨w, by rw [h]; simp⟩

/-- After `insert(k, v)` the root is a real node with key `k` and value `v`. -/
theorem insert_root (k : K) (v : T) (t : splay_tree K T) (ho : ordered t.root) :
    ∃ l r, (insert k v t).2.root = .mk k v l r := by
  cases hr : t.root with
  | null_node => exact ⟨.null_node, .null_node, by simp [insert_empty k v t hr]⟩
  | mk a b c d =>
    have hn : is_null t.root = false := by rw [hr]; rfl
    obtain ⟨A, B, l, r, hA, hB, h2, hi, h⟩ := insert_real k v t hn ho
    exact ⟨l, r, by rw [h2]⟩

/-- Embeds `insert` leaves the sentinel's links and allocation as they were. -/
theorem insert_null (k : K) (v : T) (t : splay_tree K T) (ho : ordered t.root) :
    (insert k v t).2.null.left = t.null.left ∧ (insert k v t).2.null.right = t.null.right ∧
      (insert k v t).2.null.allocated = t.null.allocated := by
  cases hr : t.root with
  | null_node => simp [insert_empty k v t hr]
  | mk a b c d =>
    have hn : is_null t.root = false := by rw [hr]; rfl
    obtain ⟨A, B, l, r, hA, hB, h2, hi, h⟩ := insert_real k v t hn ho
    rw [h2]; simp

theorem insert_ordered (k : K) (v : T) (t : splay_tree K T) (ho : ordered t.root) :
    ordered (insert k v t).2.root := by
  cases hr : t.root with
  | null_node => simp [insert_empty k v t hr, ordered, inorder]
  | mk a b c d =>
    have hn : is_null t.root = false := by rw [hr]; rfl
    obtain ⟨A, B, l, r, hA, hB, h2, hi, h⟩ := insert_real k v t hn ho
    rw [h2]
    unfold ordered at ho ⊢
    rw [hi]
    rcases h with ⟨_, h⟩ | ⟨_, w, h⟩
    · rw [h] at ho; exact pairwise_insert_mid k v ho hA hB
    · rw [h] at ho; exact pairwise_insert_mid k v (pairwise_remove_mid k w ho) hA hB

/-- The in-order traversal after `remove(k)` on a non-empty tree. -/
theorem remove_inorder (k : K) (t : splay_tree K T) (hn : is_null t.root = false)
    (ho : ordered t.root) :
    inorder (remove k t).root = (inorder t.root).filter (fun p => decide (p.1 ≠ k)) := by
  obtain ⟨A, B, hA, hB, _, hi, h⟩ := remove_real k t hn ho
  rw [hi]
  rcases h with h | ⟨w, h⟩
  · rw [h, filter_ne_append k A B hA hB]
  · rw [h, filter_ne_mid k w A B hA hB]

/-- Embeds `remove(k)` on a non-empty tree takes away one node when `k` is a key and
none otherwise. -/
theorem remove_size (k : K) (t : splay_tree K T) (hn : is_null t.root = false)
    (ho : ordered t.root) :
    (k ∈ keys t.root → size (remove k t).root + 1 = size t.root) ∧
    (k ∉ keys t.root → inorder (remove k t).root = inorder t.root) := by
  obtain ⟨A, B, hA, hB, _, hi, h⟩ := remove_real k t hn ho
  have hnot : ∀ w, (k, w) ∉ A ++ B := by
    intro w hw
    rcases List.mem_append.1 hw with hw | hw
    · exact lt_irrefl _ (hA _ hw)
    · exact lt_irrefl _ (hB _ hw)
  rw [mem_keys]
  rcases h with h | ⟨w, h⟩
  · refine ⟨?_, fun _ => by rw [hi, h]⟩
    rintro ⟨w, hw⟩
    rw [h] at hw
    exact absurd hw (hnot w)
  · refine ⟨fun _ => ?_, fun hk => absurd ⟨w, by rw [h]; simp⟩ hk⟩
    rw [size_eq_length, size_eq_length, hi, h]
    simp only [List.length_append, List.length_cons]
    omega

theorem remove_wf (k : K) (t : splay_tree K T) (hw : wf t) : wf (remove k t) := by
  obtain ⟨ho, hl, hr⟩ := hw
  cases hroot : t.root with
  | null_node =>
    rw [remove_empty k t hroot hl hr]
    exact ⟨by simp [ordered, inorder], hl, hr⟩
  | mk a b c d =>
    have hn : is_null t.root = false := by rw [hroot]; rfl
    obtain ⟨A, B, hA, hB, hnull, hi, h⟩ := remove_real k t hn ho
    refine ⟨?_, by rw [hnull]; exact hl, by rw [hnull]; exact hr⟩
    unfold ordered at ho ⊢
    rw [hi]
    rcases h with h | ⟨w, h⟩
    · rw [h] at ho; exact ho
    · rw [h] at ho; exact pairwise_remove_mid k w ho

/-- Embeds `splay(k, root)` when the root's key is `k`: the loop breaks at once. -/
theorem splay_root_eq_key (k : K) (v : T) (l r : node K T) (t : splay_tree K T)
    (hr : t.root = .mk k v l r) :
    splay_root k t = { null := { t.null with key := k }, root := .mk k v l r } := by
  simp [splay_root, splay, hr, splay_loop_eq, attach_right, attach_left, node.left, node.right]

theorem find_min_null (t : splay_tree K T) :
    (find_min t).2.null.left = t.null.left ∧ (find_min t).2.null.right = t.null.right ∧
      (find_min t).2.null.allocated = t.null.allocated := by
  cases hr : t.root with
  | null_node => simp [find_min, empty, hr, is_null]
  | mk x v l r =>
    obtain ⟨k0, v0, rest, _, h⟩ := find_min_real x v l r t hr
    rw [h]; simp [splay_root_null]

theorem find_max_null (t : splay_tree K T) :
    (find_max t).2.null.left = t.null.left ∧ (find_max t).2.null.right = t.null.right ∧
      (find_max t).2.null.allocated = t.null.allocated := by
  cases hr : t.root with
  | null_node => simp [find_max, empty, hr, is_null]
  | mk x v l r =>
    obtain ⟨k0, v0, rest, _, h⟩ := find_max_real x v l r t hr
    rw [h]; simp [splay_root_null]

theorem contains_null (k : K) (t : splay_tree K T) :
    (contains k t).2.null.left = t.null.left ∧ (contains k t).2.null.right = t.null.right ∧
      (contains k t).2.null.allocated = t.null.allocated := by
  cases hr : t.root with
  | null_node => simp [contains, empty, hr, is_null]
  | mk x v l r => simp [contains, empty, hr, is_null, splay_root_null]

theorem find_min_wf (t : splay_tree K T) (hw : wf t) : wf (find_min t).2 := by
  obtain ⟨ho, hl, hr⟩ := hw
  obtain ⟨h1, h2, _⟩ := find_min_null t
  exact ⟨by unfold ordered; rw [inorder_find_min]; exact ho, by rw [h1]; exact hl,
    by rw [h2]; exact hr⟩

theorem find_max_wf (t : splay_tree K T) (hw : wf t) : wf (find_max t).2 := by
  obtain ⟨ho, hl, hr⟩ := hw
  obtain ⟨h1, h2, _⟩ := find_max_null t
  exact ⟨by unfold ordered; rw [inorder_find_max]; exact ho, by rw [h1]; exact hl,
    by rw [h2]; exact hr⟩

theorem contains_wf (k : K) (t : splay_tree K T) (hw : wf t) : wf (contains k t).2 := by
  obtain ⟨ho, hl, hr⟩ := hw
  obtain ⟨h1, h2, _⟩ := contains_null k t
  exact ⟨by unfold ordered; rw [inorder_contains]; exact ho, by rw [h1]; exact hl,
    by rw [h2]; exact hr⟩

theorem insert_wf (k : K) (v : T) (t : splay_tree K T) (hw : wf t) : wf (insert k v t).2 := by
  obtain ⟨ho, hl, hr⟩ := hw
  obtain ⟨h1, h2, _⟩ := insert_null k v t ho
  exact ⟨insert_ordered k v t ho, by rw [h1]; exact hl, by rw [h2]; exact hr⟩

end contents

/-! ## clear -/

section clear_lemmas

variable [LinearOrder K]

/-- Embeds `remove(root->key)` releases at least the root, whatever the tree. -/
theorem remove_root_key_size (x : K) (v : T) (l r : node K T) (t : splay_tree K T)
    (hr : t.root = .mk x v l r) : size (remove x t).root < size t.root := by
  have h := splay_root_eq_key x v l r t hr
  cases hl : l with
  | null_node =>
    subst hl
    simp [remove, h, node.key, node.left, node.right, is_null, hr, size]
  | mk a b c d =>
    subst hl
    obtain ⟨x1, w1, l1, r1, h1, hi1, _⟩ :=
      splay_real x ({ t.null with key := x }) (.mk a b c d) rfl
    have hsz : size l1 + 1 + size r1 = size (node.mk a b c d) := by
      rw [size_eq_length (.mk a b c d), ← hi1, size_eq_length, size_eq_length]
      simp only [List.length_append, List.length_cons]
      omega
    simp only [remove, h, node.key, node.left, node.right, is_null, h1, set_right, hr,
      ne_eq, not_true_eq_false, ite_false, Bool.false_eq_true]
    simp only [size] at hsz ⊢
    omega

/-- One round of the loop of `clear()` releases at least one node. -/
theorem clear_round_size_lt (t : splay_tree K T) (hn : is_null t.root = false) :
    size (remove ((find_max t).2.root.key (find_max t).2.null) (find_max t).2).root
      < size t.root := by
  cases hr : t.root with
  | null_node => rw [hr] at hn; simp [is_null] at hn
  | mk x v l r =>
    obtain ⟨k0, v0, rest, _, h⟩ := find_max_real x v l r t hr
    obtain ⟨x1, w1, l1, r1, h1, hi1, _⟩ := splay_root_real k0 t hn
    have hsz : size (splay_root k0 t).root = size t.root := by
      rw [size_eq_length, size_eq_length, inorder_splay_root]
    rw [h]
    simp only
    rw [← hr, ← hsz]
    have hroot : (splay_root k0 t).root = .mk x1 w1 l1 r1 := by rw [h1]
    rw [hroot]
    simp only [node.key]
    rw [← hroot]
    exact remove_root_key_size x1 w1 l1 r1 _ hroot

/-- The loop of `clear()` ends within `size root` rounds and leaves the root at
the sentinel, whatever the tree. -/
theorem clear_loop_size (f : Nat) (t : splay_tree K T) (hf : size t.root ≤ f) :
    ∃ r, clear_loop f t = some r ∧ r.1.root = .null_node ∧ r.2 ≤ size t.root := by
  induction f generalizing t with
  | zero =>
    have : t.root = .null_node := by
      cases hr : t.root with
      | null_node => rfl
      | mk _ _ _ _ => rw [hr] at hf; simp [size] at hf
    exact ⟨(t, 0), by simp [clear_loop, empty, this, is_null], this, Nat.zero_le _⟩
  | succ f ih =>
    cases hr : t.root with
    | null_node =>
      exact ⟨(t, 0), by simp [clear_loop, empty, hr, is_null], hr, Nat.zero_le _⟩
    | mk x v l r =>
      have hn : is_null t.root = false := by rw [hr]; rfl
      have hlt := clear_round_size_lt t hn
      obtain ⟨r1, h1, h2, h3⟩ := ih
        (remove ((find_max t).2.root.key (find_max t).2.null) (find_max t).2) (by omega)
      refine ⟨(r1.1, r1.2 + 1), ?_, h2, ?_⟩
      · simp [clear_loop, empty, hn, h1]
      · rw [← hr]; simp only; omega

/-- Embeds `clear()` leaves the root at the sentinel, whatever the tree. -/
theorem clear_root (t : splay_tree K T) : (clear t).root = .null_node := by
  obtain ⟨r, h1, h2, _⟩ := clear_loop_size (size t.root) t (le_refl _)
  simp [clear, h1, h2]

/-- One round of the loop of `clear()` on a non-empty tree with the ordering
invariant releases exactly one node, keeps the invariant and leaves the
sentinel's links and allocation as they were. -/
theorem clear_round_ordered (t : splay_tree K T) (hn : is_null t.root = false)
    (ho : ordered t.root) :
    ordered (remove ((find_max t).2.root.key (find_max t).2.null) (find_max t).2).root ∧
    size (remove ((find_max t).2.root.key (find_max t).2.null) (find_max t).2).root + 1
      = size t.root ∧
    (remove ((find_max t).2.root.key (find_max t).2.null) (find_max t).2).null.left
      = t.null.left ∧
    (remove ((find_max t).2.root.key (find_max t).2.null) (find_max t).2).null.right
      = t.null.right ∧
    (remove ((find_max t).2.root.key (find_max t).2.null) (find_max t).2).null.allocated
      = t.null.allocated := by
  have hi := inorder_find_max t
  have ho1 : ordered (find_max t).2.root := by unfold ordered; rw [hi]; exact ho
  obtain ⟨hl, hr, ha⟩ := find_max_null t
  have hn1 : is_null (find_max t).2.root = false := by
    rw [is_null_eq_false_iff, ne_eq, ← inorder_eq_nil_iff, hi, inorder_eq_nil_iff,
      ← ne_eq, ← is_null_eq_false_iff]
    exact hn
  cases hroot : (find_max t).2.root with
  | null_node => rw [hroot] at hn1; simp [is_null] at hn1
  | mk x v l r =>
    simp only [node.key]
    have hk : x ∈ keys (find_max t).2.root := by
      rw [mem_keys, hroot]; exact ⟨v, by simp [inorder]⟩
    obtain ⟨A, B, _, _, hnull, hi2, h⟩ := remove_real x _ hn1 ho1
    refine ⟨?_, ?_, by rw [hnull]; exact hl, by rw [hnull]; exact hr, by rw [hnull]; exact ha⟩
    · unfold ordered at ho1 ⊢
      rw [hi2]
      rcases h with h | ⟨w, h⟩
      · rw [h] at ho1; exact ho1
      · rw [h] at ho1; exact pairwise_remove_mid x w ho1
    · rw [(remove_size x _ hn1 ho1).1 hk, size_eq_length, size_eq_length, hi]

/-- On a tree with the ordering invariant the loop of `clear()` ends after
exactly `size root` rounds, with the root at the sentinel. -/
theorem clear_loop_ordered (f : Nat) (t : splay_tree K T) (ho : ordered t.root)
    (hf : size t.root ≤ f) :
    ∃ t1, clear_loop f t = some (t1, size t.root) ∧ t1.root = .null_node ∧
      t1.null.left = t.null.left ∧ t1.null.right = t.null.right ∧
      t1.null.allocated = t.null.allocated := by
  induction f generalizing t with
  | zero =>
    have : t.root = .null_node := by
      cases hr : t.root with
      | null_node => rfl
      | mk _ _ _ _ => rw [hr] at hf; simp [size] at hf
    exact ⟨t, by simp [clear_loop, empty, this, is_null, size], this, rfl, rfl, rfl⟩
  | succ f ih =>
    cases hr : t.root with
    | null_node =>
      exact ⟨t, by simp [clear_loop, empty, hr, is_null, size], hr, rfl, rfl, rfl⟩
    | mk x v l r =>
      have hn : is_null t.root = false := by rw [hr]; rfl
      obtain ⟨ho1, hsz, hl, hrr, ha⟩ := clear_round_ordered t hn ho
      obtain ⟨t1, h1, h2, h3, h4, h5⟩ := ih
        (remove ((find_max t).2.root.key (find_max t).2.null) (find_max t).2) ho1 (by omega)
      refine ⟨t1, ?_, h2, by rw [h3, hl], by rw [h4, hrr], by rw [h5, ha]⟩
      simp [clear_loop, empty, hn, h1, ← hr, hsz]

theorem clear_wf (t : splay_tree K T) (hw : wf t) : wf (clear t) := by
  obtain ⟨ho, hl, hr⟩ := hw
  obtain ⟨t1, h1, h2, h3, h4, _⟩ := clear_loop_ordered (size t.root) t ho (le_refl _)
  have : clear t = t1 := by simp [clear, h1]
  rw [this]
  exact ⟨by simp [ordered, h2, inorder], by rw [h3]; exact hl, by rw [h4]; exact hr⟩

/-- Every public operation keeps the state invariant. -/
theorem apply_op_wf (t : splay_tree K T) (o : op K T) (hw : wf t) : wf (apply_op t o) := by
  cases o with
  | insert k v => exact insert_wf k v t hw
  | remove k => exact remove_wf k t hw
  | contains k => exact contains_wf k t hw
  | find_min => exact find_min_wf t hw
  | find_max => exact find_max_wf t hw
  | clear => exact clear_wf t hw

theorem run_wf (t : splay_tree K T) (ops : List (op K T)) (hw : wf t) : wf (run t ops) := by
  induction ops generalizing t with
  | nil => exact hw
  | cons o ops ih => exact ih _ (apply_op_wf t o hw)

theorem new_wf [Inhabited K] [Inhabited T] : wf (splay_tree.new : splay_tree K T) :=
  ⟨by simp [splay_tree.new, ordered, inorder], rfl, rfl⟩

/-- The keys after `insert(k, v)`. -/
theorem mem_keys_insert (k : K) (v : T) (t : splay_tree K T) (ho : ordered t.root) (k1 : K) :
    k1 ∈ keys (insert k v t).2.root ↔ k1 = k ∨ k1 ∈ keys t.root := by
  rw [mem_keys, mem_keys]
  simp only [insert_inorder k v t ho, List.mem_append, List.mem_cons, List.mem_filter,
    decide_eq_true_eq, Prod.mk.injEq]
  constructor
  · rintro ⟨w, ⟨h, _⟩ | ⟨h, _⟩ | ⟨h, _⟩⟩
    · exact Or.inr ⟨w, h⟩
    · exact Or.inl h
    · exact Or.inr ⟨w, h⟩
  · rintro (h | ⟨w, h⟩)
    · exact ⟨v, Or.inr (Or.inl ⟨h, rfl⟩)⟩
    · rcases lt_trichotomy k1 k with h1 | h1 | h1
      · exact ⟨w, Or.inl ⟨h, h1⟩⟩
      · exact ⟨v, Or.inr (Or.inl ⟨h1, rfl⟩)⟩
      · exact ⟨w, Or.inr (Or.inr ⟨h, h1⟩)⟩

/-- The keys after `remove(k)`. -/
theorem mem_keys_remove (k : K) (t : splay_tree K T) (hw : wf t) (k1 : K) :
    k1 ∈ keys (remove k t).root ↔ k1 ≠ k ∧ k1 ∈ keys t.root := by
  obtain ⟨ho, hl, hr⟩ := hw
  cases hroot : t.root with
  | null_node => simp [remove_empty k t hroot hl hr, keys, inorder]
  | mk a b c d =>
    have hn : is_null t.root = false := by rw [hroot]; rfl
    rw [← hroot, mem_keys, mem_keys]
    simp only [remove_inorder k t hn ho, List.mem_filter, decide_eq_true_eq]
    constructor
    · rintro ⟨w, h, h1⟩
      exact ⟨h1, w, h⟩
    · rintro ⟨h1, w, h⟩
      exact ⟨w, h, h1⟩

theorem inserted_last_concat (k : K) (ops : List (op K T)) (o : op K T) :
    inserted_last k (ops ++ [o])
      = if o.names k = true then o.is_insert else inserted_last k ops := by
  by_cases h : o.names k = true
  · simp [inserted_last, List.filter_append, List.filter_cons, h]
  · simp [inserted_last, List.filter_append, List.filter_cons, h]

theorem run_concat (t : splay_tree K T) (ops : List (op K T)) (o : op K T) :
    run t (ops ++ [o]) = apply_op (run t ops) o := by
  simp [run, List.foldl_append]

/-- After a sequence of inserts and removes from the empty tree, the keys of
the tree are those whose last naming operation is an insert. -/
theorem mem_keys_run [Inhabited K] [Inhabited T] (ops : List (op K T))
    (h : ∀ o ∈ ops, o.is_update = true) (k : K) :
    k ∈ keys (run (splay_tree.new : splay_tree K T) ops).root ↔ inserted_last k ops = true := by
  induction ops using List.reverseRecOn with
  | nil => simp [run, splay_tree.new, keys, inorder, inserted_last]
  | append_singleton ops o ih =>
    have hops : ∀ o ∈ ops, o.is_update = true := fun o1 h1 => h o1 (by simp [h1])
    have ho : o.is_update = true := h o (by simp)
    have hw := run_wf (splay_tree.new : splay_tree K T) ops new_wf
    rw [run_concat, inserted_last_concat]
    cases o with
    | insert k1 v =>
      simp only [apply_op, mem_keys_insert k1 v _ hw.1, ih hops, op.names, op.is_insert,
        decide_eq_true_eq]
      by_cases hk : k1 = k
      · simp [hk]
      · simp [hk, Ne.symm hk]
    | remove k1 =>
      simp only [apply_op, mem_keys_remove k1 _ hw, ih hops, op.names, op.is_insert,
        decide_eq_true_eq]
      by_cases hk : k1 = k
      · simp [hk]
      · simp [hk, Ne.symm hk]
    | contains k1 => simp [op.is_update] at ho
    | find_min => simp [op.is_update] at ho
    | find_max => simp [op.is_update] at ho
    | clear => simp [op.is_update] at ho

end clear_lemmas

/-! ## The claims -/

section claims

variable [LinearOrder K]

/-- C3. On a tree with the ordering invariant, `insert(k, v)` returns true
exactly when `k` was not a key before; when `k` was a key it returns false and
the number of nodes is unchanged; in both cases the entry for `k` is now
`(k, v)`, every entry with another key is unchanged (the in-order traversal is
the old entries below `k`, then `(k, v)`, then the old entries above `k`), and
the root is the node with key `k` and value `v`. -/
theorem insert_correct (k : K) (v : T) (t : splay_tree K T) (ho : ordered t.root) :
    ((insert k v t).1 = true ↔ k ∉ keys t.root) ∧
    (k ∈ keys t.root →
      (insert k v t).1 = false ∧ size (insert k v t).2.root = size t.root) ∧
    (k ∉ keys t.root → size (insert k v t).2.root = size t.root + 1) ∧
    inorder (insert k v t).2.root
      = (inorder t.root).filter (fun p => decide (p.1 < k)) ++
        (k, v) :: (inorder t.root).filter (fun p => decide (k < p.1)) ∧
    (∀ p : K × T, p.1 ≠ k → (p ∈ inorder (insert k v t).2.root ↔ p ∈ inorder t.root)) ∧
    (∀ w : T, (k, w) ∈ inorder (insert k v t).2.root ↔ w = v) ∧
    (∃ l r, (insert k v t).2.root = .mk k v l r) := by
  have hfst := insert_fst_iff k v t ho
  have hin := insert_inorder k v t ho
  have hsize : (k ∈ keys t.root → size (insert k v t).2.root = size t.root) ∧
      (k ∉ keys t.root → size (insert k v t).2.root = size t.root + 1) := by
    cases hr : t.root with
    | null_node => simp [insert_empty k v t hr, keys, inorder, size]
    | mk a b c d =>
      have hn : is_null t.root = false := by rw [hr]; rfl
      obtain ⟨A, B, l, r, hA, hB, h2, hi, h⟩ := insert_real k v t hn ho
      have hnot : ∀ w, (k, w) ∉ A ++ B := by
        intro w hw
        rcases List.mem_append.1 hw with hw | hw
        · exact lt_irrefl _ (hA _ hw)
        · exact lt_irrefl _ (hB _ hw)
      rw [← hr, mem_keys, size_eq_length, size_eq_length, h2, hi]
      rcases h with ⟨_, h⟩ | ⟨_, w, h⟩
      · rw [h]
        refine ⟨fun ⟨w, hw⟩ => absurd hw (hnot w), fun _ => ?_⟩
        simp only [List.length_append, List.length_cons]; omega
      · rw [h]
        refine ⟨fun _ => by simp, fun hk => absurd ⟨w, by simp⟩ hk⟩
  refine ⟨hfst, fun hk => ⟨?_, hsize.1 hk⟩, hsize.2, hin, ?_, ?_, insert_root k v t ho⟩
  · cases hb : (insert k v t).1 with
    | false => rfl
    | true => exact absurd hk (hfst.1 hb)
  · intro p hp
    rw [hin]
    simp only [List.mem_append, List.mem_cons, List.mem_filter, decide_eq_true_eq]
    constructor
    · rintro (⟨h, _⟩ | h | ⟨h, _⟩)
      · exact h
      · exact absurd (by rw [h]) hp
      · exact h
    · intro h
      rcases lt_or_gt_of_ne hp with h1 | h1
      · exact Or.inl ⟨h, h1⟩
      · exact Or.inr (Or.inr ⟨h, h1⟩)
  · intro w
    rw [hin]
    simp only [List.mem_append, List.mem_cons, List.mem_filter, decide_eq_true_eq,
      Prod.mk.injEq, true_and, lt_self_iff_false, and_false, false_or, or_false]

theorem insert_correct_witness :
    ordered (node.mk 5 50 (node.mk 2 20 .null_node .null_node) .null_node : node Nat Nat) ∧
    (insert 2 21 (⟨reset_null_node, node.mk 5 50 (node.mk 2 20 .null_node .null_node)
        .null_node⟩ : splay_tree Nat Nat)).1 = false ∧
    inorder (insert 2 21 (⟨reset_null_node, node.mk 5 50 (node.mk 2 20 .null_node .null_node)
        .null_node⟩ : splay_tree Nat Nat)).2.root = [(2, 21), (5, 50)] := by
  have ho : ordered (node.mk 5 50 (node.mk 2 20 .null_node .null_node) .null_node :
      node Nat Nat) := by
    simp [ordered, inorder]
  have h := insert_correct 2 21 (⟨reset_null_node,
    node.mk 5 50 (node.mk 2 20 .null_node .null_node) .null_node⟩ : splay_tree Nat Nat) ho
  refine ⟨ho, (h.2.1 (by simp [keys, inorder])).1, ?_⟩
  rw [h.2.2.2.1]
  simp [inorder]

/-- C4. On a non-empty tree with the ordering invariant, after `remove(k)` the
in-order traversal is the one before the call with the entry for `k` deleted:
when `k` was a key exactly one node is gone, when it was not the contents are
unchanged; the sentinel is not released. -/
theorem remove_correct (k : K) (t : splay_tree K T) (hne : t.root ≠ .null_node)
    (ho : ordered t.root) :
    inorder (remove k t).root = (inorder t.root).filter (fun p => decide (p.1 ≠ k)) ∧
    (k ∈ keys t.root → size (remove k t).root + 1 = size t.root) ∧
    (k ∉ keys t.root → inorder (remove k t).root = inorder t.root) ∧
    (∀ p : K × T, p ∈ inorder (remove k t).root ↔ p ∈ inorder t.root ∧ p.1 ≠ k) ∧
    (remove k t).null.allocated = t.null.allocated := by
  have hn : is_null t.root = false := is_null_eq_false_iff.2 hne
  have hin := remove_inorder k t hn ho
  obtain ⟨h1, h2⟩ := remove_size k t hn ho
  refine ⟨hin, h1, h2, ?_, ?_⟩
  · intro p
    rw [hin]
    simp only [List.mem_filter, decide_eq_true_eq]
  · obtain ⟨A, B, _, _, hnull, _, _⟩ := remove_real k t hn ho
    rw [hnull]

theorem remove_correct_witness :
    (node.mk 5 50 (node.mk 2 20 .null_node .null_node) .null_node : node Nat Nat)
      ≠ .null_node ∧
    inorder (remove 5 (⟨reset_null_node, node.mk 5 50 (node.mk 2 20 .null_node .null_node)
        .null_node⟩ : splay_tree Nat Nat)).root = [(2, 20)] := by
  have h := remove_correct 5 (⟨reset_null_node,
    node.mk 5 50 (node.mk 2 20 .null_node .null_node) .null_node⟩ : splay_tree Nat Nat)
    (by simp) (by simp [ordered, inorder])
  refine ⟨by simp, ?_⟩
  rw [h.1]
  simp [inorder]

/-- C5 (the code at the failing input). `remove(k)` on a freshly constructed,
empty tree calls `deallocate` on the sentinel: afterwards the root still is the
link to the sentinel but the sentinel is no longer allocated. -/
theorem remove_on_empty_releases_sentinel [Inhabited K] [Inhabited T] (k : K) :
    (splay_tree.new : splay_tree K T).null.allocated = true ∧
    (remove k (splay_tree.new : splay_tree K T)).root = .null_node ∧
    (remove k (splay_tree.new : splay_tree K T)).null.allocated = false := by
  rw [remove_empty k _ rfl rfl rfl]
  exact ⟨rfl, rfl, rfl⟩

/-- C6 (the code at the failing input). On the tree holding the single key 5,
one `remove(5)` leaves an empty tree with the sentinel allocated; a second
`remove(5)` leaves the same (empty) contents but releases the sentinel. -/
theorem remove_twice_releases_sentinel :
    (remove 5 (insert 5 50 (splay_tree.new : splay_tree Nat Nat)).2).root = .null_node ∧
    (remove 5 (insert 5 50 (splay_tree.new : splay_tree Nat Nat)).2).null.allocated = true ∧
    (remove 5 (remove 5 (insert 5 50 (splay_tree.new : splay_tree Nat Nat)).2)).root
      = .null_node ∧
    (remove 5 (remove 5 (insert 5 50 (splay_tree.new : splay_tree Nat Nat)).2)).null.allocated
      = false := by
  decide

/-- C7. `find_min()` and `find_max()` throw the empty-tree error if and only
if the root is the sentinel, as on a freshly constructed tree and after
`clear()`; a throwing call leaves the tree unchanged; on a tree whose only
node holds `(k, v)`, as after one insert into an empty tree, both return
`v`. -/
theorem find_min_max_error_iff_empty [Inhabited K] [Inhabited T] (t : splay_tree K T) :
    ((find_min t).1 = .error .empty_tree ↔ t.root = .null_node) ∧
    ((find_max t).1 = .error .empty_tree ↔ t.root = .null_node) ∧
    (t.root = .null_node → (find_min t).2 = t ∧ (find_max t).2 = t) ∧
    (find_min (splay_tree.new : splay_tree K T)).1 = .error .empty_tree ∧
    (find_max (splay_tree.new : splay_tree K T)).1 = .error .empty_tree ∧
    (find_min (clear t)).1 = .error .empty_tree ∧
    (find_max (clear t)).1 = .error .empty_tree ∧
    (∀ (k : K) (v : T), t.root = .mk k v .null_node .null_node →
      (find_min t).1 = .ok v ∧ (find_max t).1 = .ok v) ∧
    (∀ (k : K) (v : T),
      (find_min (insert k v (splay_tree.new : splay_tree K T)).2).1 = .ok v ∧
      (find_max (insert k v (splay_tree.new : splay_tree K T)).2).1 = .ok v) := by
  have hmin : ∀ t : splay_tree K T,
      ((find_min t).1 = .error .empty_tree ↔ t.root = .null_node) := by
    intro t
    cases hr : t.root with
    | null_node => simp [find_min, empty, hr, is_null]
    | mk x v l r => simp [find_min, empty, hr, is_null]
  have hmax : ∀ t : splay_tree K T,
      ((find_max t).1 = .error .empty_tree ↔ t.root = .null_node) := by
    intro t
    cases hr : t.root with
    | null_node => simp [find_max, empty, hr, is_null]
    | mk x v l r => simp [find_max, empty, hr, is_null]
  have hone : ∀ (t : splay_tree K T) (k : K) (v : T),
      t.root = .mk k v .null_node .null_node →
      (find_min t).1 = .ok v ∧ (find_max t).1 = .ok v := by
    intro t k v hr
    simp [find_min, find_max, empty, hr, is_null, leftmost, rightmost, node.value]
  refine ⟨hmin t, hmax t, ?_, (hmin _).2 rfl, (hmax _).2 rfl, (hmin _).2 (clear_root t),
    (hmax _).2 (clear_root t), hone t, ?_⟩
  · intro hr
    simp [find_min, find_max, empty, hr, is_null]
  · intro k v
    exact hone _ k v
      (by rw [insert_empty k v (splay_tree.new : splay_tree K T) rfl])

/-- C8. On a non-empty tree with the ordering invariant, `find_min()` returns
the value stored under the smallest key and `find_max()` the value stored
under the largest key, the node holding that key and value is the root after
the call, and the contents are unchanged. -/
theorem find_min_max_correct (t : splay_tree K T) (hne : t.root ≠ .null_node)
    (ho : ordered t.root) :
    (∃ k v l r, (k, v) ∈ inorder t.root ∧ (∀ p ∈ inorder t.root, k ≤ p.1) ∧
      (find_min t).1 = .ok v ∧ (find_min t).2.root = .mk k v l r ∧
      inorder (find_min t).2.root = inorder t.root) ∧
    (∃ k v l r, (k, v) ∈ inorder t.root ∧ (∀ p ∈ inorder t.root, p.1 ≤ k) ∧
      (find_max t).1 = .ok v ∧ (find_max t).2.root = .mk k v l r ∧
      inorder (find_max t).2.root = inorder t.root) := by
  cases hr : t.root with
  | null_node => exact absurd hr hne
  | mk x w a b =>
    rw [← hr]
    constructor
    · obtain ⟨k0, v0, rest, hi, h⟩ := find_min_real x w a b t hr
      have hmem : (k0, v0) ∈ inorder t.root := by rw [hi]; simp
      obtain ⟨l, r, hroot⟩ := splay_root_present k0 v0 t ho hmem
      refine ⟨k0, v0, l, r, hmem, ?_, by rw [h], by rw [h]; exact hroot, inorder_find_min t⟩
      intro p hp
      unfold ordered at ho
      rw [hi] at ho hp
      rcases List.mem_cons.1 hp with rfl | hp
      · exact le_refl _
      · exact le_of_lt ((List.pairwise_cons.1 ho).1 p hp)
    · obtain ⟨k0, v0, rest, hi, h⟩ := find_max_real x w a b t hr
      have hmem : (k0, v0) ∈ inorder t.root := by rw [hi]; simp
      obtain ⟨l, r, hroot⟩ := splay_root_present k0 v0 t ho hmem
      refine ⟨k0, v0, l, r, hmem, ?_, by rw [h], by rw [h]; exact hroot, inorder_find_max t⟩
      intro p hp
      unfold ordered at ho
      rw [hi] at ho hp
      rcases List.mem_append.1 hp with hp | hp
      · exact le_of_lt ((List.pairwise_append.1 ho).2.2 p hp (k0, v0) (by simp))
      · rw [List.mem_singleton] at hp; subst hp; exact le_refl _

theorem find_min_max_correct_witness :
    (node.mk 5 50 (node.mk 2 20 .null_node .null_node)
        (node.mk 8 80 .null_node .null_node) : node Nat Nat) ≠ .null_node ∧
    ordered (node.mk 5 50 (node.mk 2 20 .null_node .null_node)
        (node.mk 8 80 .null_node .null_node) : node Nat Nat) ∧
    ∃ k v l r, (find_min (⟨reset_null_node, node.mk 5 50 (node.mk 2 20 .null_node .null_node)
        (node.mk 8 80 .null_node .null_node)⟩ : splay_tree Nat Nat)).2.root
          = node.mk k v l r ∧
      (find_min (⟨reset_null_node, node.mk 5 50 (node.mk 2 20 .null_node .null_node)
        (node.mk 8 80 .null_node .null_node)⟩ : splay_tree Nat Nat)).1 = .ok v := by
  have ho : ordered (node.mk 5 50 (node.mk 2 20 .null_node .null_node)
      (node.mk 8 80 .null_node .null_node) : node Nat Nat) := by
    simp [ordered, inorder]
  obtain ⟨⟨k, v, l, r, _, _, h1, h2, _⟩, _⟩ := find_min_max_correct
    (⟨reset_null_node, node.mk 5 50 (node.mk 2 20 .null_node .null_node)
      (node.mk 8 80 .null_node .null_node)⟩ : splay_tree Nat Nat) (by simp) ho
  exact ⟨by simp, ho, k, v, l, r, h2, h1⟩

/-- C9. If `contains(k)` returns true, then right after the call the root is a
real node whose key is `k`. -/
theorem contains_true_root (k : K) (t : splay_tree K T) (h : (contains k t).1 = true) :
    ∃ v l r, (contains k t).2.root = .mk k v l r := by
  cases hr : t.root with
  | null_node => simp [contains, empty, hr, is_null] at h
  | mk a b c d =>
    have hn : is_null t.root = false := by rw [hr]; rfl
    obtain ⟨x, w, l, r, h1, _, _⟩ := splay_root_real k t hn
    simp only [contains, empty, hn, h1, node.key, Bool.false_eq_true, ite_false,
      decide_eq_true_eq] at h ⊢
    subst h
    exact ⟨w, l, r, rfl⟩

theorem contains_true_root_witness :
    (contains 2 (⟨reset_null_node, node.mk 5 50 (node.mk 2 20 .null_node .null_node)
        .null_node⟩ : splay_tree Nat Nat)).1 = true ∧
    ∃ v l r, (contains 2 (⟨reset_null_node, node.mk 5 50 (node.mk 2 20 .null_node .null_node)
        .null_node⟩ : splay_tree Nat Nat)).2.root = node.mk 2 v l r :=
  ⟨by decide, contains_true_root 2 _ (by decide)⟩

/-- The loop of `splay` is the repetition of its body: one more allowed
iteration runs the body once and goes on only if the body did not `break`. -/
theorem splay_loop_succ_body (k : K) (s : sentinel K T) (f : Nat) (n : node K T)
    (lt rt : List (linked K T)) :
    splay_loop k s (f + 1) n lt rt
      = if (splay_body k s (n, lt, rt)).1 = true then
          splay_loop k s f (splay_body k s (n, lt, rt)).2.1
            (splay_body k s (n, lt, rt)).2.2.1 (splay_body k s (n, lt, rt)).2.2.2
        else (splay_body k s (n, lt, rt)).2 := by
  simp only [splay_loop, splay_body]
  split_ifs <;> simp_all

theorem operator_index_wf [Inhabited T] (k : K) (t : splay_tree K T) (hw : wf t) :
    wf (operator_index k t).2 := by
  simp only [operator_index]
  split_ifs
  · exact insert_wf k default _ (contains_wf k t hw)
  · exact contains_wf k t hw

theorem apply_call_wf [Inhabited T] (t : splay_tree K T) (c : call K T) (hw : wf t) :
    wf (apply_call t c) := by
  cases c with
  | op o => exact apply_op_wf t o hw
  | index k => exact operator_index_wf k t hw

theorem run_calls_wf [Inhabited T] (t : splay_tree K T) (cs : List (call K T)) (hw : wf t) :
    wf (run_calls t cs) := by
  induction cs generalizing t with
  | nil => exact hw
  | cons c cs ih => exact ih _ (apply_call_wf t c hw)

/-- C11 (the code at the failing input). Copying works only for an empty
tree: `clone` on the self-looped sentinel gives the link to the new tree's own
sentinel, so the copy of a fresh tree is a fresh tree; on any real node `clone`
reads through the uninitialised local `n`, so the copy constructor has no
defined result on a tree with at least one node. -/
theorem clone_defined_only_on_sentinel [Inhabited K] [Inhabited T] (s : sentinel K T) (k : K)
    (v : T) (l r : node K T) :
    clone (reset_null_node : sentinel K T) .null_node = some .null_node ∧
    splay_tree.copy (splay_tree.new : splay_tree K T) = some splay_tree.new ∧
    clone s (.mk k v l r) = none ∧
    splay_tree.copy ({ null := s, root := .mk k v l r } : splay_tree K T) = none := by
  refine ⟨rfl, ?_, rfl, ?_⟩
  · simp [splay_tree.copy, operator_assign, clone, splay_tree.new, reset_null_node, is_null,
      clear, size, clear_loop, empty]
  · simp [splay_tree.copy, operator_assign, clone]

/-- C12 (the code at the failing input). Assigning a tree with at least one
node to any tree has no defined result, so there is no tree `b` after `b = a`
on which a later insert or remove could run. -/
theorem operator_assign_nonempty_undefined (b : splay_tree K T) (s : sentinel K T) (k : K)
    (v : T) (l r : node K T) :
    operator_assign b ({ null := s, root := .mk k v l r } : splay_tree K T) = none := by
  simp [operator_assign, clone]

/-- C14. On a non-empty tree with the ordering invariant, for a key `k` that is
not in the tree, the root after `splay(k, root)` holds a key of the tree that
is either the greatest key below `k` or the least key above `k`. -/
theorem splay_absent_key_root (k : K) (t : splay_tree K T) (hne : t.root ≠ .null_node)
    (ho : ordered t.root) (hk : k ∉ keys t.root) :
    ∃ x v l r, (splay_root k t).root = .mk x v l r ∧ x ∈ keys t.root ∧
      ((x < k ∧ ∀ y ∈ keys t.root, y < k → y ≤ x) ∨
       (k < x ∧ ∀ y ∈ keys t.root, k < y → x ≤ y)) := by
  obtain ⟨x, v, l, r, h, hi, hb⟩ := splay_root_real k t (is_null_eq_false_iff.2 hne)
  obtain ⟨hl, hr⟩ := hb ho
  have hx : x ∈ keys t.root := mem_keys.2 ⟨v, by rw [← hi]; simp⟩
  have hxk : x ≠ k := fun e => hk (e ▸ hx)
  unfold ordered at ho
  rw [← hi] at ho
  refine ⟨x, v, l, r, by rw [h], hx, ?_⟩
  rcases lt_or_gt_of_ne hxk with h1 | h1
  · left
    refine ⟨h1, fun y hy hyk => ?_⟩
    obtain ⟨w, hw⟩ := mem_keys.1 hy
    rw [← hi] at hw
    rcases List.mem_append.1 hw with hw | hw
    · exact le_of_lt (pairwise_below (inorder l) x v (inorder r) ho rfl (y, w) hw)
    · rcases List.mem_cons.1 hw with hw | hw
      · simp only [Prod.mk.injEq] at hw; exact le_of_eq hw.1
      · exact absurd (hr _ hw) (not_lt_of_lt hyk)
  · right
    refine ⟨h1, fun y hy hyk => ?_⟩
    obtain ⟨w, hw⟩ := mem_keys.1 hy
    rw [← hi] at hw
    rcases List.mem_append.1 hw with hw | hw
    · exact absurd (hl _ hw) (not_lt_of_lt hyk)
    · rcases List.mem_cons.1 hw with hw | hw
      · simp only [Prod.mk.injEq] at hw; exact le_of_eq hw.1.symm
      · exact le_of_lt (pairwise_above (inorder l) x v (inorder r) ho rfl (y, w) hw)

theorem splay_absent_key_root_witness :
    (node.mk 5 50 (node.mk 2 20 .null_node .null_node)
        (node.mk 8 80 .null_node .null_node) : node Nat Nat) ≠ .null_node ∧
    ordered (node.mk 5 50 (node.mk 2 20 .null_node .null_node)
        (node.mk 8 80 .null_node .null_node) : node Nat Nat) ∧
    7 ∉ keys (node.mk 5 50 (node.mk 2 20 .null_node .null_node)
        (node.mk 8 80 .null_node .null_node) : node Nat Nat) ∧
    ∃ x v l r, (splay_root 7 (⟨reset_null_node, node.mk 5 50
        (node.mk 2 20 .null_node .null_node) (node.mk 8 80 .null_node .null_node)⟩ :
          splay_tree Nat Nat)).root = node.mk x v l r ∧ (x < 7 ∨ 7 < x) := by
  have ho : ordered (node.mk 5 50 (node.mk 2 20 .null_node .null_node)
      (node.mk 8 80 .null_node .null_node) : node Nat Nat) := by
    simp [ordered, inorder]
  have hk : 7 ∉ keys (node.mk 5 50 (node.mk 2 20 .null_node .null_node)
      (node.mk 8 80 .null_node .null_node) : node Nat Nat) := by
    simp [keys, inorder]
  obtain ⟨x, v, l, r, h1, _, h2⟩ := splay_absent_key_root 7
    (⟨reset_null_node, node.mk 5 50 (node.mk 2 20 .null_node .null_node)
      (node.mk 8 80 .null_node .null_node)⟩ : splay_tree Nat Nat) (by simp) ho hk
  exact ⟨by simp, ho, hk, x, v, l, r, h1, h2.imp (fun h => h.1) (fun h => h.1)⟩

/-- C16. For every key `k` and every link `n`, `splay(k, n)` only restructures:
the in-order sequence of key/value pairs under `n` is the same after the call
as before it, so is the number of nodes, and a real node stays a real node. -/
theorem splay_only_restructures (k : K) (s : sentinel K T) (n : node K T) :
    inorder (splay k s n).2 = inorder n ∧ size (splay k s n).2 = size n ∧
    is_null (splay k s n).2 = is_null n := by
  have h := inorder_splay k s n
  refine ⟨h, by rw [size_eq_length, size_eq_length, h], ?_⟩
  cases n with
  | null_node => simp [splay_null]
  | mk a b c d =>
    obtain ⟨x, v, l, r, h1, _, _⟩ := splay_real k s (.mk a b c d) rfl
    rw [h1]; rfl

/-- A pass through the loop body that does not `break` moves the working node
to a real node with strictly fewer nodes under it. -/
theorem splay_body_descends (k : K) (s : sentinel K T) (hs : s.key = k)
    (st : node K T × List (linked K T) × List (linked K T))
    (h : (splay_body k s st).1 = true) :
    size (splay_body k s st).2.1 < size st.1 ∧ is_null (splay_body k s st).2.1 = false := by
  obtain ⟨n, lt, rt⟩ := st
  cases n with
  | null_node => simp [splay_body, node.key, hs] at h
  | mk x v l r =>
    rcases lt_trichotomy k x with hk | hk | hk
    · cases l with
      | null_node => simp [splay_body, node.key, node.left, hs, hk, is_null] at h
      | mk y w ll lr =>
        by_cases h1 : k < y
        · cases ll with
          | null_node =>
            simp [splay_body, node.key, node.left, hk, h1, is_null, left_rotation] at h
          | mk z u a b =>
            simp only [splay_body, node.key, node.left, hk, h1, is_null, left_rotation,
              if_true, Bool.false_eq_true, if_false, size]
            exact ⟨by omega, trivial⟩
        · simp only [splay_body, node.key, node.left, hk, h1, is_null,
            if_true, Bool.false_eq_true, if_false, size]
          exact ⟨by omega, trivial⟩
    · subst hk
      simp [splay_body, node.key] at h
    · have hk' : ¬ k < x := not_lt_of_lt hk
      cases r with
      | null_node => simp [splay_body, node.key, node.right, hs, hk, hk', is_null] at h
      | mk y w rl rr =>
        by_cases h1 : y < k
        · cases rr with
          | null_node =>
            simp [splay_body, node.key, node.right, hk, hk', h1, is_null, right_rotation] at h
          | mk z u a b =>
            simp only [splay_body, node.key, node.right, hk, hk', h1, is_null, right_rotation,
              if_true, Bool.false_eq_true, if_false, size]
            exact ⟨by omega, trivial⟩
        · simp only [splay_body, node.key, node.right, hk, hk', h1, is_null,
            if_true, Bool.false_eq_true, if_false, size]
          exact ⟨by omega, trivial⟩

/-- With `size n` iterations allowed the loop stands at a `break`: one more
pass through the body leaves at once. -/
theorem splay_loop_at_break (k : K) (s : sentinel K T) (hs : s.key = k) (f : Nat)
    (n : node K T) (lt rt : List (linked K T)) (hf : size n ≤ f) :
    (splay_body k s (splay_loop k s f n lt rt)).1 = false := by
  have key := splay_loop_induct k s hs
    (fun f n _ _ res => size n ≤ f → (splay_body k s res).1 = false)
    ?_ ?_ ?_ ?_ ?_ ?_ ?_ ?_ ?_ ?_ ?_ f n lt rt
  · exact key hf
  · intro x v l r lt rt h; simp [size] at h
  · intro f lt rt _; simp [splay_body, node.key, hs]
  · intro f v l r lt rt _; simp [splay_body, node.key]
  · intro f x v r lt rt h _; simp [splay_body, node.key, node.left, hs, h, is_null]
  · intro f x y v w lr r lt rt h h1 _
    simp [splay_body, node.key, node.left, hs, h1, is_null]
  · intro f x y z v w u a b lr r lt rt res h h1 ih hsz
    apply ih; simp only [size] at hsz ⊢; omega
  · intro f x y v w ll lr r lt rt res h h1 ih hsz
    apply ih; simp only [size] at hsz ⊢; omega
  · intro f x v l lt rt h _
    simp [splay_body, node.key, node.right, hs, h, not_lt_of_lt h, is_null]
  · intro f x y v w l rl lt rt h h1 _
    simp [splay_body, node.key, node.right, hs, h1, not_lt_of_lt h1, is_null]
  · intro f x y z v w u l rl a b lt rt res h h1 ih hsz
    apply ih; simp only [size] at hsz ⊢; omega
  · intro f x y v w l rl rr lt rt res h h1 ih hsz
    apply ih; simp only [size] at hsz ⊢; omega

/-- C17. With the sentinel key set to `k`, the loop of `splay(k, n)` ends,
whether `k` is present or not: the loop is the repetition of its body; a pass
through the body either leaves by `break` or moves the working node to a real
node with strictly fewer nodes under it; within `size n` passes the loop
stands at a `break`, and allowing more passes changes nothing; started at a
real node the working node is never the sentinel. -/
theorem splay_loop_terminates (k : K) (s : sentinel K T) (n : node K T)
    (lt rt : List (linked K T)) :
    (∀ f, splay_loop k { s with key := k } (f + 1) n lt rt
      = if (splay_body k { s with key := k } (n, lt, rt)).1 = true then
          splay_loop k { s with key := k } f (splay_body k { s with key := k } (n, lt, rt)).2.1
            (splay_body k { s with key := k } (n, lt, rt)).2.2.1
            (splay_body k { s with key := k } (n, lt, rt)).2.2.2
        else (splay_body k { s with key := k } (n, lt, rt)).2) ∧
    ((splay_body k { s with key := k } (n, lt, rt)).1 = true →
      size (splay_body k { s with key := k } (n, lt, rt)).2.1 < size n ∧
      is_null (splay_body k { s with key := k } (n, lt, rt)).2.1 = false) ∧
    (∀ f, size n ≤ f →
      (splay_body k { s with key := k } (splay_loop k { s with key := k } f n lt rt)).1 = false ∧
      splay_loop k { s with key := k } f n lt rt
        = splay_loop k { s with key := k } (size n) n lt rt) ∧
    (∀ f, is_null (splay_loop k { s with key := k } f n lt rt).1 = is_null n) :=
  ⟨fun f => splay_loop_succ_body k _ f n lt rt,
   splay_body_descends k _ rfl (n, lt, rt),
   fun f hf => ⟨splay_loop_at_break k _ rfl f n lt rt hf, splay_loop_fuel k _ rfl f n lt rt hf⟩,
   fun f => splay_loop_is_null k _ rfl f n lt rt⟩

/-- C18. On a non-empty tree with the ordering invariant that does not contain
`k`, `insert(k, v)` returns true and makes a new root with key `k` and value `v`
whose left subtree holds exactly the old entries below `k` and whose right
subtree holds exactly the old entries above `k`; the root left by the splay is
one of its two children, with its link on the side handed to the new node set
to the sentinel. -/
theorem insert_absent_split (k : K) (v : T) (t : splay_tree K T) (hne : t.root ≠ .null_node)
    (ho : ordered t.root) (hk : k ∉ keys t.root) :
    ∃ x w l r L R, (splay_root k t).root = .mk x w l r ∧
      (insert k v t).1 = true ∧ (insert k v t).2.root = .mk k v L R ∧
      ((k < x ∧ L = l ∧ R = .mk x w .null_node r) ∨
       (x < k ∧ L = .mk x w l .null_node ∧ R = r)) ∧
      inorder L = (inorder t.root).filter (fun p => decide (p.1 < k)) ∧
      inorder R = (inorder t.root).filter (fun p => decide (k < p.1)) ∧
      size (insert k v t).2.root = size t.root + 1 := by
  have hn : is_null t.root = false := is_null_eq_false_iff.2 hne
  obtain ⟨x, w, l, r, h, hi, hb⟩ := splay_root_real k t hn
  obtain ⟨hl, hr⟩ := hb ho
  have hx : x ∈ keys t.root := mem_keys.2 ⟨w, by rw [← hi]; simp⟩
  have hxk : x ≠ k := fun e => hk (e ▸ hx)
  have hsz : size t.root = size l + 1 + size r := by
    rw [size_eq_length, ← hi, size_eq_length, size_eq_length]
    simp only [List.length_append, List.length_cons]; omega
  rcases lt_or_gt_of_ne hxk with h1 | h1
  · have h1' : ¬ k < x := not_lt_of_lt h1
    refine ⟨x, w, l, r, .mk x w l .null_node, r, by rw [h], ?_, ?_, Or.inr ⟨h1, rfl, rfl⟩,
      ?_, ?_, ?_⟩
    · simp [insert, hn, h, h1, h1']
    · simp [insert, hn, h, h1, h1', get_new_node]
    · have := filter_lt_append k (inorder l ++ [(x, w)]) (inorder r)
        (by
          intro p hp
          rcases List.mem_append.1 hp with hp | hp
          · exact hl p hp
          · rw [List.mem_singleton] at hp; subst hp; exact h1)
        (fun p hp => le_of_lt (hr p hp))
      rw [← hi]
      simpa [inorder] using this.symm
    · have := filter_gt_append k (inorder l ++ [(x, w)]) (inorder r)
        (by
          intro p hp
          rcases List.mem_append.1 hp with hp | hp
          · exact le_of_lt (hl p hp)
          · rw [List.mem_singleton] at hp; subst hp; exact le_of_lt h1) hr
      rw [← hi]
      simpa using this.symm
    · simp only [insert, hn, h, h1, h1', get_new_node, Bool.false_eq_true, if_false, if_true,
        size, hsz]
      omega
  · refine ⟨x, w, l, r, l, .mk x w .null_node r, by rw [h], ?_, ?_, Or.inl ⟨h1, rfl, rfl⟩,
      ?_, ?_, ?_⟩
    · simp [insert, hn, h, h1]
    · simp [insert, hn, h, h1, get_new_node]
    · have := filter_lt_append k (inorder l) ((x, w) :: inorder r) hl
        (by
          intro p hp
          rcases List.mem_cons.1 hp with rfl | hp
          · exact le_of_lt h1
          · exact le_of_lt (hr p hp))
      rw [← hi]
      exact this.symm
    · have := filter_gt_append k (inorder l) ((x, w) :: inorder r)
        (fun p hp => le_of_lt (hl p hp))
        (by
          intro p hp
          rcases List.mem_cons.1 hp with rfl | hp
          · exact h1
          · exact hr p hp)
      rw [← hi]
      simpa [inorder] using this.symm
    · simp only [insert, hn, h, h1, get_new_node, Bool.false_eq_true, if_false, if_true,
        size, hsz]
      omega


/-- C19. In `remove(k)` with `k` at the root of an ordered tree and a non-empty
left subtree `L`, the second splay of `k` inside `L` ends at a real node that
holds the greatest key of `L` and whose right link is the sentinel, with the
rest of `L` under its left link; so after `new_root->right = root->right` the
tree holds every entry of `L` followed by every entry of the old right
subtree. -/
theorem remove_second_splay (k : K) (v : T) (L r : node K T) (t : splay_tree K T)
    (hroot : t.root = .mk k v L r) (hL : L ≠ .null_node) (ho : ordered t.root) :
    ∃ x w l, (splay k (splay_root k t).null L).2 = .mk x w l .null_node ∧
      inorder l ++ [(x, w)] = inorder L ∧ (∀ p ∈ inorder L, p.1 ≤ x) ∧
      (remove k t).root = .mk x w l r ∧
      inorder (remove k t).root = inorder L ++ inorder r := by
  have h := splay_root_eq_key k v L r t hroot
  have hnL : is_null L = false := is_null_eq_false_iff.2 hL
  have ho' := ho
  unfold ordered at ho'
  rw [hroot, inorder] at ho'
  have hol : ordered L := (List.pairwise_append.1 ho').1
  have hlk : ∀ p ∈ inorder L, p.1 < k := pairwise_below (inorder L) k v (inorder r) ho' rfl
  obtain ⟨x, w, l, r1, h1, hi1, hb1⟩ := splay_real k ({ t.null with key := k }) L hnL
  obtain ⟨_, hr1⟩ := hb1 hol
  have hr1nil : r1 = .null_node := by
    rw [← inorder_eq_nil_iff, List.eq_nil_iff_forall_not_mem]
    intro p hp
    have h2 : p ∈ inorder L := by rw [← hi1]; simp [hp]
    exact lt_irrefl _ (lt_trans (hr1 p hp) (hlk p h2))
  subst hr1nil
  have hi2 : inorder l ++ [(x, w)] = inorder L := by simpa [inorder] using hi1
  have hrem : (remove k t).root = .mk x w l r := by
    simp [remove, h, node.key, node.left, node.right, hnL, h1, set_right]
  refine ⟨x, w, l, by rw [h]; simp [h1], hi2, ?_, hrem, ?_⟩
  · intro p hp
    unfold ordered at hol
    rw [← hi2] at hol hp
    rcases List.mem_append.1 hp with hp | hp
    · exact le_of_lt ((List.pairwise_append.1 hol).2.2 p hp (x, w) (by simp))
    · rw [List.mem_singleton] at hp; subst hp; exact le_refl _
  · rw [hrem, ← hi2]; simp [inorder]

theorem remove_second_splay_witness :
    (node.mk 2 20 .null_node .null_node : node Nat Nat) ≠ .null_node ∧
    ordered (node.mk 5 50 (node.mk 2 20 .null_node .null_node)
        (node.mk 8 80 .null_node .null_node) : node Nat Nat) ∧
    ∃ x w l, (remove 5 (⟨reset_null_node, node.mk 5 50 (node.mk 2 20 .null_node .null_node)
        (node.mk 8 80 .null_node .null_node)⟩ : splay_tree Nat Nat)).root
          = node.mk x w l (node.mk 8 80 .null_node .null_node) := by
  have ho : ordered (node.mk 5 50 (node.mk 2 20 .null_node .null_node)
      (node.mk 8 80 .null_node .null_node) : node Nat Nat) := by
    simp [ordered, inorder]
  obtain ⟨x, w, l, _, _, _, h, _⟩ := remove_second_splay 5 50
    (node.mk 2 20 .null_node .null_node) (node.mk 8 80 .null_node .null_node)
    (⟨reset_null_node, node.mk 5 50 (node.mk 2 20 .null_node .null_node)
      (node.mk 8 80 .null_node .null_node)⟩ : splay_tree Nat Nat) rfl (by simp) ho
  exact ⟨by simp, ho, x, w, l, h⟩

/-- C20. On a tree with the ordering invariant, `operator[](k)` returns the
value stored under `k` when `k` is a key and leaves the contents as they were;
otherwise it inserts `k` with the default value and returns that value; in
both cases the root afterwards is the node with key `k` whose value is the one
returned, and every entry with another key is unchanged. -/
theorem operator_index_correct [Inhabited T] (k : K) (t : splay_tree K T)
    (ho : ordered t.root) :
    (∀ v, (k, v) ∈ inorder t.root →
      (operator_index k t).1 = v ∧
      inorder (operator_index k t).2.root = inorder t.root) ∧
    (k ∉ keys t.root →
      (operator_index k t).1 = default ∧
      inorder (operator_index k t).2.root
        = (inorder t.root).filter (fun p => decide (p.1 < k)) ++
          (k, default) :: (inorder t.root).filter (fun p => decide (k < p.1))) ∧
    (∃ l r, (operator_index k t).2.root = .mk k (operator_index k t).1 l r) ∧
    (∀ p : K × T, p.1 ≠ k →
      (p ∈ inorder (operator_index k t).2.root ↔ p ∈ inorder t.root)) := by
  have hc := contains_iff k t ho
  have hic := inorder_contains k t
  have hoc : ordered (contains k t).2.root := by unfold ordered; rw [hic]; exact ho
  by_cases hk : k ∈ keys t.root
  · have hc1 : (contains k t).1 = true := hc.2 hk
    have hidx : operator_index k t
        = ((contains k t).2.root.value (contains k t).2.null, (contains k t).2) := by
      simp [operator_index, hc1]
    obtain ⟨v0, hv0⟩ := mem_keys.1 hk
    have hne : is_null t.root = false := by
      cases hr : t.root with
      | null_node => rw [hr] at hv0; simp [inorder] at hv0
      | mk _ _ _ _ => rfl
    obtain ⟨l, r, hroot⟩ := splay_root_present k v0 t ho hv0
    have hc2 : (contains k t).2 = splay_root k t := by simp [contains, empty, hne]
    have hval : (operator_index k t).1 = v0 := by
      rw [hidx, hc2, hroot]; rfl
    refine ⟨fun v hv => ?_, fun h => absurd hk h, ⟨l, r, ?_⟩, fun p _ => ?_⟩
    · rw [hval, hidx]
      exact ⟨pairwise_value_unique ho hv0 hv, hic⟩
    · rw [hval, hidx, hc2, hroot]
    · rw [hidx, hic]
  · have hc1 : (contains k t).1 = false := by
      cases h : (contains k t).1 with
      | false => rfl
      | true => exact absurd (hc.1 h) hk
    have hidx2 : (operator_index k t).2 = (insert k default (contains k t).2).2 := by
      simp [operator_index, hc1]
    obtain ⟨l, r, hroot⟩ := insert_root k default (contains k t).2 hoc
    have hval : (operator_index k t).1 = default := by
      have : (operator_index k t).1
          = (insert k default (contains k t).2).2.root.value
              (insert k default (contains k t).2).2.null := by
        simp [operator_index, hc1]
      rw [this, hroot]; rfl
    have hin := insert_inorder k default (contains k t).2 hoc
    rw [hic] at hin
    refine ⟨fun v hv => absurd (mem_keys.2 ⟨v, hv⟩) hk, fun _ => ⟨hval, by rw [hidx2, hin]⟩,
      ⟨l, r, by rw [hval, hidx2, hroot]⟩, fun p hp => ?_⟩
    rw [hidx2, hin]
    simp only [List.mem_append, List.mem_cons, List.mem_filter, decide_eq_true_eq]
    constructor
    · rintro (⟨h, _⟩ | h | ⟨h, _⟩)
      · exact h
      · exact absurd (by rw [h]) hp
      · exact h
    · intro h
      rcases lt_or_gt_of_ne hp with h1 | h1
      · exact Or.inl ⟨h, h1⟩
      · exact Or.inr (Or.inr ⟨h, h1⟩)

theorem operator_index_correct_witness :
    ordered (node.mk 5 50 (node.mk 2 20 .null_node .null_node) .null_node : node Nat Nat) ∧
    (operator_index 2 (⟨reset_null_node, node.mk 5 50 (node.mk 2 20 .null_node .null_node)
        .null_node⟩ : splay_tree Nat Nat)).1 = 20 ∧
    (operator_index 7 (⟨reset_null_node, node.mk 5 50 (node.mk 2 20 .null_node .null_node)
        .null_node⟩ : splay_tree Nat Nat)).1 = 0 := by
  have ho : ordered (node.mk 5 50 (node.mk 2 20 .null_node .null_node) .null_node :
      node Nat Nat) := by
    simp [ordered, inorder]
  refine ⟨ho, ((operator_index_correct 2 (⟨reset_null_node,
    node.mk 5 50 (node.mk 2 20 .null_node .null_node) .null_node⟩ : splay_tree Nat Nat)
      ho).1 20 (by simp [inorder])).1, ?_⟩
  decide

theorem insert_absent_split_witness :
    (node.mk 5 50 (node.mk 2 20 .null_node .null_node) .null_node : node Nat Nat)
      ≠ .null_node ∧
    ordered (node.mk 5 50 (node.mk 2 20 .null_node .null_node) .null_node : node Nat Nat) ∧
    3 ∉ keys (node.mk 5 50 (node.mk 2 20 .null_node .null_node) .null_node : node Nat Nat) ∧
    ∃ L R, (insert 3 30 (⟨reset_null_node, node.mk 5 50 (node.mk 2 20 .null_node .null_node)
        .null_node⟩ : splay_tree Nat Nat)).2.root = node.mk 3 30 L R ∧
      inorder L = [(2, 20)] ∧ inorder R = [(5, 50)] := by
  have ho : ordered (node.mk 5 50 (node.mk 2 20 .null_node .null_node) .null_node :
      node Nat Nat) := by
    simp [ordered, inorder]
  have hk : 3 ∉ keys (node.mk 5 50 (node.mk 2 20 .null_node .null_node) .null_node :
      node Nat Nat) := by
    simp [keys, inorder]
  obtain ⟨x, w, l, r, L, R, _, _, h1, _, h2, h3, _⟩ := insert_absent_split 3 30
    (⟨reset_null_node, node.mk 5 50 (node.mk 2 20 .null_node .null_node) .null_node⟩ :
      splay_tree Nat Nat) (by simp) ho hk
  refine ⟨by simp, ho, hk, L, R, h1, ?_, ?_⟩
  · rw [h2]; simp [inorder]
  · rw [h3]; simp [inorder]

end claims

/-! ## The amortized cost of splay -/

section amortized

variable [LinearOrder K]

end amortized

/-! ## The generator lcg -/

open LucasLehmer in
theorem lcg_M_prime : Nat.Prime 2147483647 := by
  have h : (mersenne 31).Prime := lucas_lehmer_sufficiency _ (by norm_num) (by norm_num)
  have e : mersenne 31 = 2147483647 := by norm_num [mersenne]
  rwa [e] at h

theorem int32_of_range (z : Int) (h1 : -2147483648 ≤ z) (h2 : z ≤ 2147483647) :
    int32 z = z := by
  unfold int32; omega

/-- For a seed other than the least and the greatest 32-bit `int`, the state
after construction lies in `1..M-1`. -/
theorem lcg_new_range (x0 : Int) (h1 : -2147483647 ≤ x0) (h2 : x0 ≤ 2147483646) :
    1 ≤ (lcg.new x0).state ∧ (lcg.new x0).state ≤ 2147483646 := by
  simp only [lcg.new, lcg.M, int32]
  split_ifs <;> omega

/-- Schrage's method: from a state `s` in `1..M-1`, `random_integer()` has no
32-bit overflow, returns `(48271 * s) mod 2147483647`, makes it the new state,
and the value lies in `1..M-1` again. -/
theorem lcg_random_integer_spec (s : Int) (h1 : 1 ≤ s) (h2 : s ≤ 2147483646) :
    lcg.A * Int.tmod s lcg.Q = int32 (lcg.A * Int.tmod s lcg.Q) ∧
    lcg.R * Int.tdiv s lcg.Q = int32 (lcg.R * Int.tdiv s lcg.Q) ∧
    lcg.tmp ⟨s⟩ = lcg.A * Int.tmod s lcg.Q - lcg.R * Int.tdiv s lcg.Q ∧
    -2147483648 ≤ lcg.tmp ⟨s⟩ + lcg.M ∧ lcg.tmp ⟨s⟩ + lcg.M ≤ 2147483647 + 2147483647 ∧
    (lcg.random_integer ⟨s⟩).1 = (48271 * s) % 2147483647 ∧
    (lcg.random_integer ⟨s⟩).2.state = (48271 * s) % 2147483647 ∧
    1 ≤ (lcg.random_integer ⟨s⟩).1 ∧ (lcg.random_integer ⟨s⟩).1 ≤ 2147483646 := by
  have hQ : lcg.Q = 44488 := by decide
  have hR : lcg.R = 3399 := by decide
  have hm : Int.tmod s 44488 = s % 44488 := Int.tmod_eq_emod (by omega) (by norm_num)
  have hd : Int.tdiv s 44488 = s / 44488 := Int.tdiv_eq_ediv (by omega) (by norm_num)
  have htmp : lcg.tmp ⟨s⟩ = 48271 * (s % 44488) - 3399 * (s / 44488) := by
    simp only [lcg.tmp, hQ, hR, lcg.A, hm, hd, int32]
    omega
  have hr0 : 0 ≤ s % 44488 := Int.emod_nonneg _ (by norm_num)
  have hr1 : s % 44488 < 44488 := Int.emod_lt_of_pos _ (by norm_num)
  have hs : 44488 * (s / 44488) + s % 44488 = s := Int.ediv_add_emod s 44488
  have hq0 : 0 ≤ s / 44488 := by omega
  have hq1 : s / 44488 ≤ 48271 := by omega
  have hval : (lcg.random_integer ⟨s⟩).1 = (48271 * s) % 2147483647 := by
    simp only [lcg.random_integer, htmp, lcg.M]
    generalize hT : 48271 * (s % 44488) - 3399 * (s / 44488) = tmp
    have ht1 : -2147483647 < tmp := by omega
    have ht2 : tmp < 2147483647 := by omega
    split_ifs with hpos
    · have e : 48271 * s = tmp + 2147483647 * (s / 44488) := by omega
      rw [e, Int.add_mul_emod_self_left]
      exact (Int.emod_eq_of_lt hpos ht2).symm
    · have e : 48271 * s = (tmp + 2147483647) + 2147483647 * (s / 44488 - 1) := by omega
      rw [int32_of_range _ (by omega) (by omega), e, Int.add_mul_emod_self_left]
      exact (Int.emod_eq_of_lt (by omega) (by omega)).symm
  have hne : (48271 * s) % 2147483647 ≠ 0 := by
    intro h0
    have hdvd : (2147483647 : Int) ∣ 48271 * s := Int.dvd_of_emod_eq_zero h0
    have hp : Prime (2147483647 : Int) := by
      have := Nat.prime_iff_prime_int.1 lcg_M_prime
      simpa using this
    rcases hp.dvd_or_dvd hdvd with h | h
    · have := Int.le_of_dvd (by norm_num) h
      omega
    · have := Int.le_of_dvd (by omega) h
      omega
  refine ⟨?_, ?_, ?_, ?_, ?_, hval, ?_, ?_, ?_⟩
  · simp only [hQ, lcg.A, hm, int32]; omega
  · simp only [hQ, hR, hd, int32]; omega
  · simp only [htmp, hQ, hR, lcg.A, hm, hd]
  · simp only [htmp, lcg.M]; omega
  · simp only [htmp, lcg.M]; omega
  · have := hval
    simp only [lcg.random_integer] at this ⊢
    exact this
  · rw [hval]; omega
  · rw [hval]; omega

/-- C22 (the code at the failing inputs). The seed `2147483647` (the greatest
`int`, equal to `M`) is kept as the state, outside `1..M-1`, and from it
`random_integer()` returns 0 and keeps returning 0; the seed `-2147483648` gives
the state `-1`. -/
theorem lcg_seed_out_of_range :
    (lcg.new 2147483647).state = 2147483647 ∧
    (lcg.random_integer (lcg.new 2147483647)).1 = 0 ∧
    (lcg.random_integer (lcg.random_integer (lcg.new 2147483647)).2).1 = 0 ∧
    (lcg.new (-2147483648)).state = -1 := by
  decide


/-! ## modexp -/

theorem int64_of_range (z : Int) (h1 : -9223372036854775808 ≤ z)
    (h2 : z ≤ 9223372036854775807) : int64 z = z := by
  unfold int64; omega

theorem int64_mul_lt (x y n : Int) (hx0 : 0 ≤ x) (hx : x < n) (hy0 : 0 ≤ y) (hy : y < n)
    (hn : n ≤ 2147483648) : int64 (x * y) = x * y := by
  apply int64_of_range
  · have := mul_nonneg hx0 hy0
    omega
  · have h1 : x * y ≤ 2147483648 * 2147483648 :=
      mul_le_mul (by omega) (by omega) hy0 (by norm_num)
    omega

theorem modexp_pos (fuel : Nat) (a b n : Int) (ha : 0 ≤ a) (hb : 1 ≤ b) (hn1 : 1 ≤ n)
    (hn2 : n ≤ 2147483648) (hb2 : b ≤ 9223372036854775807) (hf : b.toNat < fuel) :
    math.modexp fuel a b n = some (a ^ b.toNat % n) := by
  induction fuel generalizing a b with
  | zero => omega
  | succ fuel ih =>
    have hnpos : 0 < n := by omega
    have hb0 : b ≠ 0 := by omega
    by_cases hb1 : b = 1
    · subst hb1
      simp [math.modexp, Int.tmod_eq_emod ha (le_of_lt hnpos)]
    · have hx0 : 0 ≤ a % n := Int.emod_nonneg _ (by omega)
      have hx1 : a % n < n := Int.emod_lt_of_pos _ hnpos
      by_cases ho : math.odd b = true
      · have hrec := ih a (b - 1) ha (by omega) (by omega) (by omega)
        have hr0 : 0 ≤ a ^ (b - 1).toNat % n := Int.emod_nonneg _ (by omega)
        have hr1 : a ^ (b - 1).toNat % n < n := Int.emod_lt_of_pos _ hnpos
        have hpow : a ^ b.toNat = a * a ^ (b - 1).toNat := by
          have : b.toNat = (b - 1).toNat + 1 := by omega
          rw [this, pow_succ]; ring
        simp only [math.modexp, hb0, hb1, ho, if_true, if_false,
          int64_of_range (b - 1) (by omega) (by omega), hrec, Option.map_some',
          Int.tmod_eq_emod ha (le_of_lt hnpos), int64_mul_lt _ _ n hx0 hx1 hr0 hr1 hn2]
        rw [Int.tmod_eq_emod (mul_nonneg hx0 hr0) (le_of_lt hnpos), hpow, ← Int.mul_emod]
      · have hev : b % 2 = 0 := by
          simp only [math.odd, decide_eq_true_eq, ne_eq, not_not] at ho
          exact ho
        have hxx0 : 0 ≤ (a % n) * (a % n) % n := Int.emod_nonneg _ (by omega)
        have hdiv : Int.tdiv b 2 = b / 2 := Int.tdiv_eq_ediv (by omega) (by norm_num)
        have hrec := ih ((a % n) * (a % n) % n) (b / 2) hxx0 (by omega) (by omega) (by omega)
        have hr0 : 0 ≤ ((a % n) * (a % n) % n) ^ (b / 2).toNat % n :=
          Int.emod_nonneg _ (by omega)
        have hpow : a ^ b.toNat = (a * a) ^ (b / 2).toNat := by
          have : b.toNat = 2 * (b / 2).toNat := by omega
          rw [this, pow_mul, pow_two]
        have hmod : ((a % n) * (a % n) % n) ^ (b / 2).toNat % n
            = (a * a) ^ (b / 2).toNat % n := by
          have h1 : (a % n) * (a % n) % n = (a * a) % n := (Int.mul_emod a a n).symm
          rw [h1]
          exact (Int.ModEq.pow _ (Int.mod_modEq (a * a) n))
        simp only [math.modexp, hb0, hb1, ho, if_false, Bool.false_eq_true,
          Int.tmod_eq_emod ha (le_of_lt hnpos), int64_mul_lt _ _ n hx0 hx1 hx0 hx1 hn2]
        rw [Int.tmod_eq_emod (mul_nonneg hx0 hx0) (le_of_lt hnpos), hdiv, hrec]
        simp only [Option.map_some']
        rw [Int.tmod_eq_emod hr0 (le_of_lt hnpos), Int.emod_emod_of_dvd _ (dvd_refl n), hmod,
          hpow]

/-- For a base `a >= 0`, an exponent `b >= 0` and a modulus `1 <= n <= 2^31`,
other than the exponent 0 with the modulus 1, `modexp` returns `a^b mod n` as
soon as the recursion depth allowed exceeds `b`, with no 64-bit overflow on
the way. -/
theorem modexp_spec (fuel : Nat) (a b n : Int) (ha : 0 ≤ a) (hb : 0 ≤ b) (hn1 : 1 ≤ n)
    (hn2 : n ≤ 2147483648) (hb2 : b ≤ 9223372036854775807) (hbn : 1 ≤ b ∨ 2 ≤ n)
    (hf : b.toNat < fuel) :
    math.modexp fuel a b n = some (a ^ b.toNat % n) := by
  by_cases h0 : b = 0
  · subst h0
    have hn : 2 ≤ n := by omega
    have e : (1 : Int) % n = 1 := Int.emod_eq_of_lt (by norm_num) (by omega)
    cases fuel with
    | zero => omega
    | succ fuel => simp [math.modexp, e]
  · exact modexp_pos fuel a b n ha (by omega) hn1 hn2 hb2 hf

theorem modexp_spec_witness : math.modexp 11 3 10 7 = some (3 ^ (10 : Int).toNat % 7) :=
  modexp_spec 11 3 10 7 (by decide) (by decide) (by decide) (by decide) (by decide)
    (by decide) (by decide)

/-- C26 (the code at the failing input). With the exponent 0 and the modulus 1,
`modexp` returns 1 whatever the base, where `a^0 mod 1` is 0: the branch
`if (b == 0) return 1;` does not reduce its result modulo `n`. -/
theorem modexp_zero_exponent_modulus_one (fuel : Nat) (a : Int) :
    math.modexp (fuel + 1) a 0 1 = some 1 ∧ a ^ (0 : Int).toNat % 1 = 0 ∧
      math.modexp (fuel + 1) a 0 1 ≠ some (a ^ (0 : Int).toNat % 1) := by
  refine ⟨by simp [math.modexp], by simp, by simp [math.modexp]⟩

/-! ## gcd -/

theorem int_shiftRight_one (x : Int) : x >>> (1 : Nat) = x / 2 := by
  rw [Int.shiftRight_eq_div_pow]; norm_num

theorem math_even_iff (x : Int) : math.even x = true ↔ x % 2 = 0 := by
  simp [math.even]

theorem gcd_two_mul_left (a y : Int) (hy : y % 2 = 1) : Int.gcd (2 * a) y = Int.gcd a y := by
  have hc : Nat.Coprime 2 y.natAbs := by
    rw [Nat.coprime_two_left, Int.natAbs_odd, Int.odd_iff]
    exact hy
  simp only [Int.gcd, Int.natAbs_mul]
  exact Nat.Coprime.gcd_mul_left_cancel _ hc

theorem gcd_two_mul_right (x b : Int) (hx : x % 2 = 1) : Int.gcd x (2 * b) = Int.gcd x b := by
  rw [Int.gcd_comm, gcd_two_mul_left b x hx, Int.gcd_comm]

theorem gcd_halve_left (fuel : Nat) (x : Int) (hx : 0 < x) (hf : x.toNat < fuel) :
    ∃ x1, math.gcd_halve fuel x = some x1 ∧ 0 < x1 ∧ x1 ≤ x ∧ x1 % 2 = 1 ∧
      ∀ y : Int, y % 2 = 1 → Int.gcd x1 y = Int.gcd x y := by
  induction fuel generalizing x with
  | zero => omega
  | succ fuel ih =>
    by_cases he : x % 2 = 0
    · obtain ⟨x1, h1, h2, h3, h4, h5⟩ := ih (x / 2) (by omega) (by omega)
      refine ⟨x1, ?_, h2, by omega, h4, fun y hy => ?_⟩
      · simp [math.gcd_halve, (math_even_iff x).2 he, int_shiftRight_one, h1]
      · rw [h5 y hy]
        have e : x = 2 * (x / 2) := by omega
        conv_rhs => rw [e]
        exact (gcd_two_mul_left _ y hy).symm
    · refine ⟨x, ?_, hx, le_refl x, by omega, fun y _ => rfl⟩
      have : math.even x = false := by
        rw [← Bool.not_eq_true, math_even_iff]; exact he
      simp [math.gcd_halve, this]

theorem gcd_sub_half (a b : Int) (ha : a % 2 = 1) (hb : b % 2 = 1) :
    Int.gcd ((a - b) / 2) b = Int.gcd a b := by
  have e : a - b = 2 * ((a - b) / 2) := by omega
  rw [← gcd_two_mul_left _ b hb, ← e]
  apply Nat.dvd_antisymm
  · refine Int.natCast_dvd_natCast.1 (Int.dvd_gcd ?_ Int.gcd_dvd_right)
    have h := dvd_add (Int.gcd_dvd_left (a := a - b) (b := b)) (Int.gcd_dvd_right (a := a - b) (b := b))
    simpa using h
  · refine Int.natCast_dvd_natCast.1 (Int.dvd_gcd ?_ Int.gcd_dvd_right)
    exact dvd_sub (Int.gcd_dvd_left (a := a) (b := b)) (Int.gcd_dvd_right (a := a) (b := b))

theorem gcd_loop_spec (inner fuel : Nat) (x y : Int) (hx : 0 ≤ x) (hy : 0 < y)
    (hxy : ¬ (x % 2 = 0 ∧ y % 2 = 0)) (hx2 : x ≤ 9223372036854775807)
    (hy2 : y ≤ 9223372036854775807) (hi : x.toNat + y.toNat < inner)
    (hf : x.toNat + y.toNat < fuel) :
    math.gcd_loop inner fuel x y = some (Int.gcd x y : Int) := by
  induction fuel generalizing x y with
  | zero => omega
  | succ fuel ih =>
    by_cases h0 : x = 0
    · subst h0
      simp only [math.gcd_loop, ne_eq, not_true_eq_false, if_false, Int.gcd_zero_left]
      rw [Int.natAbs_of_nonneg (le_of_lt hy)]
    · have hxpos : 0 < x := by omega
      obtain ⟨x1, e1, p1, q1, o1, g1⟩ := gcd_halve_left inner x hxpos (by omega)
      obtain ⟨y1, e2, p2, q2, o2, g2⟩ := gcd_halve_left inner y hy (by omega)
      have hg : Int.gcd x1 y1 = Int.gcd x y := by
        by_cases hxo : x % 2 = 1
        · have : Int.gcd y1 x = Int.gcd y x := g2 x hxo
          have e : x1 = x := by
            cases inner with
            | zero => omega
            | succ inner =>
              have : math.even x = false := by
                rw [← Bool.not_eq_true, math_even_iff]; omega
              simp only [math.gcd_halve, this, Bool.false_eq_true, if_false, Option.some.injEq] at e1
              exact e1.symm
          rw [e, Int.gcd_comm, g2 x hxo, Int.gcd_comm]
        · have hyo : y % 2 = 1 := by omega
          rw [Int.gcd_comm, g2 x1 o1, Int.gcd_comm, g1 y hyo]
      simp only [math.gcd_loop, h0, ne_eq, not_false_eq_true, if_true, e1, e2]
      have hsub : int64 (x1 - y1) = x1 - y1 := int64_of_range _ (by omega) (by omega)
      by_cases hge : x1 ≥ y1
      · have habs : math.abs (x1 - y1) = x1 - y1 := by
          simp only [math.abs]; rw [if_neg (by omega)]
        have ht : Int.tdiv (x1 - y1) 2 = (x1 - y1) / 2 :=
          Int.tdiv_eq_ediv (by omega) (by norm_num)
        simp only [hsub, habs, ht, hge, if_true]
        rw [ih ((x1 - y1) / 2) y1 (by omega) p2 (by omega) (by omega) (by omega) (by omega)
          (by omega), gcd_sub_half x1 y1 o1 o2, hg]
      · have habs : math.abs (x1 - y1) = y1 - x1 := by
          simp only [math.abs]; rw [if_pos (by omega)]
          rw [int64_of_range _ (by omega) (by omega)]; ring
        have ht : Int.tdiv (y1 - x1) 2 = (y1 - x1) / 2 :=
          Int.tdiv_eq_ediv (by omega) (by norm_num)
        simp only [hsub, habs, ht, hge, if_false]
        rw [ih x1 ((y1 - x1) / 2) (by omega) (by omega) (by omega) (by omega) (by omega)
          (by omega) (by omega), Int.gcd_comm, gcd_sub_half y1 x1 o2 o1, Int.gcd_comm, hg]

theorem gcd_shift_spec (fuel : Nat) (x y g : Int) (hx : 0 ≤ x) (hy : 0 < y) (hg : 0 < g)
    (hgy : g * y ≤ 9223372036854775807) (hf : y.toNat < fuel) :
    ∃ x1 y1 g1, math.gcd_shift fuel x y g = some (x1, y1, g1) ∧ 0 ≤ x1 ∧ x1 ≤ x ∧ 0 < y1 ∧
      y1 ≤ y ∧ ¬ (x1 % 2 = 0 ∧ y1 % 2 = 0) ∧ 0 < g1 ∧ g1 * y1 = g * y ∧
      g1 * (Int.gcd x1 y1 : Int) = g * (Int.gcd x y : Int) := by
  induction fuel generalizing x y g with
  | zero => omega
  | succ fuel ih =>
    by_cases he : x % 2 = 0 ∧ y % 2 = 0
    · have hy2 : y = 2 * (y / 2) := by omega
      have hx2 : x = 2 * (x / 2) := by omega
      have hgy2 : g * 2 * (y / 2) = g * y := by
        conv_rhs => rw [hy2]
        ring
      have hg2 : g * 2 ≤ 9223372036854775807 := by
        have : g * 2 * 1 ≤ g * 2 * (y / 2) :=
          mul_le_mul_of_nonneg_left (by omega) (by omega)
        omega
      obtain ⟨x1, y1, g1, e, a1, a2, a3, a4, a5, a6, a7, a8⟩ :=
        ih (x / 2) (y / 2) (g * 2) (by omega) (by omega) (by omega) (by omega) (by omega)
      refine ⟨x1, y1, g1, ?_, a1, by omega, a3, by omega, a5, a6, by rw [a7, hgy2], ?_⟩
      · simp [math.gcd_shift, (math_even_iff x).2 he.1, (math_even_iff y).2 he.2, int_shiftRight_one,
          int64_of_range (g * 2) (by omega) hg2, e]
      · rw [a8]
        conv_rhs => rw [hx2, hy2, Int.gcd_mul_left]
        push_cast
        ring
    · refine ⟨x, y, g, ?_, hx, le_refl _, hy, le_refl _, he, hg, rfl, rfl⟩
      have : (math.even x && math.even y) = false := by
        rw [← Bool.not_eq_true, Bool.and_eq_true, math_even_iff, math_even_iff]; exact he
      simp [math.gcd_shift, this]

/-- For `x >= 0` and `y > 0` that fit in 63 bits, `gcd(x, y)` returns the
greatest common divisor as soon as the number of iterations allowed exceeds
`x + y`, with no 64-bit overflow on the way. -/
theorem gcd_spec (fuel : Nat) (x y : Int) (hx : 0 ≤ x) (hy : 0 < y)
    (hx2 : x ≤ 9223372036854775807) (hy2 : y ≤ 9223372036854775807)
    (hf : x.toNat + y.toNat < fuel) :
    math.gcd fuel x y = some (Int.gcd x y : Int) := by
  obtain ⟨x1, y1, g1, e, a1, a2, a3, a4, a5, a6, a7, a8⟩ :=
    gcd_shift_spec fuel x y 1 hx hy (by norm_num) (by omega) (by omega)
  have hl := gcd_loop_spec fuel fuel x1 y1 a1 a3 a5 (by omega) (by omega) (by omega) (by omega)
  simp only [math.gcd, e, hl, Option.map_some', a8, one_mul, Option.some.injEq]
  apply int64_of_range
  · have : (0 : Int) ≤ (Int.gcd x y : Int) := Int.natCast_nonneg _
    omega
  · have : (Int.gcd x y : Int) ≤ y := Int.le_of_dvd hy Int.gcd_dvd_right
    omega

theorem gcd_spec_witness : math.gcd 31 12 18 = some (Int.gcd 12 18 : Int) :=
  gcd_spec 31 12 18 (by decide) (by decide) (by decide) (by decide) (by decide)

theorem math_even_zero : math.even 0 = true := by decide

theorem gcd_halve_zero (fuel : Nat) : math.gcd_halve fuel 0 = none := by
  induction fuel with
  | zero => rfl
  | succ fuel ih => simpa [math.gcd_halve, math_even_zero] using ih

theorem int_shiftRight_one_ne_zero (x : Int) (hx : x ≠ 0) (he : math.even x = true) :
    x >>> (1 : Nat) ≠ 0 := by
  simp only [math.even, decide_eq_true_eq] at he
  rw [Int.shiftRight_eq_div_pow]
  norm_num
  omega

theorem gcd_shift_right_zero (fuel : Nat) (x g : Int) (hx : x ≠ 0) :
    math.gcd_shift fuel x 0 g = none ∨
      ∃ x1 g1, x1 ≠ 0 ∧ math.gcd_shift fuel x 0 g = some (x1, 0, g1) := by
  induction fuel generalizing x g with
  | zero => exact Or.inl rfl
  | succ fuel ih =>
    by_cases he : math.even x = true
    · have h0 : (0 : Int) >>> (1 : Nat) = 0 := by decide
      simp only [math.gcd_shift, he, math_even_zero, Bool.and_self, if_true, h0]
      exact ih _ _ (int_shiftRight_one_ne_zero x hx he)
    · right
      exact ⟨x, g, hx, by simp [math.gcd_shift, he]⟩

/-- C23 (the code at the failing inputs). With `y = 0` and any `x` other than 0,
`gcd(x, y)` does not return, whatever the number of iterations allowed: the
inner loop `while (even(y)) y >>= 1;` is entered with `y = 0` and never left. -/
theorem gcd_second_zero_diverges (fuel : Nat) (x : Int) (hx : x ≠ 0) :
    math.gcd fuel x 0 = none := by
  rcases gcd_shift_right_zero fuel x 1 hx with h | ⟨x1, g1, hx1, h⟩
  · simp [math.gcd, h]
  · simp only [math.gcd, h]
    cases fuel with
    | zero => rfl
    | succ fuel =>
      simp only [math.gcd_loop, hx1, ne_eq, not_false_eq_true, if_true, gcd_halve_zero]
      cases math.gcd_halve (fuel + 1) x1 <;> rfl

theorem gcd_second_zero_diverges_witness :
    (1 : Int) ≠ 0 ∧ math.gcd 1000 1 0 = none :=
  ⟨by decide, gcd_second_zero_diverges 1000 1 (by decide)⟩


/-! ## The class primes -/

theorem set_insert_append (x : Int) (l : List Int) (h : ∀ y ∈ l, y < x) :
    math.set_insert x l = l ++ [x] := by
  induction l with
  | nil => rfl
  | cons y ys ih =>
    have hy : y < x := h y (List.mem_cons_self _ _)
    have h1 : ¬ x < y := not_lt.2 (le_of_lt hy)
    have h2 : ¬ x = y := ne_of_gt hy
    simp only [math.set_insert, h1, h2, if_false, List.cons_append]
    rw [ih (fun z hz => h z (List.mem_cons_of_mem _ hz))]

theorem foldl_set_insert_sorted (l acc : List Int) (h : (acc ++ l).Pairwise (· < ·)) :
    l.foldl (fun s x => math.set_insert x s) acc = acc ++ l := by
  induction l generalizing acc with
  | nil => simp
  | cons x xs ih =>
    have hx : ∀ y ∈ acc, y < x := fun y hy =>
      (List.pairwise_append.1 h).2.2 y hy x (List.mem_cons_self _ _)
    have e : acc ++ x :: xs = (acc ++ [x]) ++ xs := by simp
    rw [List.foldl_cons, set_insert_append x acc hx, ih (acc ++ [x]) (e ▸ h), e]

set_option maxRecDepth 100000 in
theorem primes_p_sorted : math.primes.p.Pairwise (· < ·) :=
  List.chain'_iff_pairwise.1 (by simp [math.primes.p])

/-- The table `p` is increasing, so the set built by the constructor lists it
in the order of the table. -/
theorem primes_new_eq : math.primes.new = { _primes := math.primes.p, lkp := 997 } := by
  have h := foldl_set_insert_sorted math.primes.p [] (by simpa using primes_p_sorted)
  simp only [math.primes.new, h, List.nil_append]

theorem sqrt_1018081 : Int.sqrt 1018081 = 1009 := by
  have h : Nat.sqrt 1018081 = 1009 := by
    have e : (1018081 : Nat) = 1009 * 1009 := by norm_num
    rw [e, Nat.sqrt_eq]
  simp [Int.sqrt, h]

theorem table_no_divisor_1018081 :
    math.primes.p.any (fun q => decide (Int.tmod 1018081 q = 0)) = false := by
  decide

theorem table_not_mem_1018081 : (1018081 : Int) ∉ math.primes.p := by
  decide

theorem is_prime_for_1018081 (fuel : Nat) :
    math.primes.is_prime_for 1018081 1009 (fuel + 6) 999 = some none := by
  have e1 : int64 (999 + 2) = 1001 := by decide
  have e2 : int64 (1001 + 2) = 1003 := by decide
  have e3 : int64 (1003 + 2) = 1005 := by decide
  have e4 : int64 (1005 + 2) = 1007 := by decide
  have e5 : int64 (1007 + 2) = 1009 := by decide
  have d1 : Int.tmod 1018081 999 ≠ 0 := by decide
  have d2 : Int.tmod 1018081 1001 ≠ 0 := by decide
  have d3 : Int.tmod 1018081 1003 ≠ 0 := by decide
  have d4 : Int.tmod 1018081 1005 ≠ 0 := by decide
  have d5 : Int.tmod 1018081 1007 ≠ 0 := by decide
  simp only [math.primes.is_prime_for, e1, e2, e3, e4, e5, d1, d2, d3, d4, d5, if_false,
    show (999 : Int) < 1009 by decide, show (1001 : Int) < 1009 by decide,
    show (1003 : Int) < 1009 by decide, show (1005 : Int) < 1009 by decide,
    show (1007 : Int) < 1009 by decide, if_true, lt_self_iff_false]

/-- C24 (the code at the failing input). On a freshly constructed object,
`is_prime(1018081)` returns true as soon as six iterations of the last loop
are allowed, although `1018081 = 1009 * 1009` is not prime: the loop runs over
`i < max` with `max = 1009` the integer square root and never tries `1009`. -/
theorem is_prime_square_of_1009 (fuel : Nat) :
    (math.primes.is_prime (fuel + 6) math.primes.new 1018081).map Prod.fst = some true ∧
      (1018081 : Int) = 1009 * 1009 ∧ ¬ Nat.Prime 1018081 := by
  refine ⟨?_, by norm_num, Nat.not_prime_mul' (show 1009 * 1009 = 1018081 by norm_num)
    (by norm_num) (by norm_num)⟩
  have e0 : int64 (997 + 2) = 999 := by decide
  have h1 : ¬ ((1018081 : Int) < 2) := by decide
  have h2 : ¬ ((1018081 : Int) = 2) := by decide
  have h3 : math.even 1018081 = false := by decide
  rw [primes_new_eq]
  unfold math.primes.is_prime
  rw [if_neg h1, if_neg h2, h3, if_neg Bool.false_ne_true, if_neg table_not_mem_1018081,
    table_no_divisor_1018081, if_neg Bool.false_ne_true, sqrt_1018081, e0]
  dsimp only
  rw [is_prime_for_1018081]
  rfl

theorem factorize_do_diverges (n i : Int) (h : Int.tmod n i = 0) (fuel : Nat) (d : Int)
    (count : Nat) : math.primes.factorize_do n i fuel d count = none := by
  induction fuel generalizing d count with
  | zero => rfl
  | succ fuel ih => simp only [math.primes.factorize_do, h, if_true, ih]

theorem factorize_table_no_divisor (fuel : Nat) (ps : List Int) (d : Int)
    (f : math.primes.factors) (h : ps.any (fun q => decide (Int.tmod d q = 0)) = false) :
    math.primes.factorize_table (fuel + 1) ps d f = some (d, f) := by
  induction ps with
  | nil => rfl
  | cons p ps ih =>
    simp only [List.any_cons, Bool.or_eq_false_iff, decide_eq_false_iff_not] at h
    simp only [math.primes.factorize_table, math.primes.factorize_while, h.1, if_false]
    exact ih h.2

theorem factorize_for_1018081 (inner fuel : Nat) (f : math.primes.factors) (ps : List Int) :
    math.primes.factorize_for 1018081 1010 inner fuel 999 1018081 f ps = none := by
  have e1 : int64 (999 + 2) = 1001 := by decide
  have e2 : int64 (1001 + 2) = 1003 := by decide
  have e3 : int64 (1003 + 2) = 1005 := by decide
  have e4 : int64 (1005 + 2) = 1007 := by decide
  have e5 : int64 (1007 + 2) = 1009 := by decide
  have d1 : Int.tmod 1018081 999 ≠ 0 := by decide
  have d2 : Int.tmod 1018081 1001 ≠ 0 := by decide
  have d3 : Int.tmod 1018081 1003 ≠ 0 := by decide
  have d4 : Int.tmod 1018081 1005 ≠ 0 := by decide
  have d5 : Int.tmod 1018081 1007 ≠ 0 := by decide
  have d6 : Int.tmod 1018081 1009 = 0 := by decide
  have hne : ¬ ((1018081 : Int) = 1) := by decide
  have c1 : (999 : Int) < 1010 := by decide
  have c2 : (1001 : Int) < 1010 := by decide
  have c3 : (1003 : Int) < 1010 := by decide
  have c4 : (1005 : Int) < 1010 := by decide
  have c5 : (1007 : Int) < 1010 := by decide
  have c6 : (1009 : Int) < 1010 := by decide
  rcases fuel with _ | _ | _ | _ | _ | _ | fuel <;>
    simp only [math.primes.factorize_for, e1, e2, e3, e4, e5, d1, d2, d3, d4, d5, d6, c1, c2,
      c3, c4, c5, c6, hne, ne_eq, not_false_eq_true, and_self, if_true, if_false,
      factorize_do_diverges 1018081 1009 d6]

theorem sqrt_1018081_succ : int64 (Int.sqrt 1018081 + 1) = 1010 := by
  rw [sqrt_1018081]; decide

/-- C25 (the code at the failing input). On a freshly constructed object,
`factorize(1018081, f)` does not return, whatever the number of iterations
allowed: no prime of the table divides `1018081 = 1009 * 1009`, the second
loop reaches `i = 1009`, and `do { d /= i; ++count; } while (n % i == 0);`
tests the argument `n`, which the loop never changes. -/
theorem factorize_square_of_1009_diverges (fuel : Nat) :
    math.primes.factorize fuel math.primes.new 1018081 = none := by
  have h1 : ¬ ((1018081 : Int) < 2) := by decide
  rw [primes_new_eq]
  unfold math.primes.factorize
  rw [if_neg h1, if_neg table_not_mem_1018081, sqrt_1018081_succ]
  cases fuel with
  | zero => rfl
  | succ fuel =>
    dsimp only
    rw [factorize_table_no_divisor fuel _ _ _ table_no_divisor_1018081]
    dsimp only
    rw [show int64 (997 + 2) = 999 by decide, factorize_for_1018081]

/-! ## dsaa::splay_tree against pads::splay_tree -/

theorem erase_is_null (n : node K T) : dsaa.is_null n.erase = is_null n := by
  cases n <;> rfl

theorem erase_size (n : node K T) : dsaa.size n.erase = size n := by
  induction n with
  | null_node => rfl
  | mk k v l r ihl ihr => simp [node.erase, dsaa.size, size, ihl, ihr]

theorem erase_left (n : node K T) (s : sentinel K T) (ds : dsaa.sentinel K)
    (h : sim_null s ds) : n.erase.left ds = (n.left s).erase := by
  cases n with
  | null_node => exact h.1.symm
  | mk k v l r => rfl

theorem erase_right (n : node K T) (s : sentinel K T) (ds : dsaa.sentinel K)
    (h : sim_null s ds) : n.erase.right ds = (n.right s).erase := by
  cases n with
  | null_node => exact h.2.1.symm
  | mk k v l r => rfl

theorem erase_value (n : node K T) (s : sentinel K T) (ds : dsaa.sentinel K)
    (h : s.key = ds.value) : n.erase.value ds = n.key s := by
  cases n with
  | null_node => exact h.symm
  | mk k v l r => rfl

theorem erase_value_real (n : node K T) (s : sentinel K T) (ds : dsaa.sentinel K)
    (h : is_null n = false) : n.erase.value ds = n.key s := by
  cases n with
  | null_node => simp [is_null] at h
  | mk k v l r => rfl

theorem erase_left_rotation (n : node K T) :
    (left_rotation n).erase = dsaa.left_rotation n.erase := by
  rcases n with _ | ⟨x, v, _ | ⟨y, w, ll, lr⟩, r⟩ <;> rfl

theorem erase_right_rotation (n : node K T) :
    (right_rotation n).erase = dsaa.right_rotation n.erase := by
  rcases n with _ | ⟨x, v, l, _ | ⟨y, w, rl, rr⟩⟩ <;> rfl

theorem erase_attach_right (lt : List (linked K T)) (t : node K T) :
    (attach_right lt t).erase = dsaa.attach_right (lt.map linked_erase) t.erase := by
  induction lt generalizing t with
  | nil => rfl
  | cons p rest ih =>
    obtain ⟨x, v, l⟩ := p
    simp only [attach_right, List.map_cons, linked_erase, dsaa.attach_right, ih, node.erase]

theorem erase_attach_left (rt : List (linked K T)) (t : node K T) :
    (attach_left rt t).erase = dsaa.attach_left (rt.map linked_erase) t.erase := by
  induction rt generalizing t with
  | nil => rfl
  | cons p rest ih =>
    obtain ⟨x, v, r⟩ := p
    simp only [attach_left, List.map_cons, linked_erase, dsaa.attach_left, ih, node.erase]

theorem erase_leftmost (n : node K T) : (leftmost n).erase = dsaa.leftmost n.erase := by
  induction n with
  | null_node => rfl
  | mk k v l r ihl _ =>
    cases l with
    | null_node => rfl
    | mk y w ll lr => simpa [leftmost, dsaa.leftmost, node.erase] using ihl

theorem erase_rightmost (n : node K T) : (rightmost n).erase = dsaa.rightmost n.erase := by
  induction n with
  | null_node => rfl
  | mk k v l r _ ihr =>
    cases r with
    | null_node => rfl
    | mk y w rl rr => simpa [rightmost, dsaa.rightmost, node.erase] using ihr

theorem leftmost_is_null (n : node K T) : is_null (leftmost n) = is_null n := by
  induction n with
  | null_node => rfl
  | mk k v l r ihl _ =>
    cases l with
    | null_node => rfl
    | mk y w ll lr => simpa [leftmost, is_null] using ihl

theorem rightmost_is_null (n : node K T) : is_null (rightmost n) = is_null n := by
  induction n with
  | null_node => rfl
  | mk k v l r _ ihr =>
    cases r with
    | null_node => rfl
    | mk y w rl rr => simpa [rightmost, is_null] using ihr

section erase_splay

variable [LinearOrder K]

theorem erase_splay_loop (k : K) (s : sentinel K T) (ds : dsaa.sentinel K)
    (h : sim_null s ds) (hk : s.key = ds.value) (fuel : Nat) (n : node K T)
    (lt rt : List (linked K T)) :
    dsaa.splay_loop k ds fuel n.erase (lt.map linked_erase) (rt.map linked_erase) =
      ((splay_loop k s fuel n lt rt).1.erase,
        (splay_loop k s fuel n lt rt).2.1.map linked_erase,
        (splay_loop k s fuel n lt rt).2.2.map linked_erase) := by
  induction fuel generalizing n lt rt with
  | zero => rfl
  | succ fuel ih =>
    simp only [splay_loop, dsaa.splay_loop, erase_value n s ds hk, erase_left n s ds h,
      erase_right n s ds h, erase_value _ s ds hk]
    by_cases h1 : k < n.key s
    · simp only [h1, if_true]
      by_cases h2 : k < (n.left s).key s
      · simp only [h2, if_true, ← erase_left_rotation, erase_left _ s ds h, erase_is_null,
          erase_value _ s ds hk, erase_right _ s ds h]
        by_cases h3 : is_null ((left_rotation n).left s) = true
        · simp only [h3, if_true]
        · simp only [h3, if_false, Bool.false_eq_true]
          exact ih ((left_rotation n).left s) lt
            (((left_rotation n).key s, (left_rotation n).value s, (left_rotation n).right s) :: rt)
      · simp only [h2, if_false, erase_left _ s ds h, erase_is_null,
          erase_value _ s ds hk, erase_right _ s ds h]
        by_cases h3 : is_null (n.left s) = true
        · simp only [h3, if_true]
        · simp only [h3, if_false, Bool.false_eq_true]
          exact ih (n.left s) lt ((n.key s, n.value s, n.right s) :: rt)
    · simp only [h1, if_false]
      by_cases h1b : n.key s < k
      · simp only [h1b, if_true]
        by_cases h2 : (n.right s).key s < k
        · simp only [h2, if_true, ← erase_right_rotation, erase_left _ s ds h, erase_is_null,
            erase_value _ s ds hk, erase_right _ s ds h]
          by_cases h3 : is_null ((right_rotation n).right s) = true
          · simp only [h3, if_true]
          · simp only [h3, if_false, Bool.false_eq_true]
            exact ih ((right_rotation n).right s)
              (((right_rotation n).key s, (right_rotation n).value s,
                (right_rotation n).left s) :: lt) rt
        · simp only [h2, if_false, erase_left _ s ds h, erase_is_null,
            erase_value _ s ds hk, erase_right _ s ds h]
          by_cases h3 : is_null (n.right s) = true
          · simp only [h3, if_true]
          · simp only [h3, if_false, Bool.false_eq_true]
            exact ih (n.right s) ((n.key s, n.value s, n.left s) :: lt) rt
      · simp only [h1b, if_false]

theorem erase_splay (k : K) (s : sentinel K T) (ds : dsaa.sentinel K) (h : sim_null s ds)
    (n : node K T) :
    (splay k s n).2.erase = (dsaa.splay k ds n.erase).2 ∧
      sim_null (splay k s n).1 (dsaa.splay k ds n.erase).1 ∧
      (splay k s n).1.key = (dsaa.splay k ds n.erase).1.value := by
  have h1 : sim_null { s with key := k } { ds with value := k } := h
  have hl := erase_splay_loop k { s with key := k } { ds with value := k } h1 rfl (size n) n
    [] []
  simp only [List.map_nil] at hl
  simp only [splay, dsaa.splay, erase_size, hl]
  rcases hr : splay_loop k { s with key := k } (size n) n [] [] with ⟨n1, lt, rt⟩
  cases n1 with
  | null_node =>
    refine ⟨rfl, ⟨?_, ?_, h.2.2⟩, rfl⟩
    · simp only [node.erase, erase_attach_right]
      exact congrArg _ (erase_left node.null_node _ _ h1).symm
    · simp only [node.erase, erase_attach_left]
      exact congrArg _ (erase_right node.null_node _ _ h1).symm
  | mk x v l r =>
    refine ⟨?_, h1, rfl⟩
    simp only [node.erase, erase_attach_right, erase_attach_left]
    rfl

theorem sim_splay_root (k : K) (t : splay_tree K T) (d : dsaa.splay_tree K) (h : sim t d) :
    sim (splay_root k t) (dsaa.splay_root k d) ∧
      (splay_root k t).null.key = (dsaa.splay_root k d).null.value := by
  have e := erase_splay k t.null d.null h.2 t.root
  rw [h.1] at e
  exact ⟨⟨e.1, e.2.1⟩, e.2.2⟩

end erase_splay

theorem sim_empty (t : splay_tree K T) (d : dsaa.splay_tree K) (h : sim t d) :
    dsaa.empty d = empty t := by
  simp only [dsaa.empty, empty, ← h.1, erase_is_null]

theorem sim_set_right (s : sentinel K T) (ds : dsaa.sentinel K) (h : sim_null s ds)
    (n r : node K T) :
    (set_right s n r).2.erase = (dsaa.set_right ds n.erase r.erase).2 ∧
      sim_null (set_right s n r).1 (dsaa.set_right ds n.erase r.erase).1 := by
  cases n with
  | null_node => exact ⟨rfl, h.1, rfl, h.2.2⟩
  | mk x v l r1 => exact ⟨rfl, h⟩

theorem sim_deallocate (s : sentinel K T) (ds : dsaa.sentinel K) (h : sim_null s ds)
    (n : node K T) : sim_null (deallocate s n) (dsaa.deallocate ds n.erase) := by
  cases n with
  | null_node => exact ⟨h.1, h.2.1, rfl⟩
  | mk x v l r => exact h

section refinement

variable [LinearOrder K]


theorem sim_contains (k : K) (t : splay_tree K T) (d : dsaa.splay_tree K) (h : sim t d) :
    (dsaa.contains k d).1 = (contains k t).1 ∧ sim (contains k t).2 (dsaa.contains k d).2 := by
  have he := sim_empty t d h
  have hs := sim_splay_root k t d h
  simp only [contains, dsaa.contains, he]
  by_cases h0 : empty t = true
  · simp only [h0, if_true]
    exact ⟨trivial, h⟩
  · simp only [h0, if_false, Bool.false_eq_true]
    refine ⟨?_, hs.1⟩
    rw [← hs.1.1, erase_value _ _ _ hs.2]

theorem sim_find_min (t : splay_tree K T) (d : dsaa.splay_tree K) (h : sim t d) :
    sim (find_min t).2 (dsaa.find_min d).2 := by
  have he := sim_empty t d h
  simp only [find_min, dsaa.find_min, he]
  by_cases h0 : empty t = true
  · simp only [h0, if_true]
    exact h
  · simp only [h0, if_false, Bool.false_eq_true]
    have hn : is_null (leftmost t.root) = false := by
      rw [leftmost_is_null]
      simpa [empty] using h0
    rw [← h.1, ← erase_leftmost, erase_value_real _ t.null d.null hn]
    exact (sim_splay_root _ t d h).1

theorem sim_find_max (t : splay_tree K T) (d : dsaa.splay_tree K) (h : sim t d) :
    sim (find_max t).2 (dsaa.find_max d).2 := by
  have he := sim_empty t d h
  simp only [find_max, dsaa.find_max, he]
  by_cases h0 : empty t = true
  · simp only [h0, if_true]
    exact h
  · simp only [h0, if_false, Bool.false_eq_true]
    have hn : is_null (rightmost t.root) = false := by
      rw [rightmost_is_null]
      simpa [empty] using h0
    rw [← h.1, ← erase_rightmost, erase_value_real _ t.null d.null hn]
    exact (sim_splay_root _ t d h).1

theorem sim_insert (k : K) (v : T) (t : splay_tree K T) (d : dsaa.splay_tree K)
    (h : sim t d) : sim (insert k v t).2 (dsaa.insert k d) := by
  have he : dsaa.is_null d.root = is_null t.root := by rw [← h.1, erase_is_null]
  have hs := (sim_splay_root k t d h).1
  simp only [insert, dsaa.insert, he]
  by_cases h0 : is_null t.root = true
  · simp only [h0, if_true]
    exact ⟨rfl, h.2⟩
  · simp only [h0, if_false, Bool.false_eq_true]
    have hr := hs.1
    rcases hroot : (splay_root k t).root with _ | ⟨x, w, l, r⟩
    · rw [hroot] at hr
      simp only [node.erase] at hr
      rw [← hr]
      exact ⟨rfl, hs.2⟩
    · rw [hroot] at hr
      simp only [node.erase] at hr
      rw [← hr]
      by_cases h1 : k < x
      · simp only [h1, if_true]
        exact ⟨rfl, hs.2⟩
      · by_cases h2 : x < k
        · simp only [h1, h2, if_true, if_false]
          exact ⟨rfl, hs.2⟩
        · simp only [h1, h2, if_false]
          have e : x = k := le_antisymm (not_lt.1 h1) (not_lt.1 h2)
          subst e
          exact ⟨rfl, hs.2⟩

theorem sim_remove (k : K) (t : splay_tree K T) (d : dsaa.splay_tree K) (h : sim t d) :
    sim (remove k t) (dsaa.remove k d) := by
  have hs := sim_splay_root k t d h
  have hv : (dsaa.splay_root k d).root.value (dsaa.splay_root k d).null =
      (splay_root k t).root.key (splay_root k t).null := by
    rw [← hs.1.1, erase_value _ _ _ hs.2]
  have hl : (dsaa.splay_root k d).root.left (dsaa.splay_root k d).null =
      ((splay_root k t).root.left (splay_root k t).null).erase := by
    rw [← hs.1.1, erase_left _ _ _ hs.1.2]
  have hr : (dsaa.splay_root k d).root.right (dsaa.splay_root k d).null =
      ((splay_root k t).root.right (splay_root k t).null).erase := by
    rw [← hs.1.1, erase_right _ _ _ hs.1.2]
  simp only [remove, dsaa.remove, hv, hl, erase_is_null]
  by_cases h1 : (splay_root k t).root.key (splay_root k t).null = k
  swap
  · simp only [h1, ne_eq, not_false_eq_true, if_true]
    exact hs.1
  · simp only [h1, ne_eq, not_true_eq_false, if_false]
    by_cases h2 : is_null ((splay_root k t).root.left (splay_root k t).null) = true
    · simp only [h2, if_true, hr]
      refine ⟨rfl, ?_⟩
      rw [← hs.1.1]
      exact sim_deallocate _ _ hs.1.2 _
    · simp only [h2, if_false, Bool.false_eq_true]
      have e := erase_splay k (splay_root k t).null (dsaa.splay_root k d).null hs.1.2
        ((splay_root k t).root.left (splay_root k t).null)
      have hr2 : (dsaa.splay_root k d).root.right
          (dsaa.splay k (dsaa.splay_root k d).null
            ((splay_root k t).root.left (splay_root k t).null).erase).1 =
          ((splay_root k t).root.right
            (splay k (splay_root k t).null
              ((splay_root k t).root.left (splay_root k t).null)).1).erase := by
        rw [← hs.1.1, erase_right _ _ _ e.2.1]
      rw [hr2, ← e.1]
      have e2 := sim_set_right _ _ e.2.1
        (splay k (splay_root k t).null ((splay_root k t).root.left (splay_root k t).null)).2
        ((splay_root k t).root.right
            (splay k (splay_root k t).null
              ((splay_root k t).root.left (splay_root k t).null)).1)
      refine ⟨e2.1, ?_⟩
      rw [← hs.1.1]
      exact sim_deallocate _ _ e2.2 _

theorem sim_apply (r : request K T) (t : splay_tree K T) (d : dsaa.splay_tree K)
    (h : sim t d) : sim (apply_op t r.keyed) (dsaa.apply_op d r.set_only) := by
  cases r with
  | insert k v => exact sim_insert k v t d h
  | remove k => exact sim_remove k t d h
  | contains k => exact (sim_contains k t d h).2
  | find_min => exact sim_find_min t d h
  | find_max => exact sim_find_max t d h

theorem sim_run (rs : List (request K T)) (t : splay_tree K T) (d : dsaa.splay_tree K)
    (h : sim t d) :
    sim (run t (rs.map request.keyed)) (dsaa.run d (rs.map request.set_only)) := by
  induction rs generalizing t d with
  | nil => exact h
  | cons r rs ih =>
    simp only [List.map_cons, run, dsaa.run, List.foldl_cons]
    exact ih _ _ (sim_apply r t d h)

end refinement

/-! ## The operations as the program runs them, and the claims about runs -/

section exec_lemmas

variable [LinearOrder K]

/-- A defined run ends in the state that the operations compute one after the
other. -/
theorem exec_eq_run (t : splay_tree K T) (ops : List (op K T)) (t1 : splay_tree K T)
    (h : exec t ops = some t1) : t1 = run t ops := by
  induction ops generalizing t with
  | nil =>
    simp only [exec, Option.some.injEq] at h
    exact h.symm
  | cons o ops ih =>
    by_cases ha : t.null.allocated = true
    · simp only [exec, exec_op, ha, if_true, Option.some_bind] at h
      exact ih _ h
    · simp [exec, exec_op, ha] at h

/-- No operation has a defined result once the sentinel has been released. -/
theorem exec_released (t : splay_tree K T) (h : t.null.allocated = false) (o : op K T)
    (ops : List (op K T)) : exec t (o :: ops) = none := by
  simp [exec, exec_op, h]

theorem exec_cons_live (t : splay_tree K T) (h : t.null.allocated = true) (o : op K T)
    (ops : List (op K T)) : exec t (o :: ops) = exec (apply_op t o) ops := by
  simp [exec, exec_op, h]

/-- After `remove(k)` on a freshly constructed tree no further operation has a
defined result. -/
theorem exec_remove_new [Inhabited K] [Inhabited T] (k : K) (o : op K T)
    (ops : List (op K T)) :
    exec (splay_tree.new : splay_tree K T) (op.remove k :: o :: ops) = none := by
  rw [exec_cons_live _ rfl]
  apply exec_released
  simp only [apply_op]
  rw [remove_empty k _ rfl rfl rfl]

theorem exec_wf [Inhabited K] [Inhabited T] (ops : List (op K T)) (t : splay_tree K T)
    (h : exec (splay_tree.new : splay_tree K T) ops = some t) : wf t := by
  rw [exec_eq_run _ _ _ h]
  exact run_wf _ _ new_wf

theorem exec_calls_eq_run_calls [Inhabited T] (t : splay_tree K T) (cs : List (call K T))
    (t1 : splay_tree K T) (h : exec_calls t cs = some t1) : t1 = run_calls t cs := by
  induction cs generalizing t with
  | nil =>
    simp only [exec_calls, Option.some.injEq] at h
    exact h.symm
  | cons c cs ih =>
    by_cases ha : t.null.allocated = true
    · simp only [exec_calls, exec_call, ha, if_true, Option.some_bind] at h
      exact ih _ h
    · simp [exec_calls, exec_call, ha] at h

end exec_lemmas

section exec_claims

variable [LinearOrder K]

/-- C1 (the code at the failing input, and the claim on every defined run).
After `remove(k)` on a freshly constructed tree the sentinel is released and no
further operation has a defined result, so there is no tree to traverse after
a second operation. On every run that leaves the sentinel allocated, the keys
of the in-order traversal are strictly increasing after every operation, so no
key occurs twice. -/
theorem exec_inorder_strictly_increasing [Inhabited K] [Inhabited T] :
    (∀ (k : K) (o : op K T) (ops : List (op K T)),
      exec (splay_tree.new : splay_tree K T) (op.remove k :: o :: ops) = none) ∧
    (∀ (ops : List (op K T)) (i : Nat) (t : splay_tree K T),
      exec (splay_tree.new : splay_tree K T) (ops.take i) = some t →
        t.null.allocated = true →
          List.Sorted (· < ·) (keys t.root) ∧ (keys t.root).Nodup) := by
  refine ⟨fun k o ops => exec_remove_new k o ops, fun ops i t h _ => ?_⟩
  have hw := exec_wf _ t h
  have hs : List.Sorted (· < ·) (keys t.root) := by
    unfold List.Sorted keys
    rw [List.pairwise_map]
    exact hw.1
  exact ⟨hs, hs.nodup⟩

/-- C2 (the code at the failing input, and the claim on every defined run).
In `insert(5, 50); remove(5); remove(5); insert(1, 10)` the second `remove`
runs on the emptied tree and releases the sentinel, so the `insert` and a
following `contains(1)` have no defined result, although the last operation
that names 1 is an insert. After every sequence of inserts and removes that
leaves the sentinel allocated, `contains(k)` returns true if and only if the
last operation of the sequence that names `k` is an insert. -/
theorem exec_contains_after_updates [Inhabited K] [Inhabited T] :
    ((exec (splay_tree.new : splay_tree Nat Nat)
        [op.insert 5 50, op.remove 5, op.remove 5]).map (fun t => t.null.allocated)
      = some false ∧
     (exec (splay_tree.new : splay_tree Nat Nat)
        [op.insert 5 50, op.remove 5, op.remove 5, op.insert 1 10]).bind (exec_contains 1)
      = none ∧
     inserted_last 1 ([op.insert 5 50, op.remove 5, op.remove 5, op.insert 1 10] :
        List (op Nat Nat)) = true) ∧
    (∀ (ops : List (op K T)) (k : K) (b : Bool), (∀ o ∈ ops, o.is_update = true) →
      (exec (splay_tree.new : splay_tree K T) ops).bind (exec_contains k) = some b →
        (b = true ↔ inserted_last k ops = true)) := by
  refine ⟨⟨by decide, by decide, by decide⟩, fun ops k b hu h => ?_⟩
  cases he : exec (splay_tree.new : splay_tree K T) ops with
  | none => rw [he] at h; simp at h
  | some t =>
    rw [he] at h
    have e := exec_eq_run _ _ _ he
    by_cases ha : t.null.allocated = true
    · simp only [Option.some_bind, exec_contains, ha, if_true, Option.some.injEq] at h
      rw [← h, e, contains_iff k _ (run_wf _ ops new_wf).1]
      exact mem_keys_run ops hu k
    · simp [exec_contains, ha] at h

/-- C13 (the code at the failing input, and the claim on every defined run).
`remove(k)` on a freshly constructed tree completes and leaves the sentinel
released, so there is no sentinel object whose links could lead to itself, and
no further call has a defined result. After every run that leaves the sentinel
allocated, the sentinel's left link and right link both lead to the sentinel
itself. -/
theorem exec_calls_sentinel_links [Inhabited K] [Inhabited T] :
    (∀ k : K, (exec_calls (splay_tree.new : splay_tree K T) [call.op (op.remove k)]).map
      (fun t => t.null.allocated) = some false) ∧
    (∀ (k : K) (c : call K T) (cs : List (call K T)),
      exec_calls (splay_tree.new : splay_tree K T) (call.op (op.remove k) :: c :: cs) = none) ∧
    (∀ (cs : List (call K T)) (i : Nat) (t : splay_tree K T),
      exec_calls (splay_tree.new : splay_tree K T) (cs.take i) = some t →
        t.null.allocated = true → t.null.left = .null_node ∧ t.null.right = .null_node) := by
  have hrel : ∀ k : K, (apply_call (splay_tree.new : splay_tree K T)
      (call.op (op.remove k))).null.allocated = false := by
    intro k
    simp only [apply_call, apply_op]
    rw [remove_empty k _ rfl rfl rfl]
  have hnew : (splay_tree.new : splay_tree K T).null.allocated = true := rfl
  refine ⟨fun k => ?_, fun k c cs => ?_, fun cs i t h _ => ?_⟩
  · simp [exec_calls, exec_call, hnew, hrel k]
  · simp [exec_calls, exec_call, hnew, hrel k]
  · rw [exec_calls_eq_run_calls _ _ _ h]
    exact (run_calls_wf _ _ new_wf).2

end exec_claims

section clear_rounds

variable [LinearOrder K]

/-- The loop of `clear()` is the repetition of its body: with one more round
allowed it stops at once on an empty tree, and otherwise runs the body once and
goes on from the tree the body leaves. -/
theorem clear_loop_succ (f : Nat) (t : splay_tree K T) :
    clear_loop (f + 1) t =
      if empty t then some (t, 0)
      else (clear_loop f (clear_round t)).map (fun r => (r.1, r.2 + 1)) := rfl

/-- One round of the loop of `clear()` on a non-empty tree with the ordering
invariant removes the last entry of the in-order traversal, the one with the
greatest key, and nothing else. -/
theorem clear_round_inorder (t : splay_tree K T) (hn : is_null t.root = false)
    (ho : ordered t.root) :
    inorder (clear_round t).root = (inorder t.root).dropLast := by
  cases hr : t.root with
  | null_node => rw [hr] at hn; simp [is_null] at hn
  | mk x v l r =>
    obtain ⟨k0, v0, rest, hi, h⟩ := find_max_real x v l r t hr
    have hk : (k0, v0) ∈ inorder t.root := by rw [hi]; simp
    obtain ⟨l1, r1, h1⟩ := splay_root_present k0 v0 t ho hk
    have ho1 : ordered (splay_root k0 t).root := by
      unfold ordered; rw [inorder_splay_root]; exact ho
    have hn1 : is_null (splay_root k0 t).root = false := by rw [h1]; rfl
    have hrest : ∀ p ∈ rest, p.1 < k0 := by
      have hp : (inorder t.root).Pairwise (fun p q => p.1 < q.1) := ho
      exact pairwise_below rest k0 v0 [] hp hi
    have e : clear_round t = remove k0 (splay_root k0 t) := by
      simp only [clear_round, h, h1, node.key]
    rw [e, remove_inorder k0 _ hn1 ho1, inorder_splay_root, ← hr, hi, List.dropLast_concat,
      List.filter_append, List.filter_eq_self.2 (fun p hp => by simpa using ne_of_lt (hrest p hp))]
    simp

theorem clear_round_eq (t : splay_tree K T) :
    clear_round t = remove ((find_max t).2.root.key (find_max t).2.null) (find_max t).2 := rfl

/-- After `j` rounds of the loop of `clear()` on a tree with the ordering
invariant and at least `j` nodes, `j` nodes fewer are left, still in order. -/
theorem clear_round_iterate (j : Nat) (t : splay_tree K T) (ho : ordered t.root)
    (hj : j ≤ size t.root) :
    size (clear_round^[j] t).root = size t.root - j ∧ ordered (clear_round^[j] t).root := by
  induction j generalizing t with
  | zero => exact ⟨rfl, ho⟩
  | succ j ih =>
    have hn : is_null t.root = false := by
      cases hr : t.root with
      | null_node => rw [hr] at hj; simp [size] at hj
      | mk _ _ _ _ => rfl
    obtain ⟨ho1, hsz, _⟩ := clear_round_ordered t hn ho
    rw [← clear_round_eq] at ho1 hsz
    obtain ⟨h1, h2⟩ := ih (clear_round t) ho1 (by omega)
    rw [Function.iterate_succ_apply]
    exact ⟨by rw [h1]; omega, h2⟩

/-- With fewer rounds allowed than the tree has nodes the loop of `clear()`
has not ended. -/
theorem clear_loop_lt (f : Nat) (t : splay_tree K T) (ho : ordered t.root)
    (hf : f < size t.root) : clear_loop f t = none := by
  induction f generalizing t with
  | zero =>
    have hn : empty t = false := by
      cases hr : t.root with
      | null_node => rw [hr] at hf; simp [size] at hf
      | mk _ _ _ _ => simp [empty, hr, is_null]
    simp [clear_loop, hn]
  | succ f ih =>
    have hn : is_null t.root = false := by
      cases hr : t.root with
      | null_node => rw [hr] at hf; simp [size] at hf
      | mk _ _ _ _ => rfl
    obtain ⟨ho1, hsz, _⟩ := clear_round_ordered t hn ho
    rw [← clear_round_eq] at ho1 hsz
    have he : empty t = false := hn
    rw [clear_loop_succ, he, ih (clear_round t) ho1 (by omega)]
    rfl

/-- With at least as many rounds allowed as the tree has nodes the loop of
`clear()` ends after exactly that many rounds, in the tree the repeated body
leaves. -/
theorem clear_loop_iterate (f : Nat) (t : splay_tree K T) (ho : ordered t.root)
    (hf : size t.root ≤ f) :
    clear_loop f t = some (clear_round^[size t.root] t, size t.root) := by
  induction f generalizing t with
  | zero =>
    have hr : t.root = .null_node := by
      cases hr : t.root with
      | null_node => rfl
      | mk _ _ _ _ => rw [hr] at hf; simp [size] at hf
    simp [clear_loop, empty, hr, is_null, size]
  | succ f ih =>
    cases hr : t.root with
    | null_node => simp [clear_loop, empty, hr, is_null, size]
    | mk x v l r =>
      have hn : is_null t.root = false := by rw [hr]; rfl
      obtain ⟨ho1, hsz, _⟩ := clear_round_ordered t hn ho
      rw [← clear_round_eq] at ho1 hsz
      have he : empty t = false := hn
      rw [clear_loop_succ, he, ih (clear_round t) ho1 (by omega), ← hr, ← hsz,
        Function.iterate_succ_apply]
      rfl

/-- C10. On a tree with the ordering invariant `clear()` terminates and leaves
the tree empty, and its loop runs exactly once per stored key. The loop is the
repetition of the round `find_max(); remove(root->key);`. Each round on a
non-empty tree removes exactly one node, the one with the greatest key, and
keeps the order, so after `j` rounds `j` nodes fewer are left. With fewer rounds
allowed than there are keys the loop has not ended; with at least as many it
ends after exactly one round per key, in the tree that many rounds leave,
whose root is the sentinel. The sentinel is not released. -/
theorem clear_runs_once_per_key (t : splay_tree K T) (ho : ordered t.root) :
    (∀ (f : Nat) (u : splay_tree K T), clear_loop (f + 1) u =
      if empty u then some (u, 0)
      else (clear_loop f (remove ((find_max u).2.root.key (find_max u).2.null)
        (find_max u).2)).map (fun r => (r.1, r.2 + 1))) ∧
    (∀ u : splay_tree K T, clear_loop 0 u = if empty u then some (u, 0) else none) ∧
    (t.root ≠ .null_node →
      size (clear_round t).root + 1 = size t.root ∧ ordered (clear_round t).root ∧
      inorder (clear_round t).root = (inorder t.root).dropLast) ∧
    (∀ j, j ≤ size t.root → size (clear_round^[j] t).root = size t.root - j) ∧
    (∀ f, f < size t.root → clear_loop f t = none) ∧
    (∀ f, size t.root ≤ f → clear_loop f t = some (clear t, size t.root)) ∧
    clear t = clear_round^[size t.root] t ∧
    (clear t).root = .null_node ∧ empty (clear t) = true ∧
    (clear t).null.allocated = t.null.allocated := by
  have hc : clear t = clear_round^[size t.root] t := by
    simp [clear, clear_loop_iterate (size t.root) t ho (le_refl _)]
  obtain ⟨t0, h0, hroot, _, _, halloc⟩ := clear_loop_ordered (size t.root) t ho (le_refl _)
  have hc0 : clear t = t0 := by simp [clear, h0]
  refine ⟨fun f u => rfl, fun u => rfl, fun hne => ?_,
    fun j hj => (clear_round_iterate j t ho hj).1, fun f hf => clear_loop_lt f t ho hf,
    fun f hf => by rw [hc]; exact clear_loop_iterate f t ho hf, hc,
    by rw [hc0]; exact hroot, by rw [hc0]; simp [empty, hroot, is_null],
    by rw [hc0]; exact halloc⟩
  have hn := is_null_eq_false_iff.2 hne
  obtain ⟨h1, h2, _⟩ := clear_round_ordered t hn ho
  exact ⟨h2, h1, clear_round_inorder t hn ho⟩

theorem clear_runs_once_per_key_witness :
    ordered (node.mk 5 50 (node.mk 2 20 .null_node .null_node)
        (node.mk 8 80 .null_node .null_node) : node Nat Nat) ∧
    clear_loop 2 (⟨reset_null_node, node.mk 5 50 (node.mk 2 20 .null_node .null_node)
        (node.mk 8 80 .null_node .null_node)⟩ : splay_tree Nat Nat) = none ∧
    clear_loop 3 (⟨reset_null_node, node.mk 5 50 (node.mk 2 20 .null_node .null_node)
        (node.mk 8 80 .null_node .null_node)⟩ : splay_tree Nat Nat)
      = some (clear ⟨reset_null_node, node.mk 5 50 (node.mk 2 20 .null_node .null_node)
        (node.mk 8 80 .null_node .null_node)⟩, 3) ∧
    inorder (clear_round (⟨reset_null_node, node.mk 5 50
        (node.mk 2 20 .null_node .null_node) (node.mk 8 80 .null_node .null_node)⟩ :
          splay_tree Nat Nat)).root = [(2, 20), (5, 50)] := by
  have ho : ordered (node.mk 5 50 (node.mk 2 20 .null_node .null_node)
      (node.mk 8 80 .null_node .null_node) : node Nat Nat) := by
    simp [ordered, inorder]
  have h := clear_runs_once_per_key (⟨reset_null_node, node.mk 5 50
    (node.mk 2 20 .null_node .null_node) (node.mk 8 80 .null_node .null_node)⟩ :
      splay_tree Nat Nat) ho
  refine ⟨ho, h.2.2.2.2.1 2 (by simp [size]), h.2.2.2.2.2.1 3 (by simp [size]), ?_⟩
  rw [(h.2.2.1 (by simp)).2.2]
  simp [inorder]

end clear_rounds

section exec_amortized

variable [LinearOrder K]

theorem exec_steps_released (t : splay_tree K T) (h : t.null.allocated = false) (o : op K T)
    (ops : List (op K T)) : exec_steps t (o :: ops) = none := by
  simp [exec_steps, h]

end exec_amortized

section exec_witnesses

theorem exec_inorder_strictly_increasing_witness :
    exec (splay_tree.new : splay_tree Nat Nat)
        ([op.insert 5 50, op.insert 2 20, op.remove 5, op.insert 7 70].take 4)
      = some (run splay_tree.new [op.insert 5 50, op.insert 2 20, op.remove 5, op.insert 7 70]) ∧
    List.Sorted (· < ·) (keys (run (splay_tree.new : splay_tree Nat Nat)
        [op.insert 5 50, op.insert 2 20, op.remove 5, op.insert 7 70]).root) ∧
    (keys (run (splay_tree.new : splay_tree Nat Nat)
        [op.insert 5 50, op.insert 2 20, op.remove 5, op.insert 7 70]).root).Nodup :=
  ⟨by decide, (@exec_inorder_strictly_increasing Nat Nat _ _ _).2
    [op.insert 5 50, op.insert 2 20, op.remove 5, op.insert 7 70] 4 _ (by decide)
    (by decide)⟩

theorem exec_contains_after_updates_witness :
    (∀ o ∈ [op.insert 5 50, op.insert 2 20, op.remove 5, op.insert 7 70],
        o.is_update = true) ∧
    (exec (splay_tree.new : splay_tree Nat Nat)
        [op.insert 5 50, op.insert 2 20, op.remove 5, op.insert 7 70]).bind (exec_contains 2)
      = some true ∧
    (true = true ↔
      inserted_last 2 [op.insert 5 50, op.insert 2 20, op.remove 5, op.insert 7 70] = true) :=
  ⟨by decide, by decide, (@exec_contains_after_updates Nat Nat _ _ _).2
    [op.insert 5 50, op.insert 2 20, op.remove 5, op.insert 7 70] 2 true (by decide)
    (by decide)⟩

theorem exec_calls_sentinel_links_witness :
    exec_calls (splay_tree.new : splay_tree Nat Nat)
        ([call.op (op.insert 5 50), call.index 2, call.op (op.remove 5),
          call.op op.clear].take 3)
      = some (run_calls splay_tree.new
          [call.op (op.insert 5 50), call.index 2, call.op (op.remove 5)]) ∧
    (run_calls (splay_tree.new : splay_tree Nat Nat)
      [call.op (op.insert 5 50), call.index 2, call.op (op.remove 5)]).null.allocated = true ∧
    (run_calls (splay_tree.new : splay_tree Nat Nat)
      [call.op (op.insert 5 50), call.index 2, call.op (op.remove 5)]).null.left
        = .null_node ∧
    (run_calls (splay_tree.new : splay_tree Nat Nat)
      [call.op (op.insert 5 50), call.index 2, call.op (op.remove 5)]).null.right
        = .null_node :=
  ⟨by decide, by decide, (@exec_calls_sentinel_links Nat Nat _ _ _).2.2
    [call.op (op.insert 5 50), call.index 2, call.op (op.remove 5), call.op op.clear] 3 _
    (by decide) (by decide)⟩

end exec_witnesses

end pads
